import Mathlib

/-!
# Gomoku game tree: a shallow embedding of `src/GomokuTree.cpp`

The file embeds the depth-limited minimax search over the lazily expanded
game tree (`Node`, `Edge`, `GomokuTree`) and proves properties of it.

Conventions of the embedding.

* A `Node` owns its children through its edge list; the tree is a value.
  The non-owning `_parent` pointer of the source is read in two places only:
  `parent->_depth` in the constructor and `_parent->_score` in the cutoff test
  of `Node::search`.  Both reads are passed as arguments (`parent_depth`,
  `parent_score`).
* The board is mutated in place by the source; here every function that
  writes the board returns the board it leaves behind.  `find_childs`, which
  takes the board by reference and only reads it, returns it too.
* An exception ends the call that raises it and every call above it.  The one
  exception of the sources is the `std::length_error` of
  `_edges.reserve(size * size - _depth)` in `find_childs`, raised when the node
  is deeper than the number of cells.  A call ended by an exception has the
  result `none`, as has a call that dereferences `end()`; what the tree and the
  board hold after an exception is not modelled.
* `GomokuTree::_current` is a pointer into the tree; here it is the list of
  edge indices leading from the root to the pointed node.
* `depth_limit` ranges over the positive limits (`decide` passes 2).  On a
  limit smaller than 1 the source keeps recursing with negative limits; that
  is not modelled, and the statements about searching assume `1 ≤ depth_limit`.
* `ChessBroad`, `evaluate`, `first_win`, `second_win` and the class
  declarations live in headers that are not part of the sources at hand; they
  are parameters (`Config`) or modelled from the specification.
* `std::lower_bound` is modelled by the result the standard specifies,
  `std::max_element` by the loop of the library implementations, because the
  comparator passed to it holds for equal scores.
-/

namespace Gomoku

/-- Cell content, `enum class Chess`. -/
inductive Chess where
  | empty
  | first_player
  | second_player
deriving DecidableEq, Repr

/-- Grid coordinate, `Position{row, column}` with `int` fields. -/
structure Position where
  row : Int
  column : Int
deriving DecidableEq, Repr

/-- Modelled from the spec: the board class `ChessBroad` (its header is absent).
The board contract is `get(pos) -> Chess` and `set(pos, Chess)`; a board is the
map from positions to cell contents. -/
abbrev ChessBroad := Position → Chess

/-- Modelled from the spec: `ChessBroad::get`, the content of a cell. -/
def ChessBroad.get (broad : ChessBroad) (pos : Position) : Chess := broad pos

/-- Modelled from the spec: `ChessBroad::emplace`, the board contract's
`set(pos, Chess)`: overwrite one cell, leave the others. -/
def ChessBroad.emplace (broad : ChessBroad) (pos : Position) (c : Chess) : ChessBroad :=
  Function.update broad pos c

/-- The board with every cell empty (the board of a new `GomokuTree`). -/
def ChessBroad.init : ChessBroad := fun _ => Chess.empty

/-- The constants and the evaluator declared in the absent headers:
`ChessBroad::size`, `first_win`, `second_win`, `evaluate`, and the value a
node's `_score` holds before it is first assigned. -/
structure Config where
  size : Nat
  first_win : Int
  second_win : Int
  evaluate : ChessBroad → Int
  init_score : Int

/-- Node status, the values `normal`, `cut`, `leaf` used by the source. -/
inductive Status where
  | normal
  | cut
  | leaf
deriving DecidableEq, Repr

/-- A game-tree vertex: `_depth`, `_status`, `_score` and the owned edges,
each edge a pair of the move `pos` and the child `ptr`. -/
inductive Node where
  | mk (_depth : Nat) (_status : Status) (_score : Int) (_edges : List (Position × Node)) : Node

/-- Field `_depth`. -/
def Node._depth : Node → Nat
  | Node.mk d _ _ _ => d

/-- Field `_status`. -/
def Node._status : Node → Status
  | Node.mk _ s _ _ => s

/-- Field `_score`. -/
def Node._score : Node → Int
  | Node.mk _ _ s _ => s

/-- Field `_edges`. -/
def Node._edges : Node → List (Position × Node)
  | Node.mk _ _ _ es => es

/-- Modelled from the spec: `Node::Node(const Node *parent)` sets
`_depth{parent->_depth + 1}`; the default member initialisers are in the absent
header: a new node is active (`normal`), unexpanded, with the initial score. -/
def Node.new (cfg : Config) (parent_depth : Nat) : Node :=
  Node.mk (parent_depth + 1) Status.normal cfg.init_score []

/-- Modelled from the spec: the root node built by the default constructor of
the absent header: depth 0, no parent, active, unexpanded. -/
def Node.root (cfg : Config) : Node :=
  Node.mk 0 Status.normal cfg.init_score []

/-- `Node::next_first`: `(_depth % 2) == 0`. -/
def Node.next_first (n : Node) : Bool := n._depth % 2 == 0

/-- `Node::get_chess`. -/
def Node.get_chess (n : Node) : Chess :=
  if n.next_first then Chess.first_player else Chess.second_player

/-- The lambda `better_score` of `find_best_step` and `search`;
`first` is `next_first()` of the node that owns the lambda. -/
def better_score (first : Bool) (score1 score2 : Int) : Int :=
  if first then max score1 score2 else min score1 score2

/-- The worst score for the side to move: `next_first() ? second_win : first_win`. -/
def lower_bound_score (cfg : Config) (first : Bool) : Int :=
  if first then cfg.second_win else cfg.first_win

/-- The cells visited by the two nested loops of `find_childs` that are
empty, in visiting order (row ascending, then column ascending). -/
def empty_cells (size : Nat) (broad : ChessBroad) : List Position :=
  (List.range size).flatMap fun (i : Nat) =>
    ((List.range size).map fun (j : Nat) => Position.mk (Int.ofNat i) (Int.ofNat j)).filter
      fun p => broad.get p = Chess.empty

/-- `Node::find_childs`: status becomes `normal`, then
`_edges.reserve(size * size - _depth)`, then one new child is appended for every
empty cell.  When the node is deeper than the number of cells the argument of
`reserve` is negative, as a size it exceeds `max_size()`, and `reserve` throws
`std::length_error`: the result is `none`.  The board is passed by reference
and only read; it is returned as the call leaves it. -/
def Node.find_childs (cfg : Config) (n : Node) (broad : ChessBroad) : Option (Node × ChessBroad) :=
  if cfg.size * cfg.size < n._depth then none
  else
    some (Node.mk n._depth Status.normal n._score
      (n._edges ++ (empty_cells cfg.size broad).map fun p => (p, Node.new cfg n._depth)), broad)

/-- `Node::static_evaluate`. -/
def Node.static_evaluate (cfg : Config) (n : Node) (broad : ChessBroad) : Node :=
  let score := cfg.evaluate broad
  Node.mk n._depth
    (if score = cfg.first_win ∨ score = cfg.second_win then Status.leaf else n._status)
    score n._edges

/-- The `if / else if` in the body of the edge loops: evaluate the child at
the horizon, search it when it is neither cut nor leaf, otherwise leave it.
`recurse` is `Node::search` with `depth_limit - 1`; `parent_score` is the
`_score` of the node that runs the loop, at the time of the call.  `none` is an
exception that leaves the recursive call. -/
def visit_child (cfg : Config) (depth_limit : Nat)
    (recurse : Int → Node → ChessBroad → Option (Node × ChessBroad))
    (parent_score : Int) (child : Node) (broad : ChessBroad) : Option (Node × ChessBroad) :=
  if depth_limit = 1 then some (child.static_evaluate cfg broad, broad)
  else if child._status ≠ Status.cut ∧ child._status ≠ Status.leaf then
    recurse parent_score child broad
  else some (child, broad)

/-- State left by the edge loop of `Node::search`. -/
structure SearchLoop where
  edges : List (Position × Node)
  score : Int
  cut : Bool
  broad : ChessBroad

/-- The `for (auto &e : _edges)` loop of `Node::search`, with its early
`return` at the cutoff.  `score` is the running `_score` of the node,
`parent_score` is `_parent->_score`.  An exception in the visit of a child
ends the loop: `none`. -/
def search_loop (visit : Int → Node → ChessBroad → Option (Node × ChessBroad))
    (first : Bool) (chess : Chess) (parent_score : Int) :
    List (Position × Node) → Int → ChessBroad → Option SearchLoop
  | [], score, broad => some ⟨[], score, false, broad⟩
  | e :: es, score, broad =>
    match visit score e.2 (broad.emplace e.1 chess) with
    | none => none
    | some r =>
      if better_score first (better_score first score r.1._score) parent_score =
          better_score first score r.1._score then
        some ⟨(e.1, r.1) :: es, better_score first score r.1._score, true,
          r.2.emplace e.1 Chess.empty⟩
      else
        match search_loop visit first chess parent_score es
            (better_score first score r.1._score) (r.2.emplace e.1 Chess.empty) with
        | none => none
        | some rest => some ⟨(e.1, r.1) :: rest.edges, rest.score, rest.cut, rest.broad⟩

/-- `Node::search`; `parent_score` is `_parent->_score`.  The recursion is on
`depth_limit`; the equation for 0 is outside the modelled range (the callers
pass `depth_limit - 1` only when `depth_limit` is not 1).  `none` is the
exception of `find_childs`, in this node or in a node below it. -/
def Node.search (cfg : Config) : Nat → Int → Node → ChessBroad → Option (Node × ChessBroad)
  | 0, _, n, broad => some (n, broad)
  | k + 1, parent_score, n, broad =>
    match (if n._edges.isEmpty then
        (Node.mk n._depth n._status (lower_bound_score cfg n.next_first) n._edges).find_childs
          cfg broad
      else some (Node.mk n._depth n._status (lower_bound_score cfg n.next_first) n._edges,
        broad)) with
    | none => none
    | some n1 =>
      match search_loop (visit_child cfg (k + 1) (Node.search cfg k)) n.next_first n.get_chess
          parent_score n1.1._edges (lower_bound_score cfg n.next_first) n1.2 with
      | none => none
      | some r =>
        some (Node.mk n1.1._depth (if r.cut then Status.cut else n1.1._status) r.score r.edges,
          r.broad)

/-- The `for (auto &e : _edges)` loop of `Node::find_best_step`: every edge
is visited, the node's `_score` (`parent_score` for the children) is not
changed by the loop.  An exception in the visit of a child ends the loop:
`none`. -/
def find_best_step_loop (visit : Int → Node → ChessBroad → Option (Node × ChessBroad))
    (chess : Chess) (score : Int) :
    List (Position × Node) → ChessBroad → Option (List (Position × Node) × ChessBroad)
  | [], broad => some ([], broad)
  | e :: es, broad =>
    match visit score e.2 (broad.emplace e.1 chess) with
    | none => none
    | some r =>
      match find_best_step_loop visit chess score es (r.2.emplace e.1 Chess.empty) with
      | none => none
      | some rest => some ((e.1, r.1) :: rest.1, rest.2)

/-- The loop of `std::max_element` as the standard libraries implement it:
`if (comp(*largest, *first)) largest = first;` for every later element. -/
def max_element_loop {α : Type} (comp : α → α → Bool) : List α → Nat → Nat × α → Nat × α
  | [], _, largest => largest
  | x :: xs, i, largest =>
    max_element_loop comp xs (i + 1) (if comp largest.2 x then (i, x) else largest)

/-- `std::max_element(first, last, comp)`: `none` stands for the `last`
iterator of an empty range, otherwise the index and the element found.  The
comparator the source passes is not a strict order, so the result is the one
of the implementations' loop, not the one of the standard's wording. -/
def max_element {α : Type} (comp : α → α → Bool) : List α → Option (Nat × α)
  | [] => none
  | x :: xs => some (max_element_loop comp xs 1 (0, x))

/-- The comparator lambda passed to `std::max_element` in `find_best_step`. -/
def best_step_comp (first : Bool) (e1 e2 : Position × Node) : Bool :=
  better_score first e1.2._score e2.2._score == e2.2._score

/-- `Node::find_best_step`: the position returned, the node and the board
after the call.  `none` is an exception of `find_childs` (in this node or
below it), or the dereference of `end()` when the node has no edge after
expansion. -/
def Node.find_best_step (cfg : Config) (n : Node) (broad : ChessBroad) (depth_limit : Nat) :
    Option (Position × Node × ChessBroad) :=
  match (if n._edges.isEmpty then
      (Node.mk n._depth n._status (lower_bound_score cfg n.next_first) n._edges).find_childs
        cfg broad
    else some (Node.mk n._depth n._status (lower_bound_score cfg n.next_first) n._edges,
      broad)) with
  | none => none
  | some n1 =>
    match find_best_step_loop (visit_child cfg depth_limit (Node.search cfg (depth_limit - 1)))
        n.get_chess (lower_bound_score cfg n.next_first) n1.1._edges n1.2 with
    | none => none
    | some r =>
      match max_element (best_step_comp n.next_first) r.1 with
      | none => none
      | some ie => some (ie.2.1, Node.mk n1.1._depth n1.1._status n1.1._score r.1, r.2)

/-- The comparator lambda passed to `std::lower_bound` in `get_child`. -/
def pos_less (p1 p2 : Position) : Bool :=
  p1.row < p2.row || (p1.row == p2.row && p1.column < p2.column)

/-- `std::lower_bound(first, last, value, comp)` by the standard's wording:
the furthermost iterator `i` such that `comp(*j, value)` holds for every `j`
before `i`, as an index; the list length stands for `last`. -/
def lower_bound (edges : List (Position × Node)) (pos : Position) : Nat :=
  (edges.takeWhile fun e => pos_less e.1 pos).length

/-- `Node::get_child`: the node after the call and the index of the edge
whose child is returned; `none` is the dereference of `end()`. -/
def Node.get_child (cfg : Config) (n : Node) (pos : Position) : Option (Node × Nat) :=
  if n._edges.isEmpty then
    some (Node.mk n._depth n._status n._score (n._edges ++ [(pos, Node.new cfg n._depth)]),
      n._edges.length)
  else
    let i := lower_bound n._edges pos
    if i < n._edges.length then some (n, i) else none

/-- The node a path of edge indices points to. -/
def Node.getAt : List Nat → Node → Option Node
  | [], n => some n
  | i :: is, n =>
    match n._edges[i]? with
    | some e => Node.getAt is e.2
    | none => none

/-- Overwrite the node a path of edge indices points to. -/
def Node.setAt : List Nat → Node → Node → Node
  | [], _, new => new
  | i :: is, n, new =>
    match n._edges[i]? with
    | some e => Node.mk n._depth n._status n._score (n._edges.set i (e.1, Node.setAt is e.2 new))
    | none => n

/-- The positions of the edges a path follows. -/
def Node.pathMoves : List Nat → Node → Option (List Position)
  | [], _ => some []
  | i :: is, n =>
    match n._edges[i]? with
    | some e => (Node.pathMoves is e.2).map fun ps => e.1 :: ps
    | none => none

/-- `GomokuTree`: the owned root, the current node (as the path of edge
indices from the root) and the board mirror. -/
structure GomokuTree where
  _root : Node
  _current : List Nat
  _broad : ChessBroad

/-- `GomokuTree::GomokuTree()`: `_current = _root.get()`, empty board. -/
def GomokuTree.new (cfg : Config) : GomokuTree :=
  ⟨Node.root cfg, [], ChessBroad.init⟩

/-- `GomokuTree::update`. -/
def GomokuTree.update (cfg : Config) (t : GomokuTree) (pos : Position) : Option GomokuTree :=
  match t._root.getAt t._current with
  | none => none
  | some cur =>
    match cur.get_child cfg pos with
    | none => none
    | some (cur1, i) =>
      some ⟨t._root.setAt t._current cur1, t._current ++ [i], t._broad.emplace pos cur.get_chess⟩

/-- `GomokuTree::decide`: `depth_limit = 2`. -/
def GomokuTree.decide (cfg : Config) (t : GomokuTree) : Option (Position × GomokuTree) :=
  match t._root.getAt t._current with
  | none => none
  | some cur =>
    match cur.find_best_step cfg t._broad 2 with
    | none => none
    | some r => some (r.1, ⟨t._root.setAt t._current r.2.1, t._current, r.2.2⟩)

/-! ### The variant of the search without the cutoff test

`Node::search` with the block `if (better_score(_score, _parent->_score) == _score)
{ _status = cut; return; }` removed, and `Node::find_best_step` calling it. -/

/-- State left by the edge loop of the search without cutoff. -/
structure SearchLoopNocut where
  edges : List (Position × Node)
  score : Int
  broad : ChessBroad

/-- The edge loop of `Node::search` with the cutoff test removed. -/
def search_loop_nocut (visit : Int → Node → ChessBroad → Option (Node × ChessBroad))
    (first : Bool) (chess : Chess) :
    List (Position × Node) → Int → ChessBroad → Option SearchLoopNocut
  | [], score, broad => some ⟨[], score, broad⟩
  | e :: es, score, broad =>
    match visit score e.2 (broad.emplace e.1 chess) with
    | none => none
    | some r =>
      match search_loop_nocut visit first chess es (better_score first score r.1._score)
          (r.2.emplace e.1 Chess.empty) with
      | none => none
      | some rest => some ⟨(e.1, r.1) :: rest.edges, rest.score, rest.broad⟩

/-- `Node::search` with the cutoff test removed (the parent's score is no
longer read). -/
def Node.search_nocut (cfg : Config) : Nat → Int → Node → ChessBroad → Option (Node × ChessBroad)
  | 0, _, n, broad => some (n, broad)
  | k + 1, _, n, broad =>
    match (if n._edges.isEmpty then
        (Node.mk n._depth n._status (lower_bound_score cfg n.next_first) n._edges).find_childs
          cfg broad
      else some (Node.mk n._depth n._status (lower_bound_score cfg n.next_first) n._edges,
        broad)) with
    | none => none
    | some n1 =>
      match search_loop_nocut (visit_child cfg (k + 1) (Node.search_nocut cfg k)) n.next_first
          n.get_chess n1.1._edges (lower_bound_score cfg n.next_first) n1.2 with
      | none => none
      | some r => some (Node.mk n1.1._depth n1.1._status r.score r.edges, r.broad)

/-- `Node::find_best_step` over the search without cutoff. -/
def Node.find_best_step_nocut (cfg : Config) (n : Node) (broad : ChessBroad) (depth_limit : Nat) :
    Option (Position × Node × ChessBroad) :=
  match (if n._edges.isEmpty then
      (Node.mk n._depth n._status (lower_bound_score cfg n.next_first) n._edges).find_childs
        cfg broad
    else some (Node.mk n._depth n._status (lower_bound_score cfg n.next_first) n._edges,
      broad)) with
  | none => none
  | some n1 =>
    match find_best_step_loop
        (visit_child cfg depth_limit (Node.search_nocut cfg (depth_limit - 1)))
        n.get_chess (lower_bound_score cfg n.next_first) n1.1._edges n1.2 with
    | none => none
    | some r =>
      match max_element (best_step_comp n.next_first) r.1 with
      | none => none
      | some ie => some (ie.2.1, Node.mk n1.1._depth n1.1._status n1.1._score r.1, r.2)

/-! ### Reachable states and their invariant -/

/-- The cell is inside the grid. -/
def in_range (cfg : Config) (p : Position) : Prop :=
  0 ≤ p.row ∧ p.row < cfg.size ∧ 0 ≤ p.column ∧ p.column < cfg.size

/-- A legal move: an empty in-range cell of the board mirror. -/
def GomokuTree.legal (cfg : Config) (t : GomokuTree) (p : Position) : Prop :=
  in_range cfg p ∧ t._broad.get p = Chess.empty

/-- The states reached from a new tree by `update` calls with legal moves
and `decide` calls, with the list of the moves fed to `update`. -/
inductive Reachable (cfg : Config) : List Position → GomokuTree → Prop
  | new : Reachable cfg [] (GomokuTree.new cfg)
  | update {ms : List Position} {t t1 : GomokuTree} {p : Position} :
      Reachable cfg ms t → t.legal cfg p → t.update cfg p = some t1 →
      Reachable cfg (ms ++ [p]) t1
  | decide {ms : List Position} {t t1 : GomokuTree} {p : Position} :
      Reachable cfg ms t → t.decide cfg = some (p, t1) → Reachable cfg ms t1

/-- A terminal node is closed: when the status is `leaf` the score is the
evaluator's score of the node's board, it is a win sentinel, and the node has
no edges. -/
def Node.LeafOK (cfg : Config) (b : ChessBroad) (n : Node) : Prop :=
  n._status = Status.leaf →
    n._score = cfg.evaluate b ∧ (n._score = cfg.first_win ∨ n._score = cfg.second_win) ∧
      n._edges = []

/-- The cached subtree below a node agrees with the board the node stands
for, down to `h` levels: a node is unexpanded or has one edge per empty cell
of the board; a child is one ply deeper, a terminal child is closed, and the
children agree with their boards. -/
def Node.Inv (cfg : Config) : Nat → ChessBroad → Node → Prop
  | 0, _, n => n._edges = []
  | h + 1, b, n => n._edges = [] ∨
      (n._edges.map Prod.fst = empty_cells cfg.size b ∧
        ∀ e ∈ n._edges, e.2._depth = n._depth + 1 ∧
          Node.LeafOK cfg (b.emplace e.1 n.get_chess) e.2 ∧
          Node.Inv cfg h (b.emplace e.1 n.get_chess) e.2)

/-- A sequence of `update` calls. -/
def GomokuTree.updates (cfg : Config) : GomokuTree → List Position → Option GomokuTree
  | t, [] => some t
  | t, p :: ps =>
    match t.update cfg p with
    | some t1 => GomokuTree.updates cfg t1 ps
    | none => none

/-! ### `ComputerPlayer` (`src/ComputerPlayer.cpp`) -/

/-- `ComputerPlayer`: the flag `_is_first` and the owned tree `_tree`. -/
structure ComputerPlayer where
  _is_first : Bool
  _tree : GomokuTree

/-- `ComputerPlayer::ComputerPlayer(bool is_first)`: the flag is stored, the
tree member is a new `GomokuTree`. -/
def ComputerPlayer.new (cfg : Config) (is_first : Bool) : ComputerPlayer :=
  ⟨is_first, GomokuTree.new cfg⟩

/-- `ComputerPlayer::get_pos`: the position returned and the player after the
call; `none` when one of the tree calls has no result.  The source does not
read its parameter `current`. -/
def ComputerPlayer.get_pos (cfg : Config) (pl : ComputerPlayer) (_current : ChessBroad)
    (last : Position) : Option (Position × ComputerPlayer) :=
  match (if !pl._is_first then pl._tree.update cfg last else some pl._tree) with
  | none => none
  | some t1 =>
    match t1.decide cfg with
    | none => none
    | some (pos, t2) =>
      match t2.update cfg pos with
      | none => none
      | some t3 => some (pos, ⟨false, t3⟩)

/-! ### `Node::cut_subtree` -/

/-- `_edges.clear()`: every edge, and with it the child it owns, is destroyed. -/
def edges_clear (_edges : List (Position × Node)) : List (Position × Node) := []

mutual
/-- `Node::cut_subtree()`: every child is cut, the edges are cleared, the
status becomes `cut`. -/
def Node.cut_subtree : Node → Node
  | Node.mk d _ sc es => Node.mk d Status.cut sc (edges_clear (cut_subtree_loop es))
/-- The loop `for (auto &e : _edges) e.ptr->cut_subtree();`. -/
def cut_subtree_loop : List (Position × Node) → List (Position × Node)
  | [] => []
  | e :: es => (e.1, Node.cut_subtree e.2) :: cut_subtree_loop es
end

/-- The loop of `Node::cut_subtree(Position except_pos)`: the edge whose
position is `except_pos` is skipped (`continue`), every other child is cut. -/
def cut_subtree_except_loop (except_pos : Position) :
    List (Position × Node) → List (Position × Node)
  | [] => []
  | e :: es =>
    (if e.1 = except_pos then e else (e.1, Node.cut_subtree e.2)) ::
      cut_subtree_except_loop except_pos es

/-- `Node::cut_subtree(Position except_pos)`: the loop, then `_edges.clear()`;
the status is not assigned. -/
def Node.cut_subtree_except (n : Node) (except_pos : Position) : Node :=
  Node.mk n._depth n._status n._score (edges_clear (cut_subtree_except_loop except_pos n._edges))

/-! ### The search with a record of what it does

The same code as `Node::search` and `Node::find_best_step`, returning in
addition the list of the events of the call in the order they happen.  A node
is named by the path of edge indices that leads to it from the node on which
the recorded call was made. -/

/-- What a recorded call does to a node: `init` is the assignment
`_score = next_first() ? second_win : first_win` at the start of `search` or
`find_best_step`; `search` is a call `e.ptr->search(...)`, with the value of
`_parent->_score` at that time; `evaluate` is a call of the evaluator (through
`static_evaluate`) with the board it is given. -/
inductive Event where
  | init (path : List Nat) (score : Int)
  | search (path : List Nat) (parent_score : Int)
  | evaluate (path : List Nat) (broad : ChessBroad)

/-- The node an event is about. -/
def Event.path : Event → List Nat
  | Event.init path _ => path
  | Event.search path _ => path
  | Event.evaluate path _ => path

/-- `visit_child` with the record of the visit; `path` names the child. -/
def visit_child_tr (cfg : Config) (depth_limit : Nat)
    (recurse : List Nat → Int → Node → ChessBroad → Option (Node × ChessBroad) × List Event)
    (path : List Nat) (parent_score : Int) (child : Node) (broad : ChessBroad) :
    Option (Node × ChessBroad) × List Event :=
  if depth_limit = 1 then
    (some (child.static_evaluate cfg broad, broad), [Event.evaluate path broad])
  else if child._status ≠ Status.cut ∧ child._status ≠ Status.leaf then
    ((recurse path parent_score child broad).1,
      Event.search path parent_score :: (recurse path parent_score child broad).2)
  else (some (child, broad), [])

/-- `search_loop` with the record of the loop; `path` names the node that
runs the loop, `i` is the index of the first edge of the list.  The record of
a loop ended by an exception holds the events up to the exception. -/
def search_loop_tr
    (visit : List Nat → Int → Node → ChessBroad → Option (Node × ChessBroad) × List Event)
    (first : Bool) (chess : Chess) (parent_score : Int) (path : List Nat) :
    Nat → List (Position × Node) → Int → ChessBroad → Option SearchLoop × List Event
  | _, [], score, broad => (some ⟨[], score, false, broad⟩, [])
  | i, e :: es, score, broad =>
    match (visit (path ++ [i]) score e.2 (broad.emplace e.1 chess)).1 with
    | none => (none, (visit (path ++ [i]) score e.2 (broad.emplace e.1 chess)).2)
    | some r =>
      if better_score first (better_score first score r.1._score) parent_score =
          better_score first score r.1._score then
        (some ⟨(e.1, r.1) :: es, better_score first score r.1._score, true,
          r.2.emplace e.1 Chess.empty⟩,
          (visit (path ++ [i]) score e.2 (broad.emplace e.1 chess)).2)
      else
        ((search_loop_tr visit first chess parent_score path (i + 1) es
            (better_score first score r.1._score) (r.2.emplace e.1 Chess.empty)).1.map
          fun rest => ⟨(e.1, r.1) :: rest.edges, rest.score, rest.cut, rest.broad⟩,
          (visit (path ++ [i]) score e.2 (broad.emplace e.1 chess)).2 ++
            (search_loop_tr visit first chess parent_score path (i + 1) es
              (better_score first score r.1._score) (r.2.emplace e.1 Chess.empty)).2)

/-- `Node::search` with the record of the call; `path` names the node. -/
def Node.search_tr (cfg : Config) :
    Nat → List Nat → Int → Node → ChessBroad → Option (Node × ChessBroad) × List Event
  | 0, _, _, n, broad => (some (n, broad), [])
  | k + 1, path, parent_score, n, broad =>
    match (if n._edges.isEmpty then
        (Node.mk n._depth n._status (lower_bound_score cfg n.next_first) n._edges).find_childs
          cfg broad
      else some (Node.mk n._depth n._status (lower_bound_score cfg n.next_first) n._edges,
        broad)) with
    | none => (none, [Event.init path (lower_bound_score cfg n.next_first)])
    | some n1 =>
      ((search_loop_tr (visit_child_tr cfg (k + 1) (Node.search_tr cfg k)) n.next_first
          n.get_chess parent_score path 0 n1.1._edges (lower_bound_score cfg n.next_first)
          n1.2).1.map
        fun r => (Node.mk n1.1._depth (if r.cut then Status.cut else n1.1._status) r.score
          r.edges, r.broad),
        Event.init path (lower_bound_score cfg n.next_first) ::
          (search_loop_tr (visit_child_tr cfg (k + 1) (Node.search_tr cfg k)) n.next_first
            n.get_chess parent_score path 0 n1.1._edges (lower_bound_score cfg n.next_first)
            n1.2).2)

/-- `find_best_step_loop` with the record of the loop. -/
def find_best_step_loop_tr
    (visit : List Nat → Int → Node → ChessBroad → Option (Node × ChessBroad) × List Event)
    (chess : Chess) (score : Int) (path : List Nat) :
    Nat → List (Position × Node) → ChessBroad →
      Option (List (Position × Node) × ChessBroad) × List Event
  | _, [], broad => (some ([], broad), [])
  | i, e :: es, broad =>
    match (visit (path ++ [i]) score e.2 (broad.emplace e.1 chess)).1 with
    | none => (none, (visit (path ++ [i]) score e.2 (broad.emplace e.1 chess)).2)
    | some r =>
      ((find_best_step_loop_tr visit chess score path (i + 1) es
          (r.2.emplace e.1 Chess.empty)).1.map
        fun rest => ((e.1, r.1) :: rest.1, rest.2),
        (visit (path ++ [i]) score e.2 (broad.emplace e.1 chess)).2 ++
          (find_best_step_loop_tr visit chess score path (i + 1) es
            (r.2.emplace e.1 Chess.empty)).2)

/-- `Node::find_best_step` with the record of the call, made on the node of
path `[]`. -/
def Node.find_best_step_tr (cfg : Config) (n : Node) (broad : ChessBroad) (depth_limit : Nat) :
    Option (Position × Node × ChessBroad) × List Event :=
  match (if n._edges.isEmpty then
      (Node.mk n._depth n._status (lower_bound_score cfg n.next_first) n._edges).find_childs
        cfg broad
    else some (Node.mk n._depth n._status (lower_bound_score cfg n.next_first) n._edges,
      broad)) with
  | none => (none, [Event.init [] (lower_bound_score cfg n.next_first)])
  | some n1 =>
    ((find_best_step_loop_tr
        (visit_child_tr cfg depth_limit (Node.search_tr cfg (depth_limit - 1)))
        n.get_chess (lower_bound_score cfg n.next_first) [] 0 n1.1._edges n1.2).1.bind
      fun r =>
        match max_element (best_step_comp n.next_first) r.1 with
        | none => none
        | some ie => some (ie.2.1, Node.mk n1.1._depth n1.1._status n1.1._score r.1, r.2),
      Event.init [] (lower_bound_score cfg n.next_first) ::
        (find_best_step_loop_tr
          (visit_child_tr cfg depth_limit (Node.search_tr cfg (depth_limit - 1)))
          n.get_chess (lower_bound_score cfg n.next_first) [] 0 n1.1._edges n1.2).2)

/-- The edges the loops of `search` and `find_best_step` run over: the node's
own edges, or the edges `find_childs` makes when it has none. -/
def Node.loop_edges (cfg : Config) (n : Node) (broad : ChessBroad) : List (Position × Node) :=
  if n._edges.isEmpty then (empty_cells cfg.size broad).map fun p => (p, Node.new cfg n._depth)
  else n._edges

/-- The `_parent` pointer of the node at path `q` of the tree `root`: a child
is made by `std::make_unique<Node>(this)` in the node that takes it into its
edge list, so its parent is the node one step up the path; the root has none. -/
def Node.parent_at (root : Node) (q : List Nat) : Option Node :=
  if q = [] then none else root.getAt q.dropLast

/-- The node is not deeper than the number of stones on the grid (the cells
of the grid that are not empty): its depth and the number of empty cells do
not exceed the number of cells.  In a game played by legal moves the depth of
the current node is the number of stones. -/
def Node.depth_fits (cfg : Config) (broad : ChessBroad) (n : Node) : Prop :=
  n._depth + (empty_cells cfg.size broad).length ≤ cfg.size * cfg.size

/-! ### Total forms used in the proofs

These are not embeddings of source functions, and no statement about the code
is made with them.  For each call `f` above that the exception of `reserve` can
end, `f_tot` is the same computation with the call of `reserve` left out; it
always returns.  A call of the code either is ended by the exception or
returns what `f_tot` computes (`search_le`, `find_best_step_le`, `decide_le`),
and no exception is met under the invariant of the cached subtree and the
depth bound `Node.depth_fits`, in particular in every state reached by legal
moves (`search_some`, `find_best_step_some`, `decide_some`). -/

/-- `Node.find_childs` with the call of `reserve` left out: the node the call
leaves when `reserve` does not throw. -/
def Node.find_childs_tot (cfg : Config) (n : Node) (broad : ChessBroad) : Node :=
  Node.mk n._depth Status.normal n._score
    (n._edges ++ (empty_cells cfg.size broad).map fun p => (p, Node.new cfg n._depth))

/-- `visit_child` over a `recurse` that always returns. -/
def visit_child_tot (cfg : Config) (depth_limit : Nat)
    (recurse : Int → Node → ChessBroad → Node × ChessBroad)
    (parent_score : Int) (child : Node) (broad : ChessBroad) : Node × ChessBroad :=
  if depth_limit = 1 then (child.static_evaluate cfg broad, broad)
  else if child._status ≠ Status.cut ∧ child._status ≠ Status.leaf then
    recurse parent_score child broad
  else (child, broad)

/-- `search_loop` over a `visit` that always returns. -/
def search_loop_tot (visit : Int → Node → ChessBroad → Node × ChessBroad)
    (first : Bool) (chess : Chess) (parent_score : Int) :
    List (Position × Node) → Int → ChessBroad → SearchLoop
  | [], score, broad => ⟨[], score, false, broad⟩
  | e :: es, score, broad =>
    let r := visit score e.2 (broad.emplace e.1 chess)
    let broad1 := r.2.emplace e.1 Chess.empty
    let score1 := better_score first score r.1._score
    if better_score first score1 parent_score = score1 then
      ⟨(e.1, r.1) :: es, score1, true, broad1⟩
    else
      let rest := search_loop_tot visit first chess parent_score es score1 broad1
      ⟨(e.1, r.1) :: rest.edges, rest.score, rest.cut, rest.broad⟩

/-- `Node.search` with the call of `reserve` left out. -/
def Node.search_tot (cfg : Config) : Nat → Int → Node → ChessBroad → Node × ChessBroad
  | 0, _, n, broad => (n, broad)
  | k + 1, parent_score, n, broad =>
    let score0 := lower_bound_score cfg n.next_first
    let n1 := if n._edges.isEmpty then (Node.mk n._depth n._status score0 n._edges).find_childs_tot cfg broad
      else Node.mk n._depth n._status score0 n._edges
    let r := search_loop_tot (visit_child_tot cfg (k + 1) (Node.search_tot cfg k)) n.next_first n.get_chess
      parent_score n1._edges score0 broad
    (Node.mk n1._depth (if r.cut then Status.cut else n1._status) r.score r.edges, r.broad)

/-- `find_best_step_loop` over a `visit` that always returns. -/
def find_best_step_loop_tot (visit : Int → Node → ChessBroad → Node × ChessBroad)
    (chess : Chess) (score : Int) :
    List (Position × Node) → ChessBroad → List (Position × Node) × ChessBroad
  | [], broad => ([], broad)
  | e :: es, broad =>
    let r := visit score e.2 (broad.emplace e.1 chess)
    let rest := find_best_step_loop_tot visit chess score es (r.2.emplace e.1 Chess.empty)
    ((e.1, r.1) :: rest.1, rest.2)

/-- `Node.find_best_step` with the call of `reserve` left out; `none` is the
dereference of `end()` when the node has no edge after expansion. -/
def Node.find_best_step_tot (cfg : Config) (n : Node) (broad : ChessBroad) (depth_limit : Nat) :
    Option (Position × Node × ChessBroad) :=
  let score0 := lower_bound_score cfg n.next_first
  let n1 := if n._edges.isEmpty then (Node.mk n._depth n._status score0 n._edges).find_childs_tot cfg broad
    else Node.mk n._depth n._status score0 n._edges
  let r := find_best_step_loop_tot (visit_child_tot cfg depth_limit (Node.search_tot cfg (depth_limit - 1)))
    n.get_chess score0 n1._edges broad
  match max_element (best_step_comp n.next_first) r.1 with
  | none => none
  | some (_, e) => some (e.1, Node.mk n1._depth n1._status n1._score r.1, r.2)

/-- `GomokuTree.decide` with the call of `reserve` left out. -/
def GomokuTree.decide_tot (cfg : Config) (t : GomokuTree) : Option (Position × GomokuTree) :=
  match t._root.getAt t._current with
  | none => none
  | some cur =>
    match cur.find_best_step_tot cfg t._broad 2 with
    | none => none
    | some (pos, cur1, broad1) => some (pos, ⟨t._root.setAt t._current cur1, t._current, broad1⟩)

/-- `search_loop_nocut` over a `visit` that always returns. -/
def search_loop_nocut_tot (visit : Int → Node → ChessBroad → Node × ChessBroad)
    (first : Bool) (chess : Chess) :
    List (Position × Node) → Int → ChessBroad → SearchLoopNocut
  | [], score, broad => ⟨[], score, broad⟩
  | e :: es, score, broad =>
    let r := visit score e.2 (broad.emplace e.1 chess)
    let broad1 := r.2.emplace e.1 Chess.empty
    let score1 := better_score first score r.1._score
    let rest := search_loop_nocut_tot visit first chess es score1 broad1
    ⟨(e.1, r.1) :: rest.edges, rest.score, rest.broad⟩

/-- `Node.search_nocut` with the call of `reserve` left out. -/
def Node.search_nocut_tot (cfg : Config) : Nat → Int → Node → ChessBroad → Node × ChessBroad
  | 0, _, n, broad => (n, broad)
  | k + 1, _, n, broad =>
    let score0 := lower_bound_score cfg n.next_first
    let n1 := if n._edges.isEmpty then (Node.mk n._depth n._status score0 n._edges).find_childs_tot cfg broad
      else Node.mk n._depth n._status score0 n._edges
    let r := search_loop_nocut_tot (visit_child_tot cfg (k + 1) (Node.search_nocut_tot cfg k)) n.next_first
      n.get_chess n1._edges score0 broad
    (Node.mk n1._depth n1._status r.score r.edges, r.broad)

/-- `Node.find_best_step_nocut` with the call of `reserve` left out. -/
def Node.find_best_step_nocut_tot (cfg : Config) (n : Node) (broad : ChessBroad) (depth_limit : Nat) :
    Option (Position × Node × ChessBroad) :=
  let score0 := lower_bound_score cfg n.next_first
  let n1 := if n._edges.isEmpty then (Node.mk n._depth n._status score0 n._edges).find_childs_tot cfg broad
    else Node.mk n._depth n._status score0 n._edges
  let r := find_best_step_loop_tot (visit_child_tot cfg depth_limit (Node.search_nocut_tot cfg (depth_limit - 1)))
    n.get_chess score0 n1._edges broad
  match max_element (best_step_comp n.next_first) r.1 with
  | none => none
  | some (_, e) => some (e.1, Node.mk n1._depth n1._status n1._score r.1, r.2)

/-- The states reached from a new tree by `update` calls with legal moves and
calls of `decide_tot`, with the list of the moves fed to `update`. -/
inductive Reachable_tot (cfg : Config) : List Position → GomokuTree → Prop
  | new : Reachable_tot cfg [] (GomokuTree.new cfg)
  | update {ms : List Position} {t t1 : GomokuTree} {p : Position} :
      Reachable_tot cfg ms t → t.legal cfg p → t.update cfg p = some t1 →
      Reachable_tot cfg (ms ++ [p]) t1
  | decide {ms : List Position} {t t1 : GomokuTree} {p : Position} :
      Reachable_tot cfg ms t → t.decide_tot cfg = some (p, t1) → Reachable_tot cfg ms t1

/-- `ComputerPlayer.get_pos` with the call of `reserve` left out. -/
def ComputerPlayer.get_pos_tot (cfg : Config) (pl : ComputerPlayer) (_current : ChessBroad)
    (last : Position) : Option (Position × ComputerPlayer) :=
  match (if !pl._is_first then pl._tree.update cfg last else some pl._tree) with
  | none => none
  | some t1 =>
    match t1.decide_tot cfg with
    | none => none
    | some (pos, t2) =>
      match t2.update cfg pos with
      | none => none
      | some t3 => some (pos, ⟨false, t3⟩)

/-- `visit_child_tr` over a `recurse` that always returns. -/
def visit_child_tr_tot (cfg : Config) (depth_limit : Nat)
    (recurse : List Nat → Int → Node → ChessBroad → (Node × ChessBroad) × List Event)
    (path : List Nat) (parent_score : Int) (child : Node) (broad : ChessBroad) :
    (Node × ChessBroad) × List Event :=
  if depth_limit = 1 then
    ((child.static_evaluate cfg broad, broad), [Event.evaluate path broad])
  else if child._status ≠ Status.cut ∧ child._status ≠ Status.leaf then
    ((recurse path parent_score child broad).1,
      Event.search path parent_score :: (recurse path parent_score child broad).2)
  else ((child, broad), [])

/-- `search_loop_tr` over a `visit` that always returns. -/
def search_loop_tr_tot (visit : List Nat → Int → Node → ChessBroad → (Node × ChessBroad) × List Event)
    (first : Bool) (chess : Chess) (parent_score : Int) (path : List Nat) :
    Nat → List (Position × Node) → Int → ChessBroad → SearchLoop × List Event
  | _, [], score, broad => (⟨[], score, false, broad⟩, [])
  | i, e :: es, score, broad =>
    let r := visit (path ++ [i]) score e.2 (broad.emplace e.1 chess)
    let broad1 := r.1.2.emplace e.1 Chess.empty
    let score1 := better_score first score r.1.1._score
    if better_score first score1 parent_score = score1 then
      (⟨(e.1, r.1.1) :: es, score1, true, broad1⟩, r.2)
    else
      let rest := search_loop_tr_tot visit first chess parent_score path (i + 1) es score1 broad1
      (⟨(e.1, r.1.1) :: rest.1.edges, rest.1.score, rest.1.cut, rest.1.broad⟩, r.2 ++ rest.2)

/-- `Node.search_tr` with the call of `reserve` left out. -/
def Node.search_tr_tot (cfg : Config) :
    Nat → List Nat → Int → Node → ChessBroad → (Node × ChessBroad) × List Event
  | 0, _, _, n, broad => ((n, broad), [])
  | k + 1, path, parent_score, n, broad =>
    let score0 := lower_bound_score cfg n.next_first
    let n1 := if n._edges.isEmpty then (Node.mk n._depth n._status score0 n._edges).find_childs_tot cfg broad
      else Node.mk n._depth n._status score0 n._edges
    let r := search_loop_tr_tot (visit_child_tr_tot cfg (k + 1) (Node.search_tr_tot cfg k)) n.next_first
      n.get_chess parent_score path 0 n1._edges score0 broad
    ((Node.mk n1._depth (if r.1.cut then Status.cut else n1._status) r.1.score r.1.edges,
      r.1.broad), Event.init path score0 :: r.2)

/-- `find_best_step_loop_tr` over a `visit` that always returns. -/
def find_best_step_loop_tr_tot
    (visit : List Nat → Int → Node → ChessBroad → (Node × ChessBroad) × List Event)
    (chess : Chess) (score : Int) (path : List Nat) :
    Nat → List (Position × Node) → ChessBroad → (List (Position × Node) × ChessBroad) × List Event
  | _, [], broad => (([], broad), [])
  | i, e :: es, broad =>
    let r := visit (path ++ [i]) score e.2 (broad.emplace e.1 chess)
    let rest := find_best_step_loop_tr_tot visit chess score path (i + 1) es
      (r.1.2.emplace e.1 Chess.empty)
    (((e.1, r.1.1) :: rest.1.1, rest.1.2), r.2 ++ rest.2)

/-- `Node.find_best_step_tr` with the call of `reserve` left out. -/
def Node.find_best_step_tr_tot (cfg : Config) (n : Node) (broad : ChessBroad) (depth_limit : Nat) :
    Option (Position × Node × ChessBroad) × List Event :=
  let score0 := lower_bound_score cfg n.next_first
  let n1 := if n._edges.isEmpty then (Node.mk n._depth n._status score0 n._edges).find_childs_tot cfg broad
    else Node.mk n._depth n._status score0 n._edges
  let r := find_best_step_loop_tr_tot
    (visit_child_tr_tot cfg depth_limit (Node.search_tr_tot cfg (depth_limit - 1)))
    n.get_chess score0 [] 0 n1._edges broad
  (match max_element (best_step_comp n.next_first) r.1.1 with
    | none => none
    | some (_, e) => some (e.1, Node.mk n1._depth n1._status n1._score r.1.1, r.1.2),
   Event.init [] score0 :: r.2)

/-! ### Auxiliary definitions of the proofs -/

/-- Signed score: the comparator of `find_best_step` orders children by it. -/
def signed (first : Bool) (s : Int) : Int := if first then s else -s

/-- What the invariant asks of an edge of a node at depth `d` that moves
`chess` on board `b`. -/
def ChildOK (cfg : Config) (h : Nat) (b : ChessBroad) (chess : Chess) (d : Nat)
    (e : Position × Node) : Prop :=
  e.2._depth = d + 1 ∧ Node.LeafOK cfg (b.emplace e.1 chess) e.2 ∧
    Node.Inv cfg h (b.emplace e.1 chess) e.2

/-- What a child visit must keep for the loops to keep the invariant. -/
def VisitOK (cfg : Config) (h : Nat) (visit : Int → Node → ChessBroad → Node × ChessBroad) : Prop :=
  ∀ (s : Int) (c : Node) (b : ChessBroad), Node.Inv cfg h b c → Node.LeafOK cfg b c →
    (visit s c b).2 = b ∧ Node.Inv cfg h b (visit s c b).1 ∧
      (visit s c b).1._depth = c._depth ∧ Node.LeafOK cfg b (visit s c b).1

/-- What `Node::search` keeps. -/
def SearchOK (cfg : Config) (k : Nat) : Prop :=
  ∀ (p : Int) (n : Node) (b : ChessBroad), Node.Inv cfg k b n →
    (Node.search_tot cfg k p n b).2 = b ∧ Node.Inv cfg k b (Node.search_tot cfg k p n b).1 ∧
      (Node.search_tot cfg k p n b).1._depth = n._depth ∧
      (n._status ≠ Status.leaf → (Node.search_tot cfg k p n b).1._status ≠ Status.leaf)

/-- The invariant of the reachable states: the current pointer is a valid
path, the current node is as deep as the number of moves, the path follows the
moves, and the cached subtree below the current node agrees with the board. -/
def StateInv (cfg : Config) (ms : List Position) (t : GomokuTree) : Prop :=
  ∃ cur, t._root.getAt t._current = some cur ∧ cur._depth = ms.length ∧
    t._root.pathMoves t._current = some ms ∧ Node.Inv cfg 2 t._broad cur

/-- The stone of the `i`-th move (counted from 0) when the first player opens. -/
def stone (i : Nat) : Chess := if i % 2 = 0 then Chess.first_player else Chess.second_player

/-- Independent replay of a move sequence on a board, stones alternating; the
move at offset `i` of the game comes first. -/
def replay_from : Nat → List Position → ChessBroad → ChessBroad
  | _, [], b => b
  | i, p :: ps, b => replay_from (i + 1) ps (b.emplace p (stone i))

/-- Independent replay of a move sequence on the empty board, the first
player opening. -/
def replay (ps : List Position) : ChessBroad := replay_from 0 ps ChessBroad.init

/-- What a later call keeps of a terminal node: status, score and the
positions of the edges. -/
def SameShape (n m : Node) : Prop :=
  m._status = n._status ∧ m._score = n._score ∧ m._edges.map Prod.fst = n._edges.map Prod.fst

/-- The score lies between the two win sentinels. -/
def InRange (cfg : Config) (s : Int) : Prop := cfg.second_win ≤ s ∧ s ≤ cfg.first_win

/-- How the score `g` of a searched child relates to the score `g1` the
search without cutoff gives it, under the parent's running score `s`: they are
equal, or the search was cut with a score that the parent's score already
dominates and the full score is at least as good for the child's mover. -/
def CutBound (first : Bool) (s g g1 : Int) : Prop :=
  g = g1 ∨ (better_score first g s = g ∧ better_score first g1 g = g1)

/-- The two child visits (with and without cutoff) agree on new children of a
node at depth `d`. -/
def VisitPair (cfg : Config) (d : Nat)
    (visit visit1 : Int → Node → ChessBroad → Node × ChessBroad) : Prop :=
  ∀ (s s1 : Int) (b : ChessBroad),
    (visit s (Node.new cfg d) b).2 = b ∧ (visit1 s1 (Node.new cfg d) b).2 = b ∧
    InRange cfg (visit s (Node.new cfg d) b).1._score ∧
    InRange cfg (visit1 s1 (Node.new cfg d) b).1._score ∧
    CutBound (!(d % 2 == 0)) s (visit s (Node.new cfg d) b).1._score
      (visit1 s1 (Node.new cfg d) b).1._score

/-- The search with cutoff and the search without agree on a new node. -/
def SoundAt (cfg : Config) (k : Nat) : Prop :=
  ∀ (d : Nat) (b : ChessBroad) (p p1 : Int),
    (Node.search_tot cfg k p (Node.new cfg d) b).2 = b ∧
    (Node.search_nocut_tot cfg k p1 (Node.new cfg d) b).2 = b ∧
    InRange cfg (Node.search_tot cfg k p (Node.new cfg d) b).1._score ∧
    InRange cfg (Node.search_nocut_tot cfg k p1 (Node.new cfg d) b).1._score ∧
    CutBound ((d + 1) % 2 == 0) p (Node.search_tot cfg k p (Node.new cfg d) b).1._score
      (Node.search_nocut_tot cfg k p1 (Node.new cfg d) b).1._score

/-- Two edges with the same position whose children have the same score. -/
def SameMove (x y : Position × Node) : Prop := x.1 = y.1 ∧ x.2._score = y.2._score

/-- A concrete configuration for the instances: a 3 x 3 grid, sentinels
1000 and -1000, an evaluator that scores every board 0. -/
def cfg_flat : Config := ⟨3, 1000, -1000, fun _ => 0, 0⟩

/-- The 5 x 5 grid of the specification's scenarios with an evaluator that
scores every board 0. -/
def cfg_flat5 : Config := ⟨5, 1000, -1000, fun _ => 0, 0⟩

/-- The 5 x 5 grid with the evaluator of the immediate-win scenario: the
first-win sentinel when the first player holds (2,2), 0 otherwise. -/
def cfg_win5 : Config :=
  ⟨5, 1000, -1000, fun b => if b ⟨2, 2⟩ = Chess.first_player then 1000 else 0, 0⟩

/-- The 3 x 3 grid with the evaluator of the immediate-win scenario. -/
def cfg_win3 : Config :=
  ⟨3, 1000, -1000, fun b => if b ⟨2, 2⟩ = Chess.first_player then 1000 else 0, 0⟩

/-- The players reached from a new player by `k` calls of `get_pos_tot`, the
opponent's move being legal in every call that feeds it to the tree. -/
inductive PlayerReach_tot (cfg : Config) (is_first : Bool) : Nat → ComputerPlayer → Prop
  | new : PlayerReach_tot cfg is_first 0 (ComputerPlayer.new cfg is_first)
  | get_pos {k : Nat} {pl pl1 : ComputerPlayer} {current : ChessBroad} {last pos : Position} :
      PlayerReach_tot cfg is_first k pl → (pl._is_first = false → pl._tree.legal cfg last) →
      pl.get_pos_tot cfg current last = some (pos, pl1) → PlayerReach_tot cfg is_first (k + 1) pl1

/-- The number of moves the tree has seen after `k` calls of `get_pos`. -/
def moves_after (is_first : Bool) (k : Nat) : Nat :=
  if k = 0 then 0 else if is_first then 2 * k - 1 else 2 * k

/-- The root of a new tree on the 3 x 3 grid after `decide()`: an expanded
node with nine edges. -/
def flat_root : Node :=
  match (GomokuTree.new cfg_flat).decide cfg_flat with
  | some r => r.2._root
  | none => Node.root cfg_flat

/-- The edge positions of the node ascend strictly (row, then column). -/
def Node.Sorted (n : Node) : Prop :=
  (n._edges.map Prod.fst).Pairwise fun p q => pos_less p q = true

/-- The 3 x 3 grid with an evaluator that scores every board as a win of the
second player. -/
def cfg_lose : Config := ⟨3, 1000, -1000, fun _ => -1000, 0⟩

/-- Every `search` event of the record `T` is about a node that is not the
node of the recorded call, and an `init` event of its parent stands before it,
in `T` or in the events `pre` that came before `T`. -/
def ParentInit (pre T : List Event) : Prop :=
  ∀ (i : Nat) (path : List Nat) (p : Int), T[i]? = some (Event.search path p) →
    path ≠ [] ∧ ∃ s, Event.init path.dropLast s ∈ pre ++ T.take i

/-- A recorded call of the code against its total form: either it returns
the same result with the same record, or it is ended by an exception and its
record is a beginning of the total form's record. -/
def TrLe {α : Type} (x : Option α × List Event) (y : α × List Event) : Prop :=
  (x.1 = some y.1 ∧ x.2 = y.2) ∨ (x.1 = none ∧ x.2 <+: y.2)

/-- The state of a new tree on the 3 x 3 grid after `update((1,1))`. -/
def flat_moved : GomokuTree :=
  match (GomokuTree.new cfg_flat).update cfg_flat ⟨1, 1⟩ with
  | some t => t
  | none => GomokuTree.new cfg_flat

/-- The state after `update((1,1))` and `decide()`. -/
def flat_decided : GomokuTree :=
  match flat_moved.decide cfg_flat with
  | some r => r.2
  | none => flat_moved

/-- The state after `update((1,1))`, `decide()`, which returns (2,2), and
`update((2,2))`. -/
def flat_replied : GomokuTree :=
  match flat_decided.update cfg_flat ⟨2, 2⟩ with
  | some t => t
  | none => flat_decided

/-- The 3 x 3 grid with an evaluator that scores a board -1000, the second
player's win, when the second player holds the corner (0,0), and 0 otherwise:
below every first move but (0,0) the first reply evaluated is (0,0), and the
search of that move ends by the cutoff. -/
def cfg_corner : Config :=
  ⟨3, 1000, -1000, fun b => if b ⟨0, 0⟩ = Chess.second_player then -1000 else 0, 0⟩

/-- The tree of the 3 x 3 grid after nine calls `update((0,0))`. -/
def flat_deep : Option GomokuTree :=
  (GomokuTree.new cfg_flat).updates cfg_flat (List.replicate 9 ⟨0, 0⟩)

/-- The state after `decide` on a new tree of `cfg_win3`. -/
def win3_state : GomokuTree :=
  match (GomokuTree.new cfg_win3).decide cfg_win3 with
  | some r => r.2
  | none => GomokuTree.new cfg_win3

/-- The first child of the root's child for (2,2) in `win3_state`. -/
def win3_leaf : Node :=
  match win3_state._root.getAt [8, 0] with
  | some n => n
  | none => Node.root cfg_win3

/-- The state after `decide`, `update(2,2)`, `update(0,0)` on a new tree of
`cfg_win3`: the current node is a terminal node. -/
def win3_at_leaf : Option GomokuTree :=
  ((GomokuTree.new cfg_win3).decide cfg_win3).bind fun r =>
    (r.2.update cfg_win3 ⟨2, 2⟩).bind fun t => t.update cfg_win3 ⟨0, 0⟩

/-- The players reached from a new player constructed with `is_first` by `k`
calls of `get_pos`, the opponent's move being legal in every call that feeds
it to the tree. -/
inductive PlayerReach (cfg : Config) (is_first : Bool) : Nat → ComputerPlayer → Prop
  | new : PlayerReach cfg is_first 0 (ComputerPlayer.new cfg is_first)
  | get_pos {k : Nat} {pl pl1 : ComputerPlayer} {current : ChessBroad} {last pos : Position} :
      PlayerReach cfg is_first k pl → (pl._is_first = false → pl._tree.legal cfg last) →
      pl.get_pos cfg current last = some (pos, pl1) → PlayerReach cfg is_first (k + 1) pl1

/-- The first mover on the 3 x 3 grid after its first call of `get_pos`. -/
def flat_player1 : ComputerPlayer :=
  match (ComputerPlayer.new cfg_flat true).get_pos cfg_flat ChessBroad.init ⟨0, 0⟩ with
  | some r => r.2
  | none => ComputerPlayer.new cfg_flat true

theorem emplace_same (b : ChessBroad) (p : Position) (c : Chess) : (b.emplace p c) p = c := by
  simp [ChessBroad.emplace]

theorem emplace_other (b : ChessBroad) (p q : Position) (c : Chess) (h : q ≠ p) :
    (b.emplace p c) q = b q := by
  simp [ChessBroad.emplace, Function.update_noteq h]

theorem emplace_restore (b : ChessBroad) (p : Position) (c : Chess) (h : b p = Chess.empty) :
    (b.emplace p c).emplace p Chess.empty = b := by
  unfold ChessBroad.emplace
  rw [Function.update_idem, ← h, Function.update_eq_self]

theorem best_step_comp_iff (first : Bool) (e1 e2 : Position × Node) :
    best_step_comp first e1 e2 = true ↔ signed first e1.2._score ≤ signed first e2.2._score := by
  cases first <;> simp [best_step_comp, better_score, signed]

theorem max_element_loop_spec {α : Type} (comp : α → α → Bool) (key : α → Int)
    (hc : ∀ a b, comp a b = true ↔ key a ≤ key b) (xs : List α) :
    ∀ (i : Nat) (l : Nat × α),
      key l.2 ≤ key (max_element_loop comp xs i l).2 ∧
      (∀ x ∈ xs, key x ≤ key (max_element_loop comp xs i l).2) ∧
      ((max_element_loop comp xs i l = l ∧ ∀ x ∈ xs, key x < key l.2) ∨
        (i ≤ (max_element_loop comp xs i l).1 ∧
          xs[(max_element_loop comp xs i l).1 - i]? = some (max_element_loop comp xs i l).2 ∧
          ∀ j x, (max_element_loop comp xs i l).1 - i < j → xs[j]? = some x →
            key x < key (max_element_loop comp xs i l).2)) := by
  induction xs with
  | nil => intro i l; simp [max_element_loop]
  | cons x xs ih =>
    intro i l
    simp only [max_element_loop]
    by_cases hx : comp l.2 x = true
    · rw [if_pos hx]
      have hk := (hc _ _).1 hx
      obtain ⟨h1, h2, h3⟩ := ih (i + 1) (i, x)
      simp only at h1
      refine ⟨le_trans hk h1, ?_, ?_⟩
      · intro y hy
        rcases List.mem_cons.1 hy with rfl | hy
        · exact h1
        · exact h2 y hy
      · right
        rcases h3 with ⟨heq, hlt⟩ | ⟨hle, hget, hlt⟩
        · rw [heq]
          refine ⟨le_refl _, by simp, ?_⟩
          intro j y hj hy
          simp only [Nat.sub_self] at hj
          obtain ⟨j, rfl⟩ : ∃ k, j = k + 1 := ⟨j - 1, by omega⟩
          simp only [List.getElem?_cons_succ] at hy
          exact hlt y (List.getElem?_mem hy)
        · refine ⟨by omega, ?_, ?_⟩
          · have : (max_element_loop comp xs (i + 1) (i, x)).1 - i
                = ((max_element_loop comp xs (i + 1) (i, x)).1 - (i + 1)) + 1 := by omega
            rw [this, List.getElem?_cons_succ]; exact hget
          · intro j y hj hy
            obtain ⟨j, rfl⟩ : ∃ k, j = k + 1 := ⟨j - 1, by omega⟩
            simp only [List.getElem?_cons_succ] at hy
            exact hlt j y (by omega) hy
    · rw [if_neg hx]
      have hk : key x < key l.2 := by
        by_contra hcon
        exact hx ((hc _ _).2 (not_lt.1 hcon))
      obtain ⟨h1, h2, h3⟩ := ih (i + 1) l
      refine ⟨h1, ?_, ?_⟩
      · intro y hy
        rcases List.mem_cons.1 hy with rfl | hy
        · exact le_trans (le_of_lt hk) h1
        · exact h2 y hy
      · rcases h3 with ⟨heq, hlt⟩ | ⟨hle, hget, hlt⟩
        · left
          refine ⟨heq, ?_⟩
          intro y hy
          rcases List.mem_cons.1 hy with rfl | hy
          · exact hk
          · exact hlt y hy
        · right
          refine ⟨by omega, ?_, ?_⟩
          · have : (max_element_loop comp xs (i + 1) l).1 - i
                = ((max_element_loop comp xs (i + 1) l).1 - (i + 1)) + 1 := by omega
            rw [this, List.getElem?_cons_succ]; exact hget
          · intro j y hj hy
            obtain ⟨j, rfl⟩ : ∃ k, j = k + 1 := ⟨j - 1, by omega⟩
            simp only [List.getElem?_cons_succ] at hy
            exact hlt j y (by omega) hy

theorem max_element_spec {α : Type} (comp : α → α → Bool) (key : α → Int)
    (hc : ∀ a b, comp a b = true ↔ key a ≤ key b) (xs : List α) (hne : xs ≠ []) :
    ∃ i e, max_element comp xs = some (i, e) ∧ xs[i]? = some e ∧
      (∀ x ∈ xs, key x ≤ key e) ∧ (∀ j x, i < j → xs[j]? = some x → key x < key e) := by
  cases xs with
  | nil => exact absurd rfl hne
  | cons x xs =>
    obtain ⟨h1, h2, h3⟩ := max_element_loop_spec comp key hc xs 1 (0, x)
    refine ⟨(max_element_loop comp xs 1 (0, x)).1, (max_element_loop comp xs 1 (0, x)).2, rfl, ?_, ?_, ?_⟩
    · rcases h3 with ⟨heq, _⟩ | ⟨hle, hget, _⟩
      · rw [heq]; simp
      · have : (max_element_loop comp xs 1 (0, x)).1
            = ((max_element_loop comp xs 1 (0, x)).1 - 1) + 1 := by omega
        rw [this, List.getElem?_cons_succ]; exact hget
    · intro y hy
      rcases List.mem_cons.1 hy with rfl | hy
      · exact h1
      · exact h2 y hy
    · intro j y hj hy
      obtain ⟨j, rfl⟩ : ∃ k, j = k + 1 := ⟨j - 1, by omega⟩
      simp only [List.getElem?_cons_succ] at hy
      rcases h3 with ⟨heq, hlt⟩ | ⟨hle, hget, hlt⟩
      · rw [heq]; exact hlt y (List.getElem?_mem hy)
      · exact hlt j y (by omega) hy

@[simp] theorem Node.depth_mk (d : Nat) (s : Status) (sc : Int) (es : List (Position × Node)) :
    (Node.mk d s sc es)._depth = d := rfl

@[simp] theorem Node.status_mk (d : Nat) (s : Status) (sc : Int) (es : List (Position × Node)) :
    (Node.mk d s sc es)._status = s := rfl

@[simp] theorem Node.score_mk (d : Nat) (s : Status) (sc : Int) (es : List (Position × Node)) :
    (Node.mk d s sc es)._score = sc := rfl

@[simp] theorem Node.edges_mk (d : Nat) (s : Status) (sc : Int) (es : List (Position × Node)) :
    (Node.mk d s sc es)._edges = es := rfl

@[simp] theorem Node.next_first_mk (d : Nat) (s : Status) (sc : Int) (es : List (Position × Node)) :
    (Node.mk d s sc es).next_first = (d % 2 == 0) := rfl

theorem Node.eta (n : Node) : Node.mk n._depth n._status n._score n._edges = n := by
  cases n; rfl

theorem mem_empty_cells (size : Nat) (b : ChessBroad) (p : Position) :
    p ∈ empty_cells size b ↔
      (0 ≤ p.row ∧ p.row < size ∧ 0 ≤ p.column ∧ p.column < size) ∧ b p = Chess.empty := by
  unfold empty_cells
  simp only [List.mem_flatMap, List.mem_filter, List.mem_map, List.mem_range, ChessBroad.get,
    decide_eq_true_eq]
  constructor
  · rintro ⟨i, hi, ⟨j, hj, rfl⟩, hb⟩
    refine ⟨⟨?_, ?_, ?_, ?_⟩, hb⟩ <;> simp only [Int.ofNat_eq_coe] <;> omega
  · rintro ⟨⟨h1, h2, h3, h4⟩, hb⟩
    refine ⟨p.row.toNat, by omega, ⟨p.column.toNat, by omega, ?_⟩, hb⟩
    cases p with
    | mk r c =>
      simp only [Position.mk.injEq]
      simp only at h1 h3
      exact ⟨Int.toNat_of_nonneg h1, Int.toNat_of_nonneg h3⟩

theorem find_best_step_loop_map_fst (visit : Int → Node → ChessBroad → Node × ChessBroad)
    (chess : Chess) (score : Int) (es : List (Position × Node)) :
    ∀ b, (find_best_step_loop_tot visit chess score es b).1.map Prod.fst = es.map Prod.fst := by
  induction es with
  | nil => intro b; rfl
  | cons e es ih => intro b; simp [find_best_step_loop_tot, ih]

/-- The node on which the edge loops run: the score reset, expanded if it
was unexpanded. -/
theorem expanded_map_fst (cfg : Config) (n : Node) (broad : ChessBroad) (s : Int) :
    (if n._edges.isEmpty then (Node.mk n._depth n._status s n._edges).find_childs_tot cfg broad
      else Node.mk n._depth n._status s n._edges)._edges.map Prod.fst =
      (if n._edges.isEmpty then empty_cells cfg.size broad else n._edges.map Prod.fst) := by
  by_cases he : n._edges.isEmpty = true
  · rw [if_pos he, if_pos he]
    simp [Node.find_childs_tot, List.isEmpty_iff.1 he, Function.comp_def]
  · rw [if_neg he, if_neg he]; simp

theorem find_best_step_spec (cfg : Config) (n : Node) (broad : ChessBroad) (depth_limit : Nat)
    (hempty : ∃ p, in_range cfg p ∧ broad.get p = Chess.empty) :
    ∃ pos n1 broad1 i child,
      n.find_best_step_tot cfg broad depth_limit = some (pos, n1, broad1) ∧
      n1._edges[i]? = some (pos, child) ∧
      n1._edges.map Prod.fst =
        (if n._edges.isEmpty then empty_cells cfg.size broad else n._edges.map Prod.fst) ∧
      (∀ e ∈ n1._edges, signed n.next_first e.2._score ≤ signed n.next_first child._score) ∧
      (∀ (j : Nat) (e : Position × Node), i < j → n1._edges[j]? = some e →
        signed n.next_first e.2._score < signed n.next_first child._score) := by
  obtain ⟨p, hp, hpe⟩ := hempty
  dsimp only [Node.find_best_step_tot]
  have hmap := expanded_map_fst cfg n broad (lower_bound_score cfg n.next_first)
  generalize (if n._edges.isEmpty then
      (Node.mk n._depth n._status (lower_bound_score cfg n.next_first) n._edges).find_childs_tot cfg broad
      else Node.mk n._depth n._status (lower_bound_score cfg n.next_first) n._edges) = n1 at hmap ⊢
  have hne : n1._edges ≠ [] := by
    intro h0
    rw [h0] at hmap
    by_cases he : n._edges.isEmpty = true
    · rw [if_pos he] at hmap
      have : p ∈ empty_cells cfg.size broad := (mem_empty_cells _ _ _).2 ⟨hp, hpe⟩
      rw [← hmap] at this
      simp at this
    · rw [if_neg he] at hmap
      exact he (List.isEmpty_iff.2 (List.map_eq_nil_iff.1 hmap.symm))
  generalize hr : find_best_step_loop_tot
      (visit_child_tot cfg depth_limit (Node.search_tot cfg (depth_limit - 1))) n.get_chess
      (lower_bound_score cfg n.next_first) n1._edges broad = r
  have hrmap : r.1.map Prod.fst = n1._edges.map Prod.fst := by
    rw [← hr]; exact find_best_step_loop_map_fst _ _ _ _ _
  have hrne : r.1 ≠ [] := by
    intro h0
    rw [h0] at hrmap
    exact hne (List.map_eq_nil_iff.1 hrmap.symm)
  obtain ⟨i, e, hmax, hget, hall, hlater⟩ :=
    max_element_spec (best_step_comp n.next_first) (fun e => signed n.next_first e.2._score)
      (best_step_comp_iff n.next_first) r.1 hrne
  rw [hmax]
  refine ⟨e.1, _, _, i, e.2, rfl, ?_, ?_, ?_, ?_⟩
  · simpa using hget
  · simp only [Node.edges_mk]; rw [hrmap, hmap]
  · intro x hx; exact hall x (by simpa using hx)
  · intro j x hj hx; exact hlater j x hj (by simpa using hx)

theorem Inv_zero (cfg : Config) (b : ChessBroad) (n : Node) :
    Node.Inv cfg 0 b n ↔ n._edges = [] := Iff.rfl

theorem Inv_succ (cfg : Config) (h : Nat) (b : ChessBroad) (n : Node) :
    Node.Inv cfg (h + 1) b n ↔ (n._edges = [] ∨
      (n._edges.map Prod.fst = empty_cells cfg.size b ∧
        ∀ e ∈ n._edges, ChildOK cfg h b n.get_chess n._depth e)) := Iff.rfl

theorem Inv_of_unexpanded (cfg : Config) (h : Nat) (b : ChessBroad) (n : Node)
    (hn : n._edges = []) : Node.Inv cfg h b n := by
  cases h with
  | zero => exact hn
  | succ h => exact Or.inl hn

theorem Inv_mono (cfg : Config) (h : Nat) : ∀ (b : ChessBroad) (n : Node),
    Node.Inv cfg h b n → Node.Inv cfg (h + 1) b n := by
  induction h with
  | zero => intro b n hn; exact Or.inl hn
  | succ h ih =>
    intro b n hn
    rcases (Inv_succ cfg h b n).1 hn with h0 | ⟨hm, hc⟩
    · exact Or.inl h0
    · refine (Inv_succ cfg (h + 1) b n).2 (Or.inr ⟨hm, ?_⟩)
      intro e he
      obtain ⟨h1, h2, h3⟩ := hc e he
      exact ⟨h1, h2, ih _ _ h3⟩

theorem get_chess_of_depth (n m : Node) (h : n._depth = m._depth) : n.get_chess = m.get_chess := by
  simp [Node.get_chess, Node.next_first, h]

/-- The edges the loops of `search` and `find_best_step` run over, under the
invariant: one per empty cell, each child in order. -/
theorem expanded_ok (cfg : Config) (h : Nat) (b : ChessBroad) (n : Node) (s : Int)
    (hn : Node.Inv cfg (h + 1) b n) :
    (if n._edges.isEmpty then (Node.mk n._depth n._status s n._edges).find_childs_tot cfg b
      else Node.mk n._depth n._status s n._edges)._edges.map Prod.fst = empty_cells cfg.size b ∧
    ∀ e ∈ (if n._edges.isEmpty then (Node.mk n._depth n._status s n._edges).find_childs_tot cfg b
      else Node.mk n._depth n._status s n._edges)._edges, ChildOK cfg h b n.get_chess n._depth e := by
  by_cases he : n._edges.isEmpty = true
  · rw [if_pos he]
    have he0 := List.isEmpty_iff.1 he
    constructor
    · simp [Node.find_childs_tot, he0, Function.comp_def]
    · intro e hmem
      simp only [Node.find_childs_tot, he0, Node.edges_mk, List.nil_append, List.mem_map,
        Node.depth_mk] at hmem
      obtain ⟨p, _, rfl⟩ := hmem
      refine ⟨rfl, ?_, Inv_of_unexpanded cfg h _ _ rfl⟩
      intro hl
      simp [Node.new] at hl
  · rw [if_neg he]
    simp only [Node.edges_mk]
    rcases (Inv_succ cfg h b n).1 hn with h0 | hr
    · exact absurd (List.isEmpty_iff.2 h0) he
    · exact hr

theorem expanded_depth (cfg : Config) (b : ChessBroad) (n : Node) (s : Int) :
    (if n._edges.isEmpty then (Node.mk n._depth n._status s n._edges).find_childs_tot cfg b
      else Node.mk n._depth n._status s n._edges)._depth = n._depth := by
  split <;> simp [Node.find_childs_tot]

theorem expanded_status (cfg : Config) (b : ChessBroad) (n : Node) (s : Int)
    (hs : n._status ≠ Status.leaf) :
    (if n._edges.isEmpty then (Node.mk n._depth n._status s n._edges).find_childs_tot cfg b
      else Node.mk n._depth n._status s n._edges)._status ≠ Status.leaf := by
  split <;> simp [Node.find_childs_tot, hs]

theorem search_loop_ok (cfg : Config) (h : Nat) (visit : Int → Node → ChessBroad → Node × ChessBroad)
    (hv : VisitOK cfg h visit) (first : Bool) (chess : Chess) (d : Nat) (p : Int)
    (es : List (Position × Node)) :
    ∀ (s : Int) (b : ChessBroad), (∀ e ∈ es, b e.1 = Chess.empty ∧ ChildOK cfg h b chess d e) →
      (search_loop_tot visit first chess p es s b).broad = b ∧
      (search_loop_tot visit first chess p es s b).edges.map Prod.fst = es.map Prod.fst ∧
      ∀ e ∈ (search_loop_tot visit first chess p es s b).edges, ChildOK cfg h b chess d e := by
  induction es with
  | nil => intro s b _; simp [search_loop_tot]
  | cons e es ih =>
    intro s b hes
    obtain ⟨hempty, hd, hleaf, hinv⟩ := hes e (List.mem_cons_self _ _)
    obtain ⟨hb, hi, hdep, hl⟩ := hv s e.2 (b.emplace e.1 chess) hinv hleaf
    have hrest : (visit s e.2 (b.emplace e.1 chess)).2.emplace e.1 Chess.empty = b := by
      rw [hb]; exact emplace_restore b e.1 chess hempty
    have hhead : ChildOK cfg h b chess d (e.1, (visit s e.2 (b.emplace e.1 chess)).1) :=
      ⟨by rw [hdep]; exact hd, hl, hi⟩
    simp only [search_loop_tot]
    split
    · refine ⟨hrest, by simp, ?_⟩
      intro x hx
      rcases List.mem_cons.1 hx with rfl | hx
      · exact hhead
      · exact (hes x (List.mem_cons_of_mem _ hx)).2
    · rw [hrest]
      obtain ⟨h1, h2, h3⟩ := ih (better_score first s (visit s e.2 (b.emplace e.1 chess)).1._score) b
        (fun x hx => hes x (List.mem_cons_of_mem _ hx))
      refine ⟨h1, by simp [h2], ?_⟩
      intro x hx
      rcases List.mem_cons.1 hx with rfl | hx
      · exact hhead
      · exact h3 x hx

theorem find_best_step_loop_ok (cfg : Config) (h : Nat)
    (visit : Int → Node → ChessBroad → Node × ChessBroad)
    (hv : VisitOK cfg h visit) (chess : Chess) (d : Nat) (s : Int)
    (es : List (Position × Node)) :
    ∀ (b : ChessBroad), (∀ e ∈ es, b e.1 = Chess.empty ∧ ChildOK cfg h b chess d e) →
      (find_best_step_loop_tot visit chess s es b).2 = b ∧
      ∀ e ∈ (find_best_step_loop_tot visit chess s es b).1, ChildOK cfg h b chess d e := by
  induction es with
  | nil => intro b _; simp [find_best_step_loop_tot]
  | cons e es ih =>
    intro b hes
    obtain ⟨hempty, hd, hleaf, hinv⟩ := hes e (List.mem_cons_self _ _)
    obtain ⟨hb, hi, hdep, hl⟩ := hv s e.2 (b.emplace e.1 chess) hinv hleaf
    have hrest : (visit s e.2 (b.emplace e.1 chess)).2.emplace e.1 Chess.empty = b := by
      rw [hb]; exact emplace_restore b e.1 chess hempty
    have hhead : ChildOK cfg h b chess d (e.1, (visit s e.2 (b.emplace e.1 chess)).1) :=
      ⟨by rw [hdep]; exact hd, hl, hi⟩
    simp only [find_best_step_loop_tot]
    rw [hrest]
    obtain ⟨h1, h3⟩ := ih b (fun x hx => hes x (List.mem_cons_of_mem _ hx))
    refine ⟨h1, ?_⟩
    intro x hx
    rcases List.mem_cons.1 hx with rfl | hx
    · exact hhead
    · exact h3 x hx

theorem static_evaluate_visit_ok (cfg : Config) :
    VisitOK cfg 0 (visit_child_tot cfg 1 (Node.search_tot cfg 0)) := by
  intro s c b hc hl
  simp only [visit_child_tot, if_true]
  refine ⟨trivial, ?_, ?_, ?_⟩
  · exact (Inv_zero cfg b _).2 ((Inv_zero cfg b c).1 hc)
  · rfl
  · intro hst
    refine ⟨rfl, ?_, (Inv_zero cfg b c).1 hc⟩
    simp only [Node.static_evaluate, Node.status_mk, Node.score_mk] at hst ⊢
    by_cases hw : cfg.evaluate b = cfg.first_win ∨ cfg.evaluate b = cfg.second_win
    · exact hw
    · rw [if_neg hw] at hst
      obtain ⟨h1, h2, _⟩ := hl hst
      rw [← h1]; exact h2

theorem visit_ok_of_search_ok (cfg : Config) (k : Nat) (hs : SearchOK cfg k) :
    VisitOK cfg k (visit_child_tot cfg (k + 1) (Node.search_tot cfg k)) := by
  cases k with
  | zero => exact static_evaluate_visit_ok cfg
  | succ k =>
    intro s c b hc hl
    have hne : ¬ (k + 1 + 1 = 1) := by omega
    simp only [visit_child_tot, if_neg hne]
    split
    · rename_i hst
      obtain ⟨h1, h2, h3, h4⟩ := hs s c b hc
      exact ⟨h1, h2, h3, fun hleaf => absurd hleaf (h4 hst.2)⟩
    · exact ⟨rfl, hc, rfl, hl⟩

theorem search_ok (cfg : Config) (k : Nat) : SearchOK cfg k := by
  induction k with
  | zero => intro p n b hn; exact ⟨rfl, hn, rfl, fun h => h⟩
  | succ k ih =>
    intro p n b hn
    have hv := visit_ok_of_search_ok cfg k ih
    obtain ⟨hmap, hch⟩ := expanded_ok cfg k b n (lower_bound_score cfg n.next_first) hn
    have hdep := expanded_depth cfg b n (lower_bound_score cfg n.next_first)
    have hst := expanded_status cfg b n (lower_bound_score cfg n.next_first)
    dsimp only [Node.search_tot]
    generalize (if n._edges.isEmpty then
      (Node.mk n._depth n._status (lower_bound_score cfg n.next_first) n._edges).find_childs_tot cfg b
      else Node.mk n._depth n._status (lower_bound_score cfg n.next_first) n._edges) = n1
      at hmap hch hdep hst ⊢
    have hes : ∀ e ∈ n1._edges, b e.1 = Chess.empty ∧ ChildOK cfg k b n.get_chess n._depth e := by
      intro e he
      refine ⟨?_, hch e he⟩
      have : e.1 ∈ empty_cells cfg.size b := by
        rw [← hmap]; exact List.mem_map_of_mem _ he
      exact ((mem_empty_cells _ _ _).1 this).2
    obtain ⟨h1, h2, h3⟩ := search_loop_ok cfg k _ hv n.next_first n.get_chess n._depth p
      n1._edges (lower_bound_score cfg n.next_first) b hes
    refine ⟨h1, ?_, hdep, ?_⟩
    · refine (Inv_succ cfg k b _).2 (Or.inr ⟨?_, ?_⟩)
      · simp only [Node.edges_mk]; rw [h2, hmap]
      · intro e he
        simp only [Node.edges_mk] at he
        have hg : (Node.mk n1._depth
            (if (search_loop_tot (visit_child_tot cfg (k + 1) (Node.search_tot cfg k)) n.next_first n.get_chess p
              n1._edges (lower_bound_score cfg n.next_first) b).cut = true then Status.cut
              else n1._status)
            (search_loop_tot (visit_child_tot cfg (k + 1) (Node.search_tot cfg k)) n.next_first n.get_chess p
              n1._edges (lower_bound_score cfg n.next_first) b).score
            (search_loop_tot (visit_child_tot cfg (k + 1) (Node.search_tot cfg k)) n.next_first n.get_chess p
              n1._edges (lower_bound_score cfg n.next_first) b).edges).get_chess = n.get_chess :=
          get_chess_of_depth _ _ (by simp [hdep])
        rw [hg]
        simp only [Node.depth_mk, hdep]
        exact h3 e he
    · intro hnl
      simp only [Node.status_mk]
      split
      · simp
      · exact hst hnl

/-! ### Paths in the tree -/

theorem getAt_nil (n : Node) : Node.getAt [] n = some n := rfl

theorem getAt_cons (i : Nat) (is : List Nat) (n : Node) :
    Node.getAt (i :: is) n = (n._edges[i]?).bind fun e => Node.getAt is e.2 := by
  simp only [Node.getAt]
  cases n._edges[i]? <;> rfl

theorem setAt_cons (i : Nat) (is : List Nat) (n new : Node) :
    Node.setAt (i :: is) n new =
      match n._edges[i]? with
      | some e => Node.mk n._depth n._status n._score (n._edges.set i (e.1, Node.setAt is e.2 new))
      | none => n := rfl

theorem pathMoves_cons (i : Nat) (is : List Nat) (n : Node) :
    Node.pathMoves (i :: is) n =
      (n._edges[i]?).bind fun e => (Node.pathMoves is e.2).map fun ps => e.1 :: ps := by
  simp only [Node.pathMoves]
  cases n._edges[i]? <;> rfl

theorem getAt_append (c r : List Nat) : ∀ (root : Node),
    Node.getAt (c ++ r) root = (Node.getAt c root).bind (Node.getAt r) := by
  induction c with
  | nil => intro root; rfl
  | cons i is ih =>
    intro root
    simp only [List.cons_append, getAt_cons]
    cases root._edges[i]? with
    | none => rfl
    | some e => simp [ih]

theorem getAt_setAt (c : List Nat) : ∀ (root cur new : Node),
    Node.getAt c root = some cur → Node.getAt c (Node.setAt c root new) = some new := by
  induction c with
  | nil => intro root cur new _; rfl
  | cons i is ih =>
    intro root cur new h
    rw [getAt_cons] at h
    rw [setAt_cons]
    cases he : root._edges[i]? with
    | none => rw [he] at h; simp at h
    | some e =>
      rw [he] at h
      simp only [Option.some_bind] at h
      simp only [getAt_cons, Node.edges_mk]
      have hi : i < root._edges.length := (List.getElem?_eq_some_iff.1 he).1
      rw [List.getElem?_set_self hi]
      simpa using ih e.2 cur new h

theorem setAt_self (c : List Nat) : ∀ (root cur : Node),
    Node.getAt c root = some cur → Node.setAt c root cur = root := by
  induction c with
  | nil => intro root cur h; simp only [Node.getAt, Option.some.injEq] at h; simp [Node.setAt, h]
  | cons i is ih =>
    intro root cur h
    rw [getAt_cons] at h
    rw [setAt_cons]
    cases he : root._edges[i]? with
    | none => rfl
    | some e =>
      rw [he] at h
      simp only [Option.some_bind] at h
      simp only [ih e.2 cur h]
      have : root._edges.set i (e.1, e.2) = root._edges := by
        apply List.ext_getElem?
        intro j
        by_cases hj : i = j
        · subst hj
          rw [List.getElem?_set_self (List.getElem?_eq_some_iff.1 he).1, he]
        · rw [List.getElem?_set_ne hj]
      rw [this]; exact Node.eta root

theorem pathMoves_setAt (c : List Nat) : ∀ (root cur new : Node),
    Node.getAt c root = some cur →
    Node.pathMoves c (Node.setAt c root new) = Node.pathMoves c root := by
  induction c with
  | nil => intro root cur new _; rfl
  | cons i is ih =>
    intro root cur new h
    rw [getAt_cons] at h
    rw [setAt_cons]
    cases he : root._edges[i]? with
    | none => rfl
    | some e =>
      rw [he] at h
      simp only [Option.some_bind] at h
      simp only [pathMoves_cons, Node.edges_mk, he]
      have hi : i < root._edges.length := (List.getElem?_eq_some_iff.1 he).1
      rw [List.getElem?_set_self hi]
      simp [ih e.2 cur new h]

theorem pathMoves_append (c r : List Nat) : ∀ (root cur : Node),
    Node.getAt c root = some cur →
    Node.pathMoves (c ++ r) root =
      (Node.pathMoves c root).bind fun ms => (Node.pathMoves r cur).map fun ms1 => ms ++ ms1 := by
  induction c with
  | nil =>
    intro root cur h
    simp only [Node.getAt, Option.some.injEq] at h
    subst h
    simp [Node.pathMoves]
  | cons i is ih =>
    intro root cur h
    rw [getAt_cons] at h
    simp only [List.cons_append, pathMoves_cons]
    cases he : root._edges[i]? with
    | none => rfl
    | some e =>
      rw [he] at h
      simp only [Option.some_bind] at h
      simp only [Option.some_bind, ih e.2 cur h]
      cases Node.pathMoves is e.2 with
      | none => rfl
      | some ms =>
        cases Node.pathMoves r cur with
        | none => rfl
        | some ms1 => rfl

/-! ### Order of the edges -/

theorem pos_less_irrefl (p : Position) : pos_less p p = false := by
  simp [pos_less]

theorem empty_cells_sorted (size : Nat) (b : ChessBroad) :
    (empty_cells size b).Pairwise (fun p q => pos_less p q = true) := by
  unfold empty_cells
  rw [List.pairwise_flatMap]
  constructor
  · intro i _
    apply List.Pairwise.filter
    rw [List.pairwise_map]
    refine (List.pairwise_lt_range size).imp ?_
    intro a c hac
    simp only [pos_less, Int.ofNat_eq_coe, Nat.cast_lt, beq_self_eq_true, Bool.true_and,
      Bool.or_eq_true, decide_eq_true_eq]
    right; omega
  · refine (List.pairwise_lt_range size).imp ?_
    intro i j hij x hx y hy
    simp only [List.mem_filter, List.mem_map, List.mem_range] at hx hy
    obtain ⟨⟨a, _, rfl⟩, _⟩ := hx
    obtain ⟨c, _, rfl⟩ := hy.1
    simp only [pos_less, Int.ofNat_eq_coe, Nat.cast_lt, Bool.or_eq_true, decide_eq_true_eq]
    left; omega

theorem lower_bound_finds (es : List (Position × Node)) (p : Position)
    (hs : (es.map Prod.fst).Pairwise (fun p q => pos_less p q = true))
    (hp : p ∈ es.map Prod.fst) :
    ∃ e, es[lower_bound es p]? = some e ∧ e.1 = p := by
  induction es with
  | nil => simp at hp
  | cons e es ih =>
    simp only [List.map_cons, List.pairwise_cons] at hs
    by_cases hlt : pos_less e.1 p = true
    · have hne : p ≠ e.1 := by
        intro h; rw [h, pos_less_irrefl] at hlt; exact Bool.false_ne_true hlt
      have hp1 : p ∈ es.map Prod.fst := by
        rcases List.mem_cons.1 hp with h | h
        · exact absurd h hne
        · exact h
      obtain ⟨x, hx, hx1⟩ := ih hs.2 hp1
      refine ⟨x, ?_, hx1⟩
      simp only [lower_bound, List.takeWhile_cons, hlt, if_true, List.length_cons,
        List.getElem?_cons_succ]
      exact hx
    · have hpe : p = e.1 := by
        rcases List.mem_cons.1 hp with h | h
        · exact h
        · exact absurd (hs.1 p h) hlt
      refine ⟨e, ?_, hpe.symm⟩
      simp [lower_bound, List.takeWhile_cons, hlt]

theorem max_element_some {α : Type} (comp : α → α → Bool) (xs : List α) (i : Nat) (e : α)
    (h : max_element comp xs = some (i, e)) : xs ≠ [] := by
  intro h0; rw [h0] at h; simp [max_element] at h

theorem find_best_step_ok (cfg : Config) (k : Nat) (n : Node) (b : ChessBroad)
    (hn : Node.Inv cfg (k + 1) b n) (pos : Position) (n1 : Node) (b1 : ChessBroad)
    (hr : n.find_best_step_tot cfg b (k + 1) = some (pos, n1, b1)) :
    b1 = b ∧ Node.Inv cfg (k + 1) b n1 ∧ n1._depth = n._depth ∧ pos ∈ empty_cells cfg.size b := by
  have hv := visit_ok_of_search_ok cfg k (search_ok cfg k)
  obtain ⟨hmap, hch⟩ := expanded_ok cfg k b n (lower_bound_score cfg n.next_first) hn
  have hdep := expanded_depth cfg b n (lower_bound_score cfg n.next_first)
  dsimp only [Node.find_best_step_tot] at hr
  generalize (if n._edges.isEmpty then
    (Node.mk n._depth n._status (lower_bound_score cfg n.next_first) n._edges).find_childs_tot cfg b
    else Node.mk n._depth n._status (lower_bound_score cfg n.next_first) n._edges) = m
    at hmap hch hdep hr
  have hes : ∀ e ∈ m._edges, b e.1 = Chess.empty ∧ ChildOK cfg k b n.get_chess n._depth e := by
    intro e he
    refine ⟨?_, hch e he⟩
    have : e.1 ∈ empty_cells cfg.size b := by
      rw [← hmap]; exact List.mem_map_of_mem _ he
    exact ((mem_empty_cells _ _ _).1 this).2
  rw [show k + 1 - 1 = k from rfl] at hr
  obtain ⟨h1, h3⟩ := find_best_step_loop_ok cfg k _ hv n.get_chess n._depth
    (lower_bound_score cfg n.next_first) m._edges b hes
  have h2 := find_best_step_loop_map_fst (visit_child_tot cfg (k + 1) (Node.search_tot cfg k)) n.get_chess
    (lower_bound_score cfg n.next_first) m._edges b
  generalize find_best_step_loop_tot (visit_child_tot cfg (k + 1) (Node.search_tot cfg k)) n.get_chess
    (lower_bound_score cfg n.next_first) m._edges b = r at h1 h2 h3 hr
  cases hmax : max_element (best_step_comp n.next_first) r.1 with
  | none => rw [hmax] at hr; simp at hr
  | some ie =>
    obtain ⟨i, e⟩ := ie
    rw [hmax] at hr
    simp only [Option.some.injEq, Prod.mk.injEq] at hr
    obtain ⟨rfl, rfl, rfl⟩ := hr
    obtain ⟨i2, e2, hmax2, hget, _, _⟩ :=
      max_element_spec (best_step_comp n.next_first) (fun e => signed n.next_first e.2._score)
        (best_step_comp_iff n.next_first) r.1 (max_element_some _ _ _ _ hmax)
    rw [hmax] at hmax2
    simp only [Option.some.injEq, Prod.mk.injEq] at hmax2
    obtain ⟨rfl, rfl⟩ := hmax2
    refine ⟨h1, ?_, by simp [hdep], ?_⟩
    · refine (Inv_succ cfg k b _).2 (Or.inr ⟨?_, ?_⟩)
      · simp only [Node.edges_mk]; rw [h2, hmap]
      · intro x hx
        simp only [Node.edges_mk] at hx
        have hg : (Node.mk m._depth m._status m._score r.1).get_chess = n.get_chess :=
          get_chess_of_depth _ _ (by simp [hdep])
        rw [hg]
        simp only [Node.depth_mk, hdep]
        exact h3 x hx
    · rw [← hmap, ← h2]
      exact List.mem_map_of_mem _ (List.getElem?_mem hget)

theorem update_ok (cfg : Config) (ms : List Position) (t : GomokuTree) (p : Position)
    (hinv : StateInv cfg ms t) (hp : t.legal cfg p) :
    ∃ t1, t.update cfg p = some t1 ∧ StateInv cfg (ms ++ [p]) t1 := by
  obtain ⟨cur, hcur, hdep, hpath, hI⟩ := hinv
  unfold GomokuTree.update
  rw [hcur]
  simp only []
  unfold Node.get_child
  by_cases he : cur._edges.isEmpty = true
  · rw [if_pos he]
    have he0 := List.isEmpty_iff.1 he
    simp only [he0, List.nil_append, List.length_nil]
    refine ⟨_, rfl, Node.new cfg cur._depth, ?_, ?_, ?_, ?_⟩
    · simp only []
      rw [getAt_append, getAt_setAt _ _ _ _ hcur]
      simp [getAt_cons, getAt_nil]
    · simp [Node.new, hdep]
    · simp only []
      have hc2 := getAt_setAt _ _ _ (Node.mk cur._depth cur._status cur._score
        [(p, Node.new cfg cur._depth)]) hcur
      rw [pathMoves_append _ _ _ _ hc2, pathMoves_setAt _ _ _ _ hcur, hpath]
      simp [pathMoves_cons, Node.pathMoves]
    · exact Inv_of_unexpanded cfg 2 _ _ rfl
  · rw [if_neg he]
    have hne : cur._edges ≠ [] := fun h => he (List.isEmpty_iff.2 h)
    rcases (Inv_succ cfg 1 _ cur).1 hI with h0 | ⟨hmap, hch⟩
    · exact absurd h0 hne
    · have hpm : p ∈ cur._edges.map Prod.fst := by
        rw [hmap]; exact (mem_empty_cells _ _ _).2 hp
      have hsorted : (cur._edges.map Prod.fst).Pairwise (fun p q => pos_less p q = true) := by
        rw [hmap]; exact empty_cells_sorted _ _
      obtain ⟨e, hget, hep⟩ := lower_bound_finds cur._edges p hsorted hpm
      have hlt : lower_bound cur._edges p < cur._edges.length :=
        (List.getElem?_eq_some_iff.1 hget).1
      simp only [if_pos hlt]
      obtain ⟨hd1, _, hi1⟩ := hch e (List.getElem?_mem hget)
      refine ⟨_, rfl, e.2, ?_, ?_, ?_, ?_⟩
      · simp only []
        rw [setAt_self _ _ _ hcur, getAt_append, hcur]
        simp [getAt_cons, getAt_nil, hget]
      · simp [hd1, hdep]
      · simp only []
        rw [setAt_self _ _ _ hcur, pathMoves_append _ _ _ _ hcur, hpath]
        simp [pathMoves_cons, Node.pathMoves, hget, hep]
      · simp only []
        rw [← hep]
        exact Inv_mono cfg 1 _ _ hi1

theorem decide_ok (cfg : Config) (ms : List Position) (t t1 : GomokuTree) (p : Position)
    (hinv : StateInv cfg ms t) (hd : t.decide_tot cfg = some (p, t1)) :
    StateInv cfg ms t1 ∧ t1._broad = t._broad ∧ t1._current = t._current ∧
      p ∈ empty_cells cfg.size t._broad := by
  obtain ⟨cur, hcur, hdep, hpath, hI⟩ := hinv
  unfold GomokuTree.decide_tot at hd
  rw [hcur] at hd
  simp only [] at hd
  cases hf : cur.find_best_step_tot cfg t._broad 2 with
  | none => rw [hf] at hd; simp at hd
  | some r =>
    obtain ⟨pos, cur1, b1⟩ := r
    rw [hf] at hd
    simp only [Option.some.injEq, Prod.mk.injEq] at hd
    obtain ⟨rfl, rfl⟩ := hd
    obtain ⟨hb, hi, hd1, hmem⟩ := find_best_step_ok cfg 1 cur t._broad hI pos cur1 b1 hf
    refine ⟨⟨cur1, getAt_setAt _ _ _ _ hcur, by rw [hd1, hdep], ?_, ?_⟩, hb, rfl, hmem⟩
    · exact (pathMoves_setAt _ _ _ _ hcur).trans hpath
    · simp only []; rw [hb]; exact hi

theorem reachable_inv (cfg : Config) (ms : List Position) (t : GomokuTree)
    (h : Reachable_tot cfg ms t) : StateInv cfg ms t := by
  induction h with
  | new => exact ⟨Node.root cfg, rfl, rfl, rfl, Inv_of_unexpanded cfg 2 _ _ rfl⟩
  | update _ hp hu ih =>
    obtain ⟨t2, hu2, hinv⟩ := update_ok cfg _ _ _ ih hp
    rw [hu] at hu2
    simp only [Option.some.injEq] at hu2
    rw [hu2]; exact hinv
  | decide _ hd ih => exact (decide_ok cfg _ _ _ _ ih hd).1

theorem get_chess_eq_stone (n : Node) : n.get_chess = stone n._depth := by
  simp [Node.get_chess, Node.next_first, stone]

theorem updates_unexpanded (cfg : Config) (ps : List Position) :
    ∀ (t : GomokuTree) (cur : Node), t._root.getAt t._current = some cur → cur._edges = [] →
      ∃ t1, t.updates cfg ps = some t1 ∧ t1._broad = replay_from cur._depth ps t._broad := by
  induction ps with
  | nil => intro t cur _ _; exact ⟨t, rfl, rfl⟩
  | cons p ps ih =>
    intro t cur hcur he
    have hu : t.update cfg p = some ⟨t._root.setAt t._current
        (Node.mk cur._depth cur._status cur._score [(p, Node.new cfg cur._depth)]),
        t._current ++ [0], t._broad.emplace p cur.get_chess⟩ := by
      unfold GomokuTree.update
      rw [hcur]
      simp [Node.get_child, he]
    have hcur1 : (t._root.setAt t._current
        (Node.mk cur._depth cur._status cur._score [(p, Node.new cfg cur._depth)])).getAt
        (t._current ++ [0]) = some (Node.new cfg cur._depth) := by
      rw [getAt_append, getAt_setAt _ _ _ _ hcur]
      simp [getAt_cons, getAt_nil]
    obtain ⟨t1, ht1, hb1⟩ := ih ⟨t._root.setAt t._current
        (Node.mk cur._depth cur._status cur._score [(p, Node.new cfg cur._depth)]),
        t._current ++ [0], t._broad.emplace p cur.get_chess⟩ (Node.new cfg cur._depth) hcur1 rfl
    refine ⟨t1, ?_, ?_⟩
    · simp only [GomokuTree.updates, hu]; exact ht1
    · rw [hb1]
      simp [Node.new, replay_from, get_chess_eq_stone]

theorem replay_from_not_mem (q : Position) (ps : List Position) :
    ∀ (i : Nat) (b : ChessBroad), q ∉ ps → replay_from i ps b q = b q := by
  induction ps with
  | nil => intro i b _; rfl
  | cons p ps ih =>
    intro i b hq
    simp only [List.mem_cons, not_or] at hq
    simp only [replay_from]
    rw [ih _ _ hq.2, emplace_other _ _ _ _ hq.1]

theorem replay_from_get (ps : List Position) :
    ∀ (i : Nat) (b : ChessBroad), ps.Nodup → ∀ (j : Nat) (h : j < ps.length),
      replay_from i ps b (ps.get ⟨j, h⟩) = stone (i + j) := by
  induction ps with
  | nil => intro i b _ j h; simp at h
  | cons p ps ih =>
    intro i b hnd j h
    simp only [List.nodup_cons] at hnd
    simp only [replay_from]
    cases j with
    | zero =>
      simp only [List.get_eq_getElem, List.getElem_cons_zero, Nat.add_zero]
      rw [replay_from_not_mem _ _ _ _ hnd.1, emplace_same]
    | succ j =>
      simp only [List.get_eq_getElem, List.getElem_cons_succ]
      have := ih (i + 1) (b.emplace p (stone i)) hnd.2 j (by simpa using h)
      simp only [List.get_eq_getElem] at this
      rw [this]; congr 1; omega

theorem pathMoves_two (c : List Nat) (root : Node) (A B : Position)
    (h : root.pathMoves c = some [A, B]) :
    ∃ iA iB eA eB, c = [iA, iB] ∧ root._edges[iA]? = some eA ∧ eA.1 = A ∧
      eA.2._edges[iB]? = some eB ∧ eB.1 = B := by
  cases c with
  | nil => simp [Node.pathMoves] at h
  | cons iA c =>
    rw [pathMoves_cons] at h
    cases hA : root._edges[iA]? with
    | none => rw [hA] at h; simp at h
    | some eA =>
      rw [hA] at h
      simp only [Option.some_bind, Option.map_eq_some'] at h
      obtain ⟨ps, hps, hcons⟩ := h
      simp only [List.cons.injEq] at hcons
      obtain ⟨hA1, rfl⟩ := hcons
      cases c with
      | nil => simp [Node.pathMoves] at hps
      | cons iB c =>
        rw [pathMoves_cons] at hps
        cases hB : eA.2._edges[iB]? with
        | none => rw [hB] at hps; simp at hps
        | some eB =>
          rw [hB] at hps
          simp only [Option.some_bind, Option.map_eq_some'] at hps
          obtain ⟨qs, hqs, hcons⟩ := hps
          simp only [List.cons.injEq] at hcons
          obtain ⟨hB1, rfl⟩ := hcons
          cases c with
          | nil => exact ⟨iA, iB, eA, eB, rfl, hA, hA1, hB, hB1⟩
          | cons iC c =>
            rw [pathMoves_cons] at hqs
            cases hC : eB.2._edges[iC]? with
            | none => rw [hC] at hqs; simp at hqs
            | some eC => rw [hC] at hqs; simp at hqs

theorem better_score_self (first : Bool) (v : Int) : better_score first v v = v := by
  cases first <;> simp [better_score]

/-- The loop of a depth-1 search when every child evaluates to the same
value `v` that improves on the running score and is not cut off. -/
theorem search_loop_const (cfg : Config) (recurse : Int → Node → ChessBroad → Node × ChessBroad)
    (first : Bool) (chess : Chess) (p v : Int) (hcut : ¬ better_score first v p = v)
    (es : List (Position × Node)) :
    ∀ (s : Int) (b : ChessBroad),
      (∀ e ∈ es, b e.1 = Chess.empty ∧ cfg.evaluate (b.emplace e.1 chess) = v) →
      better_score first s v = v →
      (search_loop_tot (visit_child_tot cfg 1 recurse) first chess p es s b).broad = b ∧
      (search_loop_tot (visit_child_tot cfg 1 recurse) first chess p es s b).cut = false ∧
      (search_loop_tot (visit_child_tot cfg 1 recurse) first chess p es s b).score =
        (if es.isEmpty then s else v) ∧
      (search_loop_tot (visit_child_tot cfg 1 recurse) first chess p es s b).edges =
        es.map fun e => (e.1, e.2.static_evaluate cfg (b.emplace e.1 chess)) := by
  induction es with
  | nil => intro s b _ _; simp [search_loop_tot]
  | cons e es ih =>
    intro s b hes hs
    obtain ⟨hempty, hev⟩ := hes e (List.mem_cons_self _ _)
    have hvis : visit_child_tot cfg 1 recurse s e.2 (b.emplace e.1 chess) =
        (e.2.static_evaluate cfg (b.emplace e.1 chess), b.emplace e.1 chess) := by
      simp [visit_child_tot]
    have hsc : (e.2.static_evaluate cfg (b.emplace e.1 chess))._score = v := by
      simp [Node.static_evaluate, hev]
    obtain ⟨h1, h2, h3, h4⟩ := ih v b (fun x hx => hes x (List.mem_cons_of_mem _ hx))
      (better_score_self first v)
    simp only [search_loop_tot, hvis, hsc, hs, if_neg hcut, emplace_restore b e.1 chess hempty]
    refine ⟨h1, h2, ?_, ?_⟩
    · rw [h3]; simp
    · rw [h4]; simp

theorem search_succ_unexpanded (cfg : Config) (k : Nat) (p : Int) (c : Node) (b : ChessBroad)
    (hc : c._edges = []) :
    Node.search_tot cfg (k + 1) p c b =
      (Node.mk c._depth
        (if (search_loop_tot (visit_child_tot cfg (k + 1) (Node.search_tot cfg k)) c.next_first c.get_chess p
          ((empty_cells cfg.size b).map fun q => (q, Node.new cfg c._depth))
          (lower_bound_score cfg c.next_first) b).cut then Status.cut else Status.normal)
        (search_loop_tot (visit_child_tot cfg (k + 1) (Node.search_tot cfg k)) c.next_first c.get_chess p
          ((empty_cells cfg.size b).map fun q => (q, Node.new cfg c._depth))
          (lower_bound_score cfg c.next_first) b).score
        (search_loop_tot (visit_child_tot cfg (k + 1) (Node.search_tot cfg k)) c.next_first c.get_chess p
          ((empty_cells cfg.size b).map fun q => (q, Node.new cfg c._depth))
          (lower_bound_score cfg c.next_first) b).edges,
       (search_loop_tot (visit_child_tot cfg (k + 1) (Node.search_tot cfg k)) c.next_first c.get_chess p
          ((empty_cells cfg.size b).map fun q => (q, Node.new cfg c._depth))
          (lower_bound_score cfg c.next_first) b).broad) := by
  dsimp only [Node.search_tot]
  simp only [hc, List.isEmpty_nil, if_true, Node.find_childs_tot, Node.edges_mk, List.nil_append,
    Node.depth_mk, Node.status_mk]

/-- A depth-1 search of an unexpanded node when every child evaluates to
the same value `v`. -/
theorem search_one_const (cfg : Config) (c : Node) (b : ChessBroad) (p v : Int)
    (hc : c._edges = [])
    (hev : ∀ q ∈ empty_cells cfg.size b, cfg.evaluate (b.emplace q c.get_chess) = v)
    (hs : better_score c.next_first (lower_bound_score cfg c.next_first) v = v)
    (hcut : ¬ better_score c.next_first v p = v) :
    Node.search_tot cfg 1 p c b =
      (Node.mk c._depth Status.normal
        (if (empty_cells cfg.size b).isEmpty then lower_bound_score cfg c.next_first else v)
        ((empty_cells cfg.size b).map fun q =>
          (q, (Node.new cfg c._depth).static_evaluate cfg (b.emplace q c.get_chess))), b) := by
  have hes : ∀ e ∈ (empty_cells cfg.size b).map (fun q => (q, Node.new cfg c._depth)),
      b e.1 = Chess.empty ∧ cfg.evaluate (b.emplace e.1 c.get_chess) = v := by
    intro e he
    simp only [List.mem_map] at he
    obtain ⟨q, hq, rfl⟩ := he
    exact ⟨((mem_empty_cells _ _ _).1 hq).2, hev q hq⟩
  obtain ⟨h1, h2, h3, h4⟩ := search_loop_const cfg (Node.search_tot cfg 0) c.next_first c.get_chess
    p v hcut _ (lower_bound_score cfg c.next_first) b hes hs
  have h := search_succ_unexpanded cfg 0 p c b hc
  simp only [Nat.zero_add] at h
  rw [h, h1, h2, h3, h4]
  simp [List.isEmpty_iff, Function.comp_def]

theorem find_best_step_loop_eq (cfg : Config) (h : Nat)
    (visit : Int → Node → ChessBroad → Node × ChessBroad)
    (hv : VisitOK cfg h visit) (chess : Chess) (d : Nat) (s : Int)
    (es : List (Position × Node)) :
    ∀ (b : ChessBroad), (∀ e ∈ es, b e.1 = Chess.empty ∧ ChildOK cfg h b chess d e) →
      (find_best_step_loop_tot visit chess s es b).1 =
        es.map fun e => (e.1, (visit s e.2 (b.emplace e.1 chess)).1) := by
  induction es with
  | nil => intro b _; rfl
  | cons e es ih =>
    intro b hes
    obtain ⟨hempty, hd, hleaf, hinv⟩ := hes e (List.mem_cons_self _ _)
    obtain ⟨hb, _, _, _⟩ := hv s e.2 (b.emplace e.1 chess) hinv hleaf
    have hrest : (visit s e.2 (b.emplace e.1 chess)).2.emplace e.1 Chess.empty = b := by
      rw [hb]; exact emplace_restore b e.1 chess hempty
    simp only [find_best_step_loop_tot, hrest, List.map_cons]
    rw [ih b (fun x hx => hes x (List.mem_cons_of_mem _ hx))]

/-- The edges an unexpanded node has after `find_best_step` with depth limit
2: one per empty cell, each child the result of a depth-1 search on the board
with the move made. -/
theorem find_best_step_two_edges (cfg : Config) (n : Node) (b : ChessBroad) (hn : n._edges = [])
    (pos : Position) (n1 : Node) (b1 : ChessBroad)
    (hr : n.find_best_step_tot cfg b 2 = some (pos, n1, b1)) :
    n1._edges = (empty_cells cfg.size b).map fun p =>
      (p, (Node.search_tot cfg 1 (lower_bound_score cfg n.next_first) (Node.new cfg n._depth)
        (b.emplace p n.get_chess)).1) := by
  have hv := visit_ok_of_search_ok cfg 1 (search_ok cfg 1)
  obtain ⟨hmap, hch⟩ := expanded_ok cfg 1 b n (lower_bound_score cfg n.next_first)
    (Inv_of_unexpanded cfg 2 b n hn)
  have hes : ∀ e ∈ (if n._edges.isEmpty then
      (Node.mk n._depth n._status (lower_bound_score cfg n.next_first) n._edges).find_childs_tot cfg b
      else Node.mk n._depth n._status (lower_bound_score cfg n.next_first) n._edges)._edges,
      b e.1 = Chess.empty ∧ ChildOK cfg 1 b n.get_chess n._depth e := by
    intro e he
    refine ⟨?_, hch e he⟩
    have : e.1 ∈ empty_cells cfg.size b := by
      rw [← hmap]; exact List.mem_map_of_mem _ he
    exact ((mem_empty_cells _ _ _).1 this).2
  have heq := find_best_step_loop_eq cfg 1 _ hv n.get_chess n._depth
    (lower_bound_score cfg n.next_first) _ b hes
  dsimp only [Node.find_best_step_tot] at hr
  rw [show 2 - 1 = 1 from rfl, heq] at hr
  split at hr
  · simp at hr
  · simp only [Option.some.injEq, Prod.mk.injEq] at hr
    obtain ⟨_, h2, _⟩ := hr
    rw [← h2]
    simp only [Node.edges_mk, hn, List.isEmpty_nil, if_true, Node.find_childs_tot, List.nil_append,
      List.map_map, Function.comp_def, Node.depth_mk]
    apply List.map_congr_left
    intro p _
    simp [visit_child_tot, Node.new]

theorem init_cells_mem (size : Nat) (p : Position) :
    p ∈ empty_cells size ChessBroad.init ↔
      (0 ≤ p.row ∧ p.row < size ∧ 0 ≤ p.column ∧ p.column < size) := by
  rw [mem_empty_cells]
  simp [ChessBroad.init]

/-- On a grid of side at least 2 the board with one stone has an empty cell. -/
theorem one_stone_cells_ne_nil (size : Nat) (hsize : 2 ≤ size) (p : Position) (c : Chess) :
    empty_cells size (ChessBroad.init.emplace p c) ≠ [] := by
  intro h0
  by_cases hp : p = ⟨0, 0⟩
  · have : (⟨0, 1⟩ : Position) ∈ empty_cells size (ChessBroad.init.emplace p c) := by
      rw [mem_empty_cells]
      refine ⟨⟨by simp, by simp; omega, by simp, by simp; omega⟩, ?_⟩
      rw [emplace_other _ _ _ _ (by rw [hp]; decide)]
      rfl
    rw [h0] at this
    simp at this
  · have : (⟨0, 0⟩ : Position) ∈ empty_cells size (ChessBroad.init.emplace p c) := by
      rw [mem_empty_cells]
      refine ⟨⟨by simp, by simp; omega, by simp, by simp; omega⟩, ?_⟩
      rw [emplace_other _ _ _ _ (fun h => hp h.symm)]
      rfl
    rw [h0] at this
    simp at this

/-- The children of the root after `decide` on a new tree when, below every
first move `p`, all replies evaluate to the same value `V p` strictly between
the sentinels (or equal to the first-win sentinel). -/
theorem decide_new_edges (cfg : Config) (V : Position → Int) (hsize : 2 ≤ cfg.size)
    (hV : ∀ p ∈ empty_cells cfg.size ChessBroad.init,
      ∀ q ∈ empty_cells cfg.size (ChessBroad.init.emplace p Chess.first_player),
        cfg.evaluate ((ChessBroad.init.emplace p Chess.first_player).emplace q Chess.second_player)
          = V p)
    (hr : ∀ p, cfg.second_win < V p ∧ V p ≤ cfg.first_win)
    (pos : Position) (n1 : Node) (b1 : ChessBroad)
    (hf : (Node.root cfg).find_best_step_tot cfg ChessBroad.init 2 = some (pos, n1, b1)) :
    n1._edges = (empty_cells cfg.size ChessBroad.init).map fun p =>
      (p, Node.mk 1 Status.normal (V p)
        ((empty_cells cfg.size (ChessBroad.init.emplace p Chess.first_player)).map fun q =>
          (q, (Node.new cfg 1).static_evaluate cfg
            ((ChessBroad.init.emplace p Chess.first_player).emplace q Chess.second_player)))) := by
  rw [find_best_step_two_edges cfg (Node.root cfg) ChessBroad.init rfl pos n1 b1 hf]
  apply List.map_congr_left
  intro p hp
  have hc : (Node.new cfg (Node.root cfg)._depth)._edges = [] := rfl
  have hnf : (Node.new cfg (Node.root cfg)._depth).next_first = false := by
    simp [Node.new, Node.root]
  have hgc : (Node.new cfg (Node.root cfg)._depth).get_chess = Chess.second_player := by
    simp [Node.get_chess, hnf]
  have hrc : (Node.root cfg).get_chess = Chess.first_player := by
    simp [Node.get_chess, Node.root]
  rw [hrc]
  have h := search_one_const cfg (Node.new cfg (Node.root cfg)._depth)
    (ChessBroad.init.emplace p Chess.first_player)
    (lower_bound_score cfg (Node.root cfg).next_first) (V p) hc
    (by rw [hgc]; exact hV p hp)
    (by rw [hnf]; simp [better_score, lower_bound_score, (hr p).2])
    (by rw [hnf]; simp [better_score, lower_bound_score, Node.root, (hr p).1])
  rw [h, hgc]
  have hne := one_stone_cells_ne_nil cfg.size hsize p Chess.first_player
  simp [List.isEmpty_iff, hne, Node.new, Node.root]

theorem decide_eq_of_find_best_step (cfg : Config) (pos : Position) (n1 : Node) (b1 : ChessBroad)
    (hf : (Node.root cfg).find_best_step_tot cfg ChessBroad.init 2 = some (pos, n1, b1)) :
    (GomokuTree.new cfg).decide_tot cfg = some (pos, ⟨n1, [], b1⟩) := by
  unfold GomokuTree.decide_tot
  simp only [GomokuTree.new, getAt_nil, hf, Node.setAt]

theorem new_has_empty (cfg : Config) (hsize : 1 ≤ cfg.size) :
    ∃ p, in_range cfg p ∧ ChessBroad.init.get p = Chess.empty :=
  ⟨⟨0, 0⟩, ⟨by simp, by simp; omega, by simp, by simp; omega⟩, rfl⟩

/-- With an evaluator that scores every board 0, `decide` on a new tree
returns the last cell of the grid. -/
theorem decide_flat_last (cfg : Config) (hev : ∀ b, cfg.evaluate b = 0)
    (hsw : cfg.second_win < 0) (hfw : 0 < cfg.first_win) (hsize : 1 ≤ cfg.size) :
    ((GomokuTree.new cfg).decide_tot cfg).map Prod.fst =
      some ⟨(cfg.size : Int) - 1, (cfg.size : Int) - 1⟩ := by
  obtain ⟨pos, n1, b1, i, child, hf, hget, hmap, _, hlater⟩ :=
    find_best_step_spec cfg (Node.root cfg) ChessBroad.init 2 (new_has_empty cfg hsize)
  rw [decide_eq_of_find_best_step cfg pos n1 b1 hf]
  simp only [Option.map_some', Option.some.injEq]
  have hmap1 : n1._edges.map Prod.fst = empty_cells cfg.size ChessBroad.init := by
    rw [hmap]; rfl
  have hposmem : pos ∈ empty_cells cfg.size ChessBroad.init := by
    rw [← hmap1]
    exact List.mem_map_of_mem Prod.fst (List.getElem?_mem hget)
  have hrange := (init_cells_mem _ _).1 hposmem
  by_cases h1 : cfg.size = 1
  · cases pos with
    | mk r c =>
      simp only [h1] at hrange ⊢
      simp only [Position.mk.injEq]
      omega
  · have hsize2 : 2 ≤ cfg.size := by omega
    have hedges := decide_new_edges cfg (fun _ => 0) hsize2 (fun _ _ _ _ => hev _)
      (fun _ => ⟨hsw, le_of_lt hfw⟩) pos n1 b1 hf
    have hscore : ∀ e ∈ n1._edges, e.2._score = 0 := by
      intro e he
      rw [hedges] at he
      simp only [List.mem_map] at he
      obtain ⟨p, _, rfl⟩ := he
      rfl
    have hM : (⟨(cfg.size : Int) - 1, (cfg.size : Int) - 1⟩ : Position) ∈
        n1._edges.map Prod.fst := by
      rw [hmap1, init_cells_mem]
      simp only
      omega
    obtain ⟨eM, heM, heM1⟩ := List.mem_map.1 hM
    obtain ⟨j, hj⟩ := List.mem_iff_getElem?.1 heM
    have hji : ¬ i < j := by
      intro hij
      have := hlater j eM hij hj
      rw [hscore eM heM, hscore (pos, child) (List.getElem?_mem hget)] at this
      exact lt_irrefl _ this
    have hij : ¬ j < i := by
      intro hji2
      have hsorted := empty_cells_sorted cfg.size ChessBroad.init
      rw [← hmap1, List.pairwise_iff_getElem] at hsorted
      have hi : i < (n1._edges.map Prod.fst).length := by
        simpa using (List.getElem?_eq_some_iff.1 hget).1
      have hjl : j < (n1._edges.map Prod.fst).length := by
        simpa using (List.getElem?_eq_some_iff.1 hj).1
      have := hsorted j i hjl hi hji2
      have e1 : (n1._edges.map Prod.fst)[j] = eM.1 := by
        simp only [List.getElem_map]
        rw [(List.getElem?_eq_some_iff.1 hj).2]
      have e2 : (n1._edges.map Prod.fst)[i] = pos := by
        simp only [List.getElem_map]
        rw [(List.getElem?_eq_some_iff.1 hget).2]
      rw [e1, e2, heM1] at this
      cases pos with
      | mk r c =>
        simp only [pos_less, Bool.or_eq_true, decide_eq_true_eq, Bool.and_eq_true, beq_iff_eq] at this
        simp only at hrange
        omega
    have hijeq : i = j := by omega
    subst hijeq
    rw [hj] at hget
    simp only [Option.some.injEq] at hget
    rw [← heM1, hget]

theorem SameShape.refl (n : Node) : SameShape n n := ⟨rfl, rfl, rfl⟩

theorem map_fst_set (es : List (Position × Node)) (i : Nat) (e : Position × Node) (m : Node)
    (he : es[i]? = some e) : (es.set i (e.1, m)).map Prod.fst = es.map Prod.fst := by
  apply List.ext_getElem?
  intro j
  by_cases hj : i = j
  · subst hj
    simp only [List.getElem?_map]
    rw [List.getElem?_set_self (List.getElem?_eq_some_iff.1 he).1, he]
    rfl
  · simp only [List.getElem?_map]
    rw [List.getElem?_set_ne hj]

/-- Overwriting the node at path `c` keeps the shape of every node whose path
does not pass through `c`. -/
theorem getAt_setAt_frame (c : List Nat) : ∀ (q : List Nat) (root new L : Node),
    ¬ c <+: q → Node.getAt q root = some L →
    ∃ L1, Node.getAt q (Node.setAt c root new) = some L1 ∧ SameShape L L1 := by
  induction c with
  | nil => intro q root new L h _; exact absurd (List.nil_prefix) h
  | cons i cs ih =>
    intro q root new L hpre hL
    rw [setAt_cons]
    cases he : root._edges[i]? with
    | none => exact ⟨L, hL, SameShape.refl L⟩
    | some e =>
      simp only []
      cases q with
      | nil =>
        simp only [getAt_nil, Option.some.injEq] at hL
        subst hL
        refine ⟨_, rfl, rfl, rfl, ?_⟩
        simp only [Node.edges_mk]
        exact map_fst_set _ _ _ _ he
      | cons j qs =>
        rw [getAt_cons] at hL ⊢
        simp only [Node.edges_mk]
        by_cases hij : i = j
        · subst hij
          rw [he] at hL
          simp only [Option.some_bind] at hL
          rw [List.getElem?_set_self (List.getElem?_eq_some_iff.1 he).1]
          simp only [Option.some_bind]
          have hpre2 : ¬ cs <+: qs := by
            intro h
            apply hpre
            obtain ⟨r, hr⟩ := h
            exact ⟨r, by simp [← hr]⟩
          exact ih qs e.2 new L hpre2 hL
        · rw [List.getElem?_set_ne hij]
          exact ⟨L, hL, SameShape.refl L⟩

theorem getAt_below (c r : List Nat) (root cur new : Node) (hcur : Node.getAt c root = some cur) :
    Node.getAt (c ++ r) root = Node.getAt r cur ∧
    Node.getAt (c ++ r) (Node.setAt c root new) = Node.getAt r new := by
  constructor
  · rw [getAt_append, hcur]; rfl
  · rw [getAt_append, getAt_setAt _ _ _ _ hcur]; rfl

/-- In the loop of a depth-1 search every edge keeps its position, and its
child is left as it was or evaluated on the board with the move made. -/
theorem search_loop_one_index (cfg : Config) (recurse : Int → Node → ChessBroad → Node × ChessBroad)
    (first : Bool) (chess : Chess) (p : Int) (es : List (Position × Node)) :
    ∀ (s : Int) (b : ChessBroad), (∀ e ∈ es, b e.1 = Chess.empty) →
      ∀ (j : Nat) (g : Position × Node), es[j]? = some g →
        ∃ g1, (search_loop_tot (visit_child_tot cfg 1 recurse) first chess p es s b).edges[j]? =
            some (g.1, g1) ∧
          (g1 = g.2 ∨ g1 = g.2.static_evaluate cfg (b.emplace g.1 chess)) := by
  induction es with
  | nil => intro s b _ j g hg; simp at hg
  | cons e es ih =>
    intro s b hes j g hg
    have hempty := hes e (List.mem_cons_self _ _)
    have hvis : visit_child_tot cfg 1 recurse s e.2 (b.emplace e.1 chess) =
        (e.2.static_evaluate cfg (b.emplace e.1 chess), b.emplace e.1 chess) := by
      simp [visit_child_tot]
    simp only [search_loop_tot, hvis, emplace_restore b e.1 chess hempty]
    split
    · cases j with
      | zero =>
        simp only [List.getElem?_cons_zero, Option.some.injEq] at hg
        subst hg
        exact ⟨_, by simp, Or.inr rfl⟩
      | succ j =>
        simp only [List.getElem?_cons_succ] at hg
        exact ⟨g.2, by simp [hg], Or.inl rfl⟩
    · cases j with
      | zero =>
        simp only [List.getElem?_cons_zero, Option.some.injEq] at hg
        subst hg
        exact ⟨_, by simp, Or.inr rfl⟩
      | succ j =>
        simp only [List.getElem?_cons_succ] at hg
        obtain ⟨g1, h1, h2⟩ := ih _ b (fun x hx => hes x (List.mem_cons_of_mem _ hx)) j g hg
        exact ⟨g1, by simpa using h1, h2⟩

theorem search_succ_expanded (cfg : Config) (k : Nat) (p : Int) (c : Node) (b : ChessBroad)
    (hc : c._edges ≠ []) :
    (Node.search_tot cfg (k + 1) p c b).1._edges =
      (search_loop_tot (visit_child_tot cfg (k + 1) (Node.search_tot cfg k)) c.next_first c.get_chess p
        c._edges (lower_bound_score cfg c.next_first) b).edges := by
  have hne : ¬ (c._edges.isEmpty = true) := fun h => hc (List.isEmpty_iff.1 h)
  dsimp only [Node.search_tot]
  simp only [if_neg hne, Node.edges_mk]

theorem getAt_unexpanded (r : List Nat) (n L : Node) (hn : n._edges = [])
    (h : Node.getAt r n = some L) : r = [] ∧ L = n := by
  cases r with
  | nil => simp only [getAt_nil, Option.some.injEq] at h; exact ⟨rfl, h.symm⟩
  | cons i rs => rw [getAt_cons, hn] at h; simp at h

/-- A terminal child of a node under the invariant is kept by a depth-1
search of the node. -/
theorem search_one_keeps_leaf (cfg : Config) (p : Int) (c : Node) (b : ChessBroad)
    (hI : Node.Inv cfg 1 b c) (r : List Nat) (hr : r ≠ []) (L : Node)
    (hL : Node.getAt r c = some L) (hleaf : L._status = Status.leaf) :
    ∃ L1, Node.getAt r (Node.search_tot cfg 1 p c b).1 = some L1 ∧ SameShape L L1 := by
  cases r with
  | nil => exact absurd rfl hr
  | cons j rs =>
    rw [getAt_cons] at hL
    cases hg : c._edges[j]? with
    | none => rw [hg] at hL; simp at hL
    | some g =>
      rw [hg] at hL
      simp only [Option.some_bind] at hL
      have hne : c._edges ≠ [] := by
        intro h0; rw [h0] at hg; simp at hg
      rcases (Inv_succ cfg 0 b c).1 hI with h0 | ⟨hmap, hch⟩
      · exact absurd h0 hne
      · obtain ⟨_, hleafok, hI0⟩ := hch g (List.getElem?_mem hg)
        obtain ⟨hrs, hLg⟩ := getAt_unexpanded rs g.2 L ((Inv_zero cfg _ _).1 hI0) hL
        subst hrs
        subst hLg
        have hes : ∀ e ∈ c._edges, b e.1 = Chess.empty := by
          intro e he
          have : e.1 ∈ empty_cells cfg.size b := by
            rw [← hmap]; exact List.mem_map_of_mem _ he
          exact ((mem_empty_cells _ _ _).1 this).2
        obtain ⟨g1, hg1, hor⟩ := search_loop_one_index cfg (Node.search_tot cfg 0) c.next_first
          c.get_chess p c._edges (lower_bound_score cfg c.next_first) b hes j g hg
        refine ⟨g1, ?_, ?_⟩
        · rw [getAt_cons, search_succ_expanded cfg 0 p c b hne]
          simp only [Nat.zero_add]
          rw [hg1]
          rfl
        · rcases hor with rfl | rfl
          · exact SameShape.refl _
          · obtain ⟨h1, h2, _⟩ := hleafok hleaf
            refine ⟨?_, ?_, rfl⟩
            · simp only [Node.static_evaluate, Node.status_mk]
              rw [hleaf]; simp
            · simp only [Node.static_evaluate, Node.score_mk]
              exact h1.symm

/-- A terminal node strictly below a node under the invariant is kept by
`find_best_step` with depth limit 2 on that node. -/
theorem find_best_step_keeps_leaf (cfg : Config) (cur : Node) (b : ChessBroad)
    (hI : Node.Inv cfg 2 b cur) (pos : Position) (cur1 : Node) (b1 : ChessBroad)
    (hf : cur.find_best_step_tot cfg b 2 = some (pos, cur1, b1))
    (r : List Nat) (hr : r ≠ []) (L : Node)
    (hL : Node.getAt r cur = some L) (hleaf : L._status = Status.leaf) :
    ∃ L1, Node.getAt r cur1 = some L1 ∧ SameShape L L1 := by
  cases r with
  | nil => exact absurd rfl hr
  | cons i rs =>
    rw [getAt_cons] at hL
    cases he : cur._edges[i]? with
    | none => rw [he] at hL; simp at hL
    | some e =>
      rw [he] at hL
      simp only [Option.some_bind] at hL
      have hne : cur._edges ≠ [] := by
        intro h0; rw [h0] at he; simp at he
      have hnemp : ¬ (cur._edges.isEmpty = true) := fun h => hne (List.isEmpty_iff.1 h)
      rcases (Inv_succ cfg 1 b cur).1 hI with h0 | ⟨hmap, hch⟩
      · exact absurd h0 hne
      · have hes : ∀ x ∈ cur._edges, b x.1 = Chess.empty ∧
            ChildOK cfg 1 b cur.get_chess cur._depth x := by
          intro x hx
          refine ⟨?_, hch x hx⟩
          have : x.1 ∈ empty_cells cfg.size b := by
            rw [← hmap]; exact List.mem_map_of_mem _ hx
          exact ((mem_empty_cells _ _ _).1 this).2
        have hv := visit_ok_of_search_ok cfg 1 (search_ok cfg 1)
        have heq := find_best_step_loop_eq cfg 1 _ hv cur.get_chess cur._depth
          (lower_bound_score cfg cur.next_first) cur._edges b hes
        have hedges : cur1._edges = cur._edges.map fun x =>
            (x.1, (visit_child_tot cfg 2 (Node.search_tot cfg 1) (lower_bound_score cfg cur.next_first)
              x.2 (b.emplace x.1 cur.get_chess)).1) := by
          dsimp only [Node.find_best_step_tot] at hf
          simp only [if_neg hnemp, Node.edges_mk] at hf
          rw [show 2 - 1 = 1 from rfl, heq] at hf
          split at hf
          · simp at hf
          · simp only [Option.some.injEq, Prod.mk.injEq] at hf
            obtain ⟨_, h2, _⟩ := hf
            rw [← h2]
            rfl
        rw [getAt_cons, hedges, List.getElem?_map, he]
        simp only [Option.map_some', Option.some_bind]
        obtain ⟨_, _, hI1⟩ := hch e (List.getElem?_mem he)
        by_cases hst : e.2._status ≠ Status.cut ∧ e.2._status ≠ Status.leaf
        · have hvis : visit_child_tot cfg 2 (Node.search_tot cfg 1) (lower_bound_score cfg cur.next_first)
              e.2 (b.emplace e.1 cur.get_chess) =
              Node.search_tot cfg 1 (lower_bound_score cfg cur.next_first) e.2
                (b.emplace e.1 cur.get_chess) := by
            simp [visit_child_tot, hst]
          rw [hvis]
          cases rs with
          | nil =>
            simp only [getAt_nil, Option.some.injEq] at hL
            rw [hL] at hst
            exact absurd hleaf hst.2
          | cons j rs =>
            exact search_one_keeps_leaf cfg _ e.2 _ hI1 (j :: rs) (by simp) L hL hleaf
        · have hvis : visit_child_tot cfg 2 (Node.search_tot cfg 1) (lower_bound_score cfg cur.next_first)
              e.2 (b.emplace e.1 cur.get_chess) = (e.2, b.emplace e.1 cur.get_chess) := by
            simp only [visit_child_tot]
            rw [if_neg (by decide), if_neg hst]
          rw [hvis]
          exact ⟨L, hL, SameShape.refl L⟩

/-- A terminal node strictly below the current node of a state under the
invariant is closed: a win sentinel as score, no edges. -/
theorem leaf_below_closed (cfg : Config) (cur : Node) (b : ChessBroad)
    (hI : Node.Inv cfg 2 b cur) (r : List Nat) (hr : r ≠ []) (L : Node)
    (hL : Node.getAt r cur = some L) (hleaf : L._status = Status.leaf) :
    (L._score = cfg.first_win ∨ L._score = cfg.second_win) ∧ L._edges = [] := by
  cases r with
  | nil => exact absurd rfl hr
  | cons i rs =>
    rw [getAt_cons] at hL
    cases he : cur._edges[i]? with
    | none => rw [he] at hL; simp at hL
    | some e =>
      rw [he] at hL
      simp only [Option.some_bind] at hL
      have hne : cur._edges ≠ [] := by
        intro h0; rw [h0] at he; simp at he
      rcases (Inv_succ cfg 1 b cur).1 hI with h0 | ⟨_, hch⟩
      · exact absurd h0 hne
      · obtain ⟨_, hl1, hI1⟩ := hch e (List.getElem?_mem he)
        cases rs with
        | nil =>
          simp only [getAt_nil, Option.some.injEq] at hL
          subst hL
          exact (hl1 hleaf).2
        | cons j rs =>
          rw [getAt_cons] at hL
          cases hg : e.2._edges[j]? with
          | none => rw [hg] at hL; simp at hL
          | some g =>
            rw [hg] at hL
            simp only [Option.some_bind] at hL
            have hne1 : e.2._edges ≠ [] := by
              intro h0; rw [h0] at hg; simp at hg
            rcases (Inv_succ cfg 0 _ e.2).1 hI1 with h0 | ⟨_, hch1⟩
            · exact absurd h0 hne1
            · obtain ⟨_, hl2, hI2⟩ := hch1 g (List.getElem?_mem hg)
              obtain ⟨_, hLg⟩ := getAt_unexpanded rs g.2 L ((Inv_zero cfg _ _).1 hI2) hL
              subst hLg
              exact (hl2 hleaf).2

theorem fold_agree (first : Bool) (s g g1 : Int) (h : CutBound (!first) s g g1) :
    better_score first s g = better_score first s g1 := by
  rcases h with h | ⟨h1, h2⟩
  · rw [h]
  · cases first <;> simp only [better_score, Bool.not_true, Bool.not_false, if_true,
      Bool.false_eq_true, if_false] at h1 h2 ⊢ <;> omega

theorem better_score_mono (first : Bool) (s g : Int) :
    better_score first (better_score first s g) s = better_score first s g := by
  cases first <;> simp only [better_score, if_true, Bool.false_eq_true, if_false] <;> omega

theorem better_score_trans (first : Bool) (a b c : Int) (h1 : better_score first a b = a)
    (h2 : better_score first b c = b) : better_score first a c = a := by
  cases first <;> simp only [better_score, if_true, Bool.false_eq_true, if_false] at h1 h2 ⊢ <;>
    omega

theorem in_range_better (cfg : Config) (first : Bool) (s g : Int) (hs : InRange cfg s)
    (hg : InRange cfg g) : InRange cfg (better_score first s g) := by
  unfold InRange at *
  cases first <;> simp only [better_score, if_true, Bool.false_eq_true, if_false] <;> omega

theorem in_range_lower_bound (cfg : Config) (first : Bool)
    (h : cfg.second_win ≤ cfg.first_win) : InRange cfg (lower_bound_score cfg first) := by
  unfold InRange lower_bound_score
  cases first <;> simp only [if_true, Bool.false_eq_true, if_false] <;> omega

/-- At the node `find_best_step` runs on, whose score stays at the lower
bound, a cut child has the score the search without cutoff gives it. -/
theorem top_agree (cfg : Config) (first : Bool) (g g1 : Int) (hg : InRange cfg g)
    (hg1 : InRange cfg g1) (h : CutBound (!first) (lower_bound_score cfg first) g g1) :
    g = g1 := by
  rcases h with h | ⟨h1, h2⟩
  · exact h
  · unfold InRange at *
    cases first <;> simp only [better_score, lower_bound_score, Bool.not_true, Bool.not_false,
      if_true, Bool.false_eq_true, if_false] at h1 h2 ⊢ <;> omega

theorem pair_loop (cfg : Config) (d : Nat)
    (visit visit1 : Int → Node → ChessBroad → Node × ChessBroad)
    (hv : VisitPair cfg d visit visit1) (chess : Chess) (p : Int)
    (es : List (Position × Node)) :
    ∀ (s : Int) (b : ChessBroad), InRange cfg s →
      (∀ e ∈ es, e.2 = Node.new cfg d ∧ b e.1 = Chess.empty) →
      (search_loop_tot visit (d % 2 == 0) chess p es s b).broad = b ∧
      (search_loop_nocut_tot visit1 (d % 2 == 0) chess es s b).broad = b ∧
      InRange cfg (search_loop_tot visit (d % 2 == 0) chess p es s b).score ∧
      InRange cfg (search_loop_nocut_tot visit1 (d % 2 == 0) chess es s b).score ∧
      better_score (d % 2 == 0) (search_loop_nocut_tot visit1 (d % 2 == 0) chess es s b).score s =
        (search_loop_nocut_tot visit1 (d % 2 == 0) chess es s b).score ∧
      CutBound (d % 2 == 0) p (search_loop_tot visit (d % 2 == 0) chess p es s b).score
        (search_loop_nocut_tot visit1 (d % 2 == 0) chess es s b).score := by
  induction es with
  | nil =>
    intro s b hs _
    simp only [search_loop_tot, search_loop_nocut_tot]
    exact ⟨trivial, trivial, hs, hs, better_score_self _ _, Or.inl rfl⟩
  | cons e es ih =>
    intro s b hs hes
    obtain ⟨he, hempty⟩ := hes e (List.mem_cons_self _ _)
    obtain ⟨hb, hb1, hg, hg1, hcb⟩ := hv s s (b.emplace e.1 chess)
    rw [← he] at hb hb1 hg hg1 hcb
    have hagree := fold_agree (d % 2 == 0) s _ _ hcb
    have hrange := in_range_better cfg (d % 2 == 0) s _ hs hg
    obtain ⟨i1, i2, i3, i4, i5, i6⟩ := ih
      (better_score (d % 2 == 0) s (visit s e.2 (b.emplace e.1 chess)).1._score) b hrange
      (fun x hx => hes x (List.mem_cons_of_mem _ hx))
    simp only [search_loop_tot, search_loop_nocut_tot, hb, hb1, emplace_restore b e.1 chess hempty,
      ← hagree]
    have hmono : better_score (d % 2 == 0)
        (search_loop_nocut_tot visit1 (d % 2 == 0) chess es
          (better_score (d % 2 == 0) s (visit s e.2 (b.emplace e.1 chess)).1._score) b).score s =
        (search_loop_nocut_tot visit1 (d % 2 == 0) chess es
          (better_score (d % 2 == 0) s (visit s e.2 (b.emplace e.1 chess)).1._score) b).score :=
      better_score_trans _ _ _ _ i5 (better_score_mono _ _ _)
    split
    · rename_i hcut
      exact ⟨rfl, i2, hrange, i4, hmono, Or.inr ⟨hcut, i5⟩⟩
    · exact ⟨i1, i2, i3, i4, hmono, i6⟩

theorem search_nocut_succ_unexpanded (cfg : Config) (k : Nat) (p : Int) (c : Node)
    (b : ChessBroad) (hc : c._edges = []) :
    Node.search_nocut_tot cfg (k + 1) p c b =
      (Node.mk c._depth Status.normal
        (search_loop_nocut_tot (visit_child_tot cfg (k + 1) (Node.search_nocut_tot cfg k)) c.next_first
          c.get_chess ((empty_cells cfg.size b).map fun q => (q, Node.new cfg c._depth))
          (lower_bound_score cfg c.next_first) b).score
        (search_loop_nocut_tot (visit_child_tot cfg (k + 1) (Node.search_nocut_tot cfg k)) c.next_first
          c.get_chess ((empty_cells cfg.size b).map fun q => (q, Node.new cfg c._depth))
          (lower_bound_score cfg c.next_first) b).edges,
       (search_loop_nocut_tot (visit_child_tot cfg (k + 1) (Node.search_nocut_tot cfg k)) c.next_first
          c.get_chess ((empty_cells cfg.size b).map fun q => (q, Node.new cfg c._depth))
          (lower_bound_score cfg c.next_first) b).broad) := by
  dsimp only [Node.search_nocut_tot]
  simp only [hc, List.isEmpty_nil, if_true, Node.find_childs_tot, Node.edges_mk, List.nil_append,
    Node.depth_mk, Node.status_mk]

theorem cells_fresh (cfg : Config) (d : Nat) (b : ChessBroad) :
    ∀ e ∈ (empty_cells cfg.size b).map (fun q => (q, Node.new cfg d)),
      e.2 = Node.new cfg d ∧ b e.1 = Chess.empty := by
  intro e he
  simp only [List.mem_map] at he
  obtain ⟨q, hq, rfl⟩ := he
  exact ⟨rfl, ((mem_empty_cells _ _ _).1 hq).2⟩

theorem visit_pair_one (cfg : Config) (d : Nat)
    (hev : ∀ b, cfg.second_win ≤ cfg.evaluate b ∧ cfg.evaluate b ≤ cfg.first_win) :
    VisitPair cfg d (visit_child_tot cfg 1 (Node.search_tot cfg 0))
      (visit_child_tot cfg 1 (Node.search_nocut_tot cfg 0)) := by
  intro s s1 b
  simp only [visit_child_tot, if_true]
  refine ⟨trivial, trivial, ?_, ?_, Or.inl rfl⟩ <;>
    simp only [Node.static_evaluate, Node.score_mk] <;> exact hev b

theorem visit_pair_succ (cfg : Config) (d k : Nat) (hs : SoundAt cfg (k + 1)) :
    VisitPair cfg d (visit_child_tot cfg (k + 2) (Node.search_tot cfg (k + 1)))
      (visit_child_tot cfg (k + 2) (Node.search_nocut_tot cfg (k + 1))) := by
  intro s s1 b
  have hne : ¬ (k + 2 = 1) := by omega
  have hst : (Node.new cfg d)._status ≠ Status.cut ∧ (Node.new cfg d)._status ≠ Status.leaf := by
    simp [Node.new]
  simp only [visit_child_tot, if_neg hne, if_pos hst]
  obtain ⟨h1, h2, h3, h4, h5⟩ := hs d b s s1
  refine ⟨h1, h2, h3, h4, ?_⟩
  have : (!(d % 2 == 0)) = ((d + 1) % 2 == 0) := by
    rcases Nat.mod_two_eq_zero_or_one d with h | h <;> simp [Nat.add_mod, h]
  rw [this]; exact h5

theorem sound_of_visit_pair (cfg : Config) (k : Nat)
    (hle : cfg.second_win ≤ cfg.first_win)
    (hv : ∀ d, VisitPair cfg d (visit_child_tot cfg (k + 1) (Node.search_tot cfg k))
      (visit_child_tot cfg (k + 1) (Node.search_nocut_tot cfg k))) :
    SoundAt cfg (k + 1) := by
  intro d b p p1
  have hc : (Node.new cfg d)._edges = [] := rfl
  rw [search_succ_unexpanded cfg k p _ b hc, search_nocut_succ_unexpanded cfg k p1 _ b hc]
  have hnf : (Node.new cfg d).next_first = ((d + 1) % 2 == 0) := rfl
  have hdep : (Node.new cfg d)._depth = d + 1 := rfl
  rw [hnf, hdep]
  obtain ⟨h1, h2, h3, h4, _, h6⟩ := pair_loop cfg (d + 1) _ _ (hv (d + 1))
    (Node.new cfg d).get_chess p
    ((empty_cells cfg.size b).map fun q => (q, Node.new cfg (d + 1)))
    (lower_bound_score cfg ((d + 1) % 2 == 0)) b (in_range_lower_bound cfg _ hle)
    (cells_fresh cfg (d + 1) b)
  exact ⟨h1, h2, h3, h4, h6⟩

theorem sound_at (cfg : Config)
    (hev : ∀ b, cfg.second_win ≤ cfg.evaluate b ∧ cfg.evaluate b ≤ cfg.first_win) (k : Nat) :
    SoundAt cfg (k + 1) := by
  have hle : cfg.second_win ≤ cfg.first_win := le_trans (hev ChessBroad.init).1 (hev ChessBroad.init).2
  induction k with
  | zero => exact sound_of_visit_pair cfg 0 hle (fun d => visit_pair_one cfg d hev)
  | succ k ih => exact sound_of_visit_pair cfg (k + 1) hle (fun d => visit_pair_succ cfg d k ih)

theorem visit_pair_any (cfg : Config)
    (hev : ∀ b, cfg.second_win ≤ cfg.evaluate b ∧ cfg.evaluate b ≤ cfg.first_win)
    (d k : Nat) :
    VisitPair cfg d (visit_child_tot cfg (k + 1) (Node.search_tot cfg k))
      (visit_child_tot cfg (k + 1) (Node.search_nocut_tot cfg k)) := by
  cases k with
  | zero => exact visit_pair_one cfg d hev
  | succ k => exact visit_pair_succ cfg d k (sound_at cfg hev k)

theorem top_loop (cfg : Config) (d : Nat)
    (visit visit1 : Int → Node → ChessBroad → Node × ChessBroad)
    (hv : VisitPair cfg d visit visit1) (chess : Chess) (es : List (Position × Node)) :
    ∀ (b : ChessBroad), (∀ e ∈ es, e.2 = Node.new cfg d ∧ b e.1 = Chess.empty) →
      (find_best_step_loop_tot visit chess (lower_bound_score cfg (d % 2 == 0)) es b).2 = b ∧
      (find_best_step_loop_tot visit1 chess (lower_bound_score cfg (d % 2 == 0)) es b).2 = b ∧
      List.Forall₂ SameMove
        (find_best_step_loop_tot visit chess (lower_bound_score cfg (d % 2 == 0)) es b).1
        (find_best_step_loop_tot visit1 chess (lower_bound_score cfg (d % 2 == 0)) es b).1 := by
  induction es with
  | nil => intro b _; exact ⟨rfl, rfl, List.Forall₂.nil⟩
  | cons e es ih =>
    intro b hes
    obtain ⟨he, hempty⟩ := hes e (List.mem_cons_self _ _)
    obtain ⟨hb, hb1, hg, hg1, hcb⟩ := hv (lower_bound_score cfg (d % 2 == 0))
      (lower_bound_score cfg (d % 2 == 0)) (b.emplace e.1 chess)
    rw [← he] at hb hb1 hg hg1 hcb
    obtain ⟨i1, i2, i3⟩ := ih b (fun x hx => hes x (List.mem_cons_of_mem _ hx))
    simp only [find_best_step_loop_tot, hb, hb1, emplace_restore b e.1 chess hempty]
    exact ⟨i1, i2, List.Forall₂.cons ⟨rfl, top_agree cfg _ _ _ hg hg1 hcb⟩ i3⟩

theorem best_step_comp_congr (first : Bool) (x1 x2 y1 y2 : Position × Node)
    (h1 : SameMove x1 y1) (h2 : SameMove x2 y2) :
    best_step_comp first x1 x2 = best_step_comp first y1 y2 := by
  simp only [best_step_comp, h1.2, h2.2]

theorem max_element_loop_congr (first : Bool) (xs ys : List (Position × Node))
    (h : List.Forall₂ SameMove xs ys) :
    ∀ (i : Nat) (l l1 : Nat × (Position × Node)), l.1 = l1.1 → SameMove l.2 l1.2 →
      (max_element_loop (best_step_comp first) xs i l).1 =
        (max_element_loop (best_step_comp first) ys i l1).1 ∧
      SameMove (max_element_loop (best_step_comp first) xs i l).2
        (max_element_loop (best_step_comp first) ys i l1).2 := by
  induction h with
  | nil => intro i l l1 h1 h2; exact ⟨h1, h2⟩
  | cons hxy _ ih =>
    intro i l l1 h1 h2
    simp only [max_element_loop]
    rw [best_step_comp_congr first _ _ _ _ h2 hxy]
    split
    · exact ih (i + 1) _ _ rfl hxy
    · exact ih (i + 1) _ _ h1 h2

theorem max_element_congr (first : Bool) (xs ys : List (Position × Node))
    (h : List.Forall₂ SameMove xs ys) :
    (max_element (best_step_comp first) xs).map (fun r => r.2.1) =
      (max_element (best_step_comp first) ys).map (fun r => r.2.1) := by
  cases h with
  | nil => rfl
  | @cons x y xs1 ys1 hxy hrest =>
    simp only [max_element, Option.map_some', Option.some.injEq]
    exact (max_element_loop_congr first xs1 ys1 hrest 1 (0, x) (0, y) rfl hxy).2.1

theorem find_best_step_fst (cfg : Config) (n : Node) (b : ChessBroad) (k : Nat)
    (hn : n._edges = []) :
    (n.find_best_step_tot cfg b (k + 1)).map Prod.fst =
      (max_element (best_step_comp n.next_first)
        (find_best_step_loop_tot (visit_child_tot cfg (k + 1) (Node.search_tot cfg k)) n.get_chess
          (lower_bound_score cfg n.next_first)
          ((empty_cells cfg.size b).map fun q => (q, Node.new cfg n._depth)) b).1).map
        fun r => r.2.1 := by
  dsimp only [Node.find_best_step_tot]
  simp only [hn, List.isEmpty_nil, if_true, Node.find_childs_tot, Node.edges_mk, List.nil_append,
    Node.depth_mk, Nat.add_sub_cancel]
  split <;> rename_i h <;> rw [h] <;> rfl

theorem find_best_step_nocut_fst (cfg : Config) (n : Node) (b : ChessBroad) (k : Nat)
    (hn : n._edges = []) :
    (n.find_best_step_nocut_tot cfg b (k + 1)).map Prod.fst =
      (max_element (best_step_comp n.next_first)
        (find_best_step_loop_tot (visit_child_tot cfg (k + 1) (Node.search_nocut_tot cfg k)) n.get_chess
          (lower_bound_score cfg n.next_first)
          ((empty_cells cfg.size b).map fun q => (q, Node.new cfg n._depth)) b).1).map
        fun r => r.2.1 := by
  dsimp only [Node.find_best_step_nocut_tot]
  simp only [hn, List.isEmpty_nil, if_true, Node.find_childs_tot, Node.edges_mk, List.nil_append,
    Node.depth_mk, Nat.add_sub_cancel]
  split <;> rename_i h <;> rw [h] <;> rfl

/-- For the total form of the calls: in every state reached from a new tree by `update` calls with legal
moves and `decide` calls, if the board mirror has an empty in-range cell then
`decide` returns a position that is an empty in-range cell of the board mirror
(before the call and after it). -/
theorem decide_returns_empty_cell_tot (cfg : Config) (ms : List Position) (t : GomokuTree)
    (hreach : Reachable_tot cfg ms t)
    (hempty : ∃ p, in_range cfg p ∧ t._broad.get p = Chess.empty) :
    ∃ pos t1, t.decide_tot cfg = some (pos, t1) ∧ in_range cfg pos ∧
      t._broad.get pos = Chess.empty ∧ t1._broad.get pos = Chess.empty := by
  have hinv := reachable_inv cfg ms t hreach
  obtain ⟨cur, hcur, _, _, _⟩ := hinv
  obtain ⟨pos, n1, broad1, _, _, hf, _⟩ := find_best_step_spec cfg cur t._broad 2 hempty
  have hd : t.decide_tot cfg = some (pos, ⟨t._root.setAt t._current n1, t._current, broad1⟩) := by
    unfold GomokuTree.decide_tot
    rw [hcur]
    simp only [hf]
  obtain ⟨_, hb, _, hmem⟩ := decide_ok cfg ms t _ pos (reachable_inv cfg ms t hreach) hd
  obtain ⟨hr, he⟩ := (mem_empty_cells _ _ _).1 hmem
  refine ⟨pos, _, hd, hr, he, ?_⟩
  rw [hb]; exact he

/-- For the total form of the calls: for every board, every depth limit >= 1 and every unexpanded node,
whatever `find_best_step` returns it leaves the board equal to the board it was
given, and it does return when the board has an empty in-range cell; and in
every reachable state of the tree `decide` leaves the board mirror unchanged
(and returns when the mirror has an empty in-range cell). -/
theorem find_best_step_restores_board_tot (cfg : Config) :
    (∀ (n : Node) (broad : ChessBroad) (depth_limit : Nat), 1 ≤ depth_limit → n._edges = [] →
      (∀ pos n1 broad1, n.find_best_step_tot cfg broad depth_limit = some (pos, n1, broad1) →
        broad1 = broad) ∧
      ((∃ p, in_range cfg p ∧ broad.get p = Chess.empty) →
        ∃ pos n1, n.find_best_step_tot cfg broad depth_limit = some (pos, n1, broad))) ∧
    (∀ (ms : List Position) (t : GomokuTree), Reachable_tot cfg ms t →
      (∀ pos t1, t.decide_tot cfg = some (pos, t1) → t1._broad = t._broad) ∧
      ((∃ p, in_range cfg p ∧ t._broad.get p = Chess.empty) →
        ∃ pos t1, t.decide_tot cfg = some (pos, t1) ∧ t1._broad = t._broad)) := by
  constructor
  · intro n broad depth_limit hd he
    obtain ⟨k, rfl⟩ : ∃ k, depth_limit = k + 1 := ⟨depth_limit - 1, by omega⟩
    have hI : Node.Inv cfg (k + 1) broad n := Inv_of_unexpanded cfg _ _ _ he
    have h1 : ∀ pos n1 broad1, n.find_best_step_tot cfg broad (k + 1) = some (pos, n1, broad1) →
        broad1 = broad := fun pos n1 broad1 hf => (find_best_step_ok cfg k n broad hI pos n1 broad1 hf).1
    refine ⟨h1, ?_⟩
    intro hempty
    obtain ⟨pos, n1, broad1, _, _, hf, _⟩ := find_best_step_spec cfg n broad (k + 1) hempty
    have := h1 pos n1 broad1 hf
    subst this
    exact ⟨pos, n1, hf⟩
  · intro ms t hreach
    have hinv := reachable_inv cfg ms t hreach
    have h1 : ∀ pos t1, t.decide_tot cfg = some (pos, t1) → t1._broad = t._broad :=
      fun pos t1 hd => (decide_ok cfg ms t t1 pos hinv hd).2.1
    refine ⟨h1, ?_⟩
    intro hempty
    obtain ⟨cur, hcur, _, _, _⟩ := hinv
    obtain ⟨pos, n1, broad1, _, _, hf, _⟩ := find_best_step_spec cfg cur t._broad 2 hempty
    have hd : t.decide_tot cfg = some (pos, ⟨t._root.setAt t._current n1, t._current, broad1⟩) := by
      unfold GomokuTree.decide_tot
      rw [hcur]
      simp only [hf]
    exact ⟨pos, _, hd, h1 _ _ hd⟩

/-- C6: for every sequence of pairwise distinct in-range positions, the
`update` calls on a new tree all succeed and leave the board mirror equal to
the independent replay of the moves on the empty board: the stone of the
first player at the 1st, 3rd, ... move (index 0, 2, ...), of the second player
at the 2nd, 4th, ... move, and empty everywhere else. -/
theorem updates_replay (cfg : Config) (ps : List Position) (hnd : ps.Nodup)
    (_hr : ∀ p ∈ ps, in_range cfg p) :
    ∃ t, (GomokuTree.new cfg).updates cfg ps = some t ∧ t._broad = replay ps ∧
      (∀ (i : Nat) (h : i < ps.length), t._broad.get (ps.get ⟨i, h⟩) =
        if i % 2 = 0 then Chess.first_player else Chess.second_player) ∧
      (∀ q, q ∉ ps → t._broad.get q = Chess.empty) := by
  obtain ⟨t, ht, hb⟩ := updates_unexpanded cfg ps (GomokuTree.new cfg) (Node.root cfg) rfl rfl
  have hb1 : t._broad = replay ps := hb
  refine ⟨t, ht, hb1, ?_, ?_⟩
  · intro i h
    rw [hb1]
    have := replay_from_get ps 0 ChessBroad.init hnd i h
    simp only [Nat.zero_add] at this
    exact this
  · intro q hq
    rw [hb1]
    exact replay_from_not_mem q ps 0 ChessBroad.init hq

/-- Instance of C6: three moves on the 3 x 3 grid. -/
theorem updates_replay_witness :
    ∃ t, (GomokuTree.new cfg_flat).updates cfg_flat [⟨1, 1⟩, ⟨0, 0⟩, ⟨2, 1⟩] = some t ∧
      t._broad = replay [⟨1, 1⟩, ⟨0, 0⟩, ⟨2, 1⟩] ∧
      (∀ (i : Nat) (h : i < [(⟨1, 1⟩ : Position), ⟨0, 0⟩, ⟨2, 1⟩].length),
        t._broad.get ([(⟨1, 1⟩ : Position), ⟨0, 0⟩, ⟨2, 1⟩].get ⟨i, h⟩) =
          if i % 2 = 0 then Chess.first_player else Chess.second_player) ∧
      (∀ q, q ∉ [(⟨1, 1⟩ : Position), ⟨0, 0⟩, ⟨2, 1⟩] → t._broad.get q = Chess.empty) :=
  updates_replay cfg_flat [⟨1, 1⟩, ⟨0, 0⟩, ⟨2, 1⟩] (by decide)
    (by unfold in_range; decide)

/-- For the total form of the calls: in every state reached from a new tree by `k` `update` calls with
legal moves, `decide` calls interleaved anywhere, the current node has depth
`k` and is the node reached from the root along the edges whose positions are
the `k` moves, in order; in particular after `update(A)`, `B = decide()`,
`update(B)` the current node is the child for `B` of the root's child for `A`,
at depth 2. -/
theorem current_tracks_moves_tot (cfg : Config) :
    (∀ (ms : List Position) (t : GomokuTree), Reachable_tot cfg ms t →
      ∃ cur, t._root.getAt t._current = some cur ∧ cur._depth = ms.length ∧
        t._root.pathMoves t._current = some ms) ∧
    (∀ (A : Position), (GomokuTree.new cfg).legal cfg A →
      ∃ t1, (GomokuTree.new cfg).update cfg A = some t1 ∧
        ∀ (B : Position) (t2 : GomokuTree), t1.decide_tot cfg = some (B, t2) →
          ∃ t3 iA iB eA eB, t2.update cfg B = some t3 ∧ t3._current = [iA, iB] ∧
            t3._root._edges[iA]? = some eA ∧ eA.1 = A ∧
            eA.2._edges[iB]? = some eB ∧ eB.1 = B ∧
            t3._root.getAt t3._current = some eB.2 ∧ eB.2._depth = 2) := by
  constructor
  · intro ms t hreach
    obtain ⟨cur, h1, h2, h3, _⟩ := reachable_inv cfg ms t hreach
    exact ⟨cur, h1, h2, h3⟩
  · intro A hA
    obtain ⟨t1, hu1, _⟩ := update_ok cfg [] (GomokuTree.new cfg) A
      (reachable_inv cfg [] _ Reachable_tot.new) hA
    refine ⟨t1, hu1, ?_⟩
    intro B t2 hd
    have hr1 : Reachable_tot cfg ([] ++ [A]) t1 := Reachable_tot.update Reachable_tot.new hA hu1
    have hr2 : Reachable_tot cfg ([] ++ [A]) t2 := Reachable_tot.decide hr1 hd
    obtain ⟨_, hb, _, hmem⟩ := decide_ok cfg _ t1 t2 B (reachable_inv cfg _ _ hr1) hd
    have hB : t2.legal cfg B := by
      rw [← hb] at hmem
      exact (mem_empty_cells _ _ _).1 hmem
    obtain ⟨t3, hu3, cur, hcur, hdep, hpath, _⟩ :=
      update_ok cfg _ t2 B (reachable_inv cfg _ _ hr2) hB
    obtain ⟨iA, iB, eA, eB, hc, hA1, hA2, hB1, hB2⟩ := pathMoves_two _ _ A B hpath
    refine ⟨t3, iA, iB, eA, eB, hu3, hc, hA1, hA2, hB1, hB2, ?_, ?_⟩
    · rw [hc]
      simp [getAt_cons, getAt_nil, hA1, hB1]
    · have : cur = eB.2 := by
        rw [hc] at hcur
        simpa [getAt_cons, getAt_nil, hA1, hB1] using hcur.symm
      rw [← this, hdep]; rfl

theorem lower_bound_prefix (es : List (Position × Node)) (pos : Position) :
    ∀ (j : Nat) (e : Position × Node), j < lower_bound es pos → es[j]? = some e →
      pos_less e.1 pos = true := by
  induction es with
  | nil => intro j e hj; simp [lower_bound] at hj
  | cons x xs ih =>
    intro j e hj he
    unfold lower_bound at hj
    by_cases hx : pos_less x.1 pos = true
    · simp only [List.takeWhile_cons, hx, if_true, List.length_cons] at hj
      cases j with
      | zero => simp only [List.getElem?_cons_zero, Option.some.injEq] at he; rw [← he]; exact hx
      | succ j =>
        simp only [List.getElem?_cons_succ] at he
        exact ih j e (by unfold lower_bound; omega) he
    · simp [List.takeWhile_cons, hx] at hj

theorem lower_bound_stop (es : List (Position × Node)) (pos : Position) :
    ∀ (e : Position × Node), es[lower_bound es pos]? = some e → pos_less e.1 pos = false := by
  induction es with
  | nil => intro e he; simp [lower_bound] at he
  | cons x xs ih =>
    intro e he
    unfold lower_bound at he
    by_cases hx : pos_less x.1 pos = true
    · simp only [List.takeWhile_cons, hx, if_true, List.length_cons, List.getElem?_cons_succ] at he
      exact ih e he
    · simp only [List.takeWhile_cons, hx, Bool.false_eq_true, if_false, List.length_nil,
        List.getElem?_cons_zero, Option.some.injEq] at he
      rw [← he]; simpa using hx

/-- C8, as the code has it: `get_child` has no error path and does not check
`pos`.  On an unexpanded node it appends a new child bound to `pos`, whatever
the cell holds, and returns it.  On an expanded node it leaves the node as it
is and returns the child of the first edge whose position is not smaller than
`pos`; when the edge positions are strictly ascending and `pos` is one of
them, that is the edge for `pos`. -/
theorem get_child_unchecked (cfg : Config) (n : Node) (pos : Position) :
    (n._edges = [] → n.get_child cfg pos =
      some (Node.mk n._depth n._status n._score [(pos, Node.new cfg n._depth)], 0)) ∧
    (n._edges ≠ [] → ∀ (n1 : Node) (i : Nat), n.get_child cfg pos = some (n1, i) →
      n1 = n ∧ (∀ (j : Nat) (e : Position × Node), j < i → n._edges[j]? = some e →
        pos_less e.1 pos = true) ∧
      ∃ e, n._edges[i]? = some e ∧ pos_less e.1 pos = false) ∧
    (n._edges ≠ [] → (n._edges.map Prod.fst).Pairwise (fun p q => pos_less p q = true) →
      pos ∈ n._edges.map Prod.fst →
      ∃ i e, n.get_child cfg pos = some (n, i) ∧ n._edges[i]? = some e ∧ e.1 = pos) := by
  refine ⟨?_, ?_, ?_⟩
  · intro he
    simp [Node.get_child, he]
  · intro he n1 i hg
    have hne : ¬ (n._edges.isEmpty = true) := fun h => he (List.isEmpty_iff.1 h)
    simp only [Node.get_child, if_neg hne] at hg
    split at hg
    · rename_i hlt
      simp only [Option.some.injEq, Prod.mk.injEq] at hg
      obtain ⟨h1, h2⟩ := hg
      subst h2
      refine ⟨h1.symm, lower_bound_prefix _ _, ?_⟩
      exact ⟨_, List.getElem?_eq_getElem hlt, lower_bound_stop _ _ _ (List.getElem?_eq_getElem hlt)⟩
    · simp at hg
  · intro he hs hp
    have hne : ¬ (n._edges.isEmpty = true) := fun h => he (List.isEmpty_iff.1 h)
    obtain ⟨e, hget, hep⟩ := lower_bound_finds n._edges pos hs hp
    have hlt : lower_bound n._edges pos < n._edges.length := (List.getElem?_eq_some_iff.1 hget).1
    refine ⟨lower_bound n._edges pos, e, ?_, hget, hep⟩
    simp [Node.get_child, hne, hlt]

/-- Instance of C8's amended statement: the unexpanded root and a position
outside the 3 x 3 grid. -/
theorem get_child_unchecked_witness :
    (Node.root cfg_flat).get_child cfg_flat ⟨-1, 7⟩ =
      some (Node.mk (Node.root cfg_flat)._depth (Node.root cfg_flat)._status
        (Node.root cfg_flat)._score [(⟨-1, 7⟩, Node.new cfg_flat (Node.root cfg_flat)._depth)], 0) :=
  (get_child_unchecked cfg_flat (Node.root cfg_flat) ⟨-1, 7⟩).1 rfl

/-- C8 fails on the code.  On the 3 x 3 grid: `update` with a position
outside the grid succeeds on the new tree; `update(0,0)` twice succeeds and
creates a child for the occupied cell (0,0); and on an expanded node
(`decide`, `update(0,0)`, then `update(0,0)` again) the child bound to the
different position (0,1) is returned. -/
theorem get_child_counterexample :
    ((GomokuTree.new cfg_flat).update cfg_flat ⟨-1, 7⟩).isSome = true ∧
    (((GomokuTree.new cfg_flat).update cfg_flat ⟨0, 0⟩).bind fun t =>
      (t.update cfg_flat ⟨0, 0⟩).bind fun t1 => t1._root.pathMoves t1._current) =
      some [⟨0, 0⟩, ⟨0, 0⟩] ∧
    (((GomokuTree.new cfg_flat).decide cfg_flat).bind fun r =>
      (r.2.update cfg_flat ⟨0, 0⟩).bind fun t =>
        (t.update cfg_flat ⟨0, 0⟩).bind fun t1 => t1._root.pathMoves t1._current) =
      some [⟨0, 0⟩, ⟨0, 1⟩] := by
  decide

/-- For the total form of the calls: among children that end the call with the same
best score `find_best_step` returns the last one in stored order (every later
edge has a different, worse score), the largest (row, column) when the edges
ascend; in particular, on an empty board with an evaluator that returns 0 for
every board and sentinels `second_win < 0 < first_win`, `decide` on a new tree
returns the last cell `(size - 1, size - 1)`. -/
theorem find_best_step_last_best_tot (cfg : Config) :
    (∀ (n : Node) (broad : ChessBroad) (depth_limit : Nat), 1 ≤ depth_limit →
      (∃ p, in_range cfg p ∧ broad.get p = Chess.empty) →
      ∃ (pos : Position) (n1 : Node) (broad1 : ChessBroad) (i : Nat) (child : Node),
        n.find_best_step_tot cfg broad depth_limit = some (pos, n1, broad1) ∧
        n1._edges[i]? = some (pos, child) ∧
        (∀ e ∈ n1._edges, (n._depth % 2 = 0 → e.2._score ≤ child._score) ∧
          (n._depth % 2 ≠ 0 → child._score ≤ e.2._score)) ∧
        (∀ (j : Nat) (e : Position × Node), i < j → n1._edges[j]? = some e →
          e.2._score ≠ child._score)) ∧
    ((∀ b, cfg.evaluate b = 0) → cfg.second_win < 0 → 0 < cfg.first_win → 1 ≤ cfg.size →
      ((GomokuTree.new cfg).decide_tot cfg).map Prod.fst =
        some ⟨(cfg.size : Int) - 1, (cfg.size : Int) - 1⟩) := by
  refine ⟨?_, decide_flat_last cfg⟩
  intro n broad depth_limit _ hempty
  obtain ⟨pos, n1, broad1, i, child, h1, h2, _, h4, h5⟩ :=
    find_best_step_spec cfg n broad depth_limit hempty
  refine ⟨pos, n1, broad1, i, child, h1, h2, ?_, ?_⟩
  · intro e he
    have := h4 e he
    constructor
    · intro hpar
      have hf : n.next_first = true := by simp [Node.next_first, hpar]
      simpa [signed, hf] using this
    · intro hpar
      have hf : n.next_first = false := by simp [Node.next_first, hpar]
      simpa [signed, hf] using this
  · intro j e hij hj heq
    have := h5 j e hij hj
    rw [heq] at this
    exact lt_irrefl _ this

/-- With the evaluator of the immediate-win scenario, below the first move
`p` every reply evaluates to the first-win sentinel when `p` is (2,2) and to 0
otherwise. -/
theorem win_eval_const (cfg : Config)
    (hev : ∀ b, cfg.evaluate b =
      if b ⟨2, 2⟩ = Chess.first_player then cfg.first_win else 0)
    (p q : Position)
    (hq : q ∈ empty_cells cfg.size (ChessBroad.init.emplace p Chess.first_player)) :
    cfg.evaluate ((ChessBroad.init.emplace p Chess.first_player).emplace q Chess.second_player)
      = if p = ⟨2, 2⟩ then cfg.first_win else 0 := by
  rw [hev]
  have hqe := ((mem_empty_cells _ _ _).1 hq).2
  have hqp : q ≠ p := by
    intro h
    rw [h, emplace_same] at hqe
    exact absurd hqe (by decide)
  by_cases hq2 : (⟨2, 2⟩ : Position) = q
  · have hp2 : p ≠ ⟨2, 2⟩ := fun h => hqp (hq2.symm.trans h.symm)
    rw [if_neg hp2, hq2, emplace_same]
    simp
  · rw [emplace_other _ _ _ _ hq2]
    by_cases hp2 : p = ⟨2, 2⟩
    · rw [hp2, emplace_same]; simp
    · rw [emplace_other _ _ _ _ (fun h => hp2 h.symm), if_neg hp2]
      simp [ChessBroad.init]

/-- For the total form of the calls: on a new tree (grid side at least 3, sentinels
`second_win < 0 < first_win`) with an evaluator that returns the first-win
sentinel for every board holding a first-player stone at (2,2) and 0 for every
other board, `decide` returns (2,2); after the call the root's child for (2,2)
has status `normal` and score `first_win`, and it is the children of that child
(the replies, evaluated at the horizon of depth limit 2) that have status
`leaf`. -/
theorem decide_immediate_win_tot (cfg : Config)
    (hev : ∀ b, cfg.evaluate b =
      if b ⟨2, 2⟩ = Chess.first_player then cfg.first_win else 0)
    (hsw : cfg.second_win < 0) (hfw : 0 < cfg.first_win) (hsize : 3 ≤ cfg.size) :
    ∃ (t1 : GomokuTree) (i : Nat) (child : Node),
      (GomokuTree.new cfg).decide_tot cfg = some (⟨2, 2⟩, t1) ∧
      t1._root._edges[i]? = some (⟨2, 2⟩, child) ∧
      child._status = Status.normal ∧ child._score = cfg.first_win ∧
      child._edges ≠ [] ∧ ∀ g ∈ child._edges, g.2._status = Status.leaf := by
  obtain ⟨pos, n1, b1, i, child, hf, hget, _, hall, _⟩ :=
    find_best_step_spec cfg (Node.root cfg) ChessBroad.init 2 (new_has_empty cfg (by omega))
  have hedges := decide_new_edges cfg (fun p => if p = ⟨2, 2⟩ then cfg.first_win else 0)
    (by omega) (fun p _ q hq => win_eval_const cfg hev p q hq)
    (fun p => by
      by_cases hp : p = ⟨2, 2⟩
      · simp only [if_pos hp]; omega
      · simp only [if_neg hp]; omega)
    pos n1 b1 hf
  have h22 : (⟨2, 2⟩ : Position) ∈ empty_cells cfg.size ChessBroad.init := by
    rw [init_cells_mem]
    refine ⟨by simp, ?_, by simp, ?_⟩ <;> simp only <;> omega
  have hmem := List.getElem?_mem hget
  rw [hedges] at hmem
  simp only [List.mem_map] at hmem
  obtain ⟨p, _, hp⟩ := hmem
  simp only [Prod.mk.injEq] at hp
  obtain ⟨hp1, hp2⟩ := hp
  subst hp1
  have hbest := hall (⟨2, 2⟩, _) (by
    rw [hedges]
    exact List.mem_map_of_mem _ h22)
  simp only [signed, Node.root, Node.next_first_mk, Nat.zero_mod, beq_self_eq_true, if_true,
    Node.score_mk] at hbest
  rw [← hp2] at hbest
  simp only [Node.score_mk] at hbest
  have hpos : p = ⟨2, 2⟩ := by
    by_contra hne
    rw [if_neg hne] at hbest
    omega
  subst hpos
  refine ⟨_, i, child, decide_eq_of_find_best_step cfg _ n1 b1 hf, hget, ?_, ?_, ?_, ?_⟩
  · rw [← hp2]; rfl
  · rw [← hp2]; simp
  · rw [← hp2]
    simp only [Node.edges_mk, ne_eq, List.map_eq_nil_iff]
    exact one_stone_cells_ne_nil cfg.size (by omega) _ _
  · intro g hg
    rw [← hp2] at hg
    simp only [Node.edges_mk, List.mem_map] at hg
    obtain ⟨q, hq, rfl⟩ := hg
    simp only [Node.static_evaluate, Node.status_mk]
    rw [win_eval_const cfg hev _ q hq]
    simp

theorem decide_root (cfg : Config) (t t1 : GomokuTree) (pos : Position)
    (hd : t.decide_tot cfg = some (pos, t1)) :
    ∃ cur cur1 b1, t._root.getAt t._current = some cur ∧
      cur.find_best_step_tot cfg t._broad 2 = some (pos, cur1, b1) ∧
      t1._root = t._root.setAt t._current cur1 := by
  unfold GomokuTree.decide_tot at hd
  cases hcur : t._root.getAt t._current with
  | none => rw [hcur] at hd; simp at hd
  | some cur =>
    rw [hcur] at hd
    simp only [] at hd
    cases hf : cur.find_best_step_tot cfg t._broad 2 with
    | none => rw [hf] at hd; simp at hd
    | some r =>
      obtain ⟨pos1, cur1, b1⟩ := r
      rw [hf] at hd
      simp only [Option.some.injEq, Prod.mk.injEq] at hd
      obtain ⟨rfl, rfl⟩ := hd
      exact ⟨cur, cur1, b1, rfl, hf, rfl⟩

theorem update_root (cfg : Config) (t t1 : GomokuTree) (p : Position)
    (hu : t.update cfg p = some t1) :
    ∃ cur cur1 i, t._root.getAt t._current = some cur ∧
      cur.get_child cfg p = some (cur1, i) ∧
      t1._root = t._root.setAt t._current cur1 := by
  unfold GomokuTree.update at hu
  cases hcur : t._root.getAt t._current with
  | none => rw [hcur] at hu; simp at hu
  | some cur =>
    rw [hcur] at hu
    simp only [] at hu
    cases hg : cur.get_child cfg p with
    | none => rw [hg] at hu; simp at hu
    | some r =>
      obtain ⟨cur1, i⟩ := r
      rw [hg] at hu
      simp only [Option.some.injEq] at hu
      subst hu
      exact ⟨cur, cur1, i, rfl, hg, rfl⟩

theorem get_child_expanded (cfg : Config) (n n1 : Node) (p : Position) (i : Nat)
    (hn : n._edges ≠ []) (hg : n.get_child cfg p = some (n1, i)) : n1 = n := by
  have hne : ¬ (n._edges.isEmpty = true) := fun h => hn (List.isEmpty_iff.1 h)
  simp only [Node.get_child, if_neg hne] at hg
  split at hg
  · simp only [Option.some.injEq, Prod.mk.injEq] at hg
    exact hg.1.symm
  · simp at hg

/-- For the total form of the calls: in every reachable state, a node with status
`leaf` that is not the current node keeps its status, its score and the
positions of its edges through a `decide` call and through an `update` call
with a legal move; and as long as the node lies strictly below the current
node its score is a win sentinel and its edge collection is empty.  (A call
issued while the terminal node is the current node is not covered.) -/
theorem terminal_closed_unless_current_tot (cfg : Config) (ms : List Position) (t : GomokuTree)
    (hreach : Reachable_tot cfg ms t) (q : List Nat) (L : Node)
    (hL : t._root.getAt q = some L) (hleaf : L._status = Status.leaf)
    (hq : q ≠ t._current) :
    (∀ (pos : Position) (t1 : GomokuTree), t.decide_tot cfg = some (pos, t1) →
      ∃ L1, t1._root.getAt q = some L1 ∧ L1._status = Status.leaf ∧ L1._score = L._score ∧
        L1._edges.map Prod.fst = L._edges.map Prod.fst) ∧
    (∀ (p : Position) (t1 : GomokuTree), t.legal cfg p → t.update cfg p = some t1 →
      ∃ L1, t1._root.getAt q = some L1 ∧ L1._status = Status.leaf ∧ L1._score = L._score ∧
        L1._edges.map Prod.fst = L._edges.map Prod.fst) ∧
    (∀ (r : List Nat), r ≠ [] → q = t._current ++ r →
      (L._score = cfg.first_win ∨ L._score = cfg.second_win) ∧ L._edges = []) := by
  obtain ⟨cur, hcur, _, _, hI⟩ := reachable_inv cfg ms t hreach
  have hshape : ∀ (root1 : Node), (∃ L1, root1.getAt q = some L1 ∧ SameShape L L1) →
      ∃ L1, root1.getAt q = some L1 ∧ L1._status = Status.leaf ∧ L1._score = L._score ∧
        L1._edges.map Prod.fst = L._edges.map Prod.fst := by
    rintro root1 ⟨L1, h1, h2, h3, h4⟩
    exact ⟨L1, h1, by rw [h2, hleaf], h3, h4⟩
  by_cases hpre : t._current <+: q
  · obtain ⟨r, hr⟩ := hpre
    have hrne : r ≠ [] := by
      intro h0; rw [h0, List.append_nil] at hr; exact hq hr.symm
    have hLr : Node.getAt r cur = some L := by
      rw [← (getAt_below t._current r t._root cur cur hcur).1, hr]; exact hL
    refine ⟨?_, ?_, ?_⟩
    · intro pos t1 hd
      obtain ⟨cur0, cur1, b1, hcur0, hf, hroot⟩ := decide_root cfg t t1 pos hd
      rw [hcur] at hcur0
      simp only [Option.some.injEq] at hcur0
      subst hcur0
      apply hshape
      rw [hroot, ← hr, (getAt_below t._current r t._root cur cur1 hcur).2]
      exact find_best_step_keeps_leaf cfg cur t._broad hI pos cur1 b1 hf r hrne L hLr hleaf
    · intro p t1 _ hu
      obtain ⟨cur0, cur1, i, hcur0, hg, hroot⟩ := update_root cfg t t1 p hu
      rw [hcur] at hcur0
      simp only [Option.some.injEq] at hcur0
      subst hcur0
      have hne : cur._edges ≠ [] := by
        intro h0
        exact hrne (getAt_unexpanded r cur L h0 hLr).1
      have := get_child_expanded cfg cur cur1 p i hne hg
      subst this
      apply hshape
      rw [hroot, setAt_self _ _ _ hcur]
      exact ⟨L, hL, SameShape.refl L⟩
    · intro r1 hr1 hq1
      have : r1 = r := by
        rw [← hr] at hq1
        exact (List.append_cancel_left hq1).symm
      subst this
      exact leaf_below_closed cfg cur t._broad hI r1 hr1 L hLr hleaf
  · refine ⟨?_, ?_, ?_⟩
    · intro pos t1 hd
      obtain ⟨_, cur1, _, _, _, hroot⟩ := decide_root cfg t t1 pos hd
      apply hshape
      rw [hroot]
      exact getAt_setAt_frame t._current q t._root cur1 L hpre hL
    · intro p t1 _ hu
      obtain ⟨_, cur1, _, _, _, hroot⟩ := update_root cfg t t1 p hu
      apply hshape
      rw [hroot]
      exact getAt_setAt_frame t._current q t._root cur1 L hpre hL
    · intro r _ hq1
      exact absurd ⟨r, hq1.symm⟩ hpre

/-- For the total form of the calls: for every board, every depth limit >= 1 and every evaluator whose
values all lie between `second_win` and `first_win`, `find_best_step` on an
unexpanded node returns the same position as the variant of the same code
whose `search` has no cutoff test (both return nothing when the board has no
empty cell); and it does return a position when the board has an empty
in-range cell. -/
theorem pruning_sound_tot (cfg : Config) (n : Node) (broad : ChessBroad) (depth_limit : Nat)
    (hd : 1 ≤ depth_limit) (hn : n._edges = [])
    (hev : ∀ b, cfg.second_win ≤ cfg.evaluate b ∧ cfg.evaluate b ≤ cfg.first_win) :
    (n.find_best_step_tot cfg broad depth_limit).map Prod.fst =
      (n.find_best_step_nocut_tot cfg broad depth_limit).map Prod.fst ∧
    ((∃ p, in_range cfg p ∧ broad.get p = Chess.empty) →
      (n.find_best_step_tot cfg broad depth_limit).isSome = true) := by
  obtain ⟨k, rfl⟩ : ∃ k, depth_limit = k + 1 := ⟨depth_limit - 1, by omega⟩
  constructor
  · rw [find_best_step_fst cfg n broad k hn, find_best_step_nocut_fst cfg n broad k hn]
    apply max_element_congr
    exact (top_loop cfg n._depth _ _ (visit_pair_any cfg hev n._depth k) n.get_chess _ broad
      (cells_fresh cfg n._depth broad)).2.2
  · intro hempty
    obtain ⟨pos, n1, broad1, _, _, hf, _⟩ := find_best_step_spec cfg n broad (k + 1) hempty
    rw [hf]; rfl

theorem update_board (cfg : Config) (t t1 : GomokuTree) (p : Position) (cur : Node)
    (hcur : t._root.getAt t._current = some cur) (hu : t.update cfg p = some t1) :
    t1._broad = t._broad.emplace p cur.get_chess := by
  unfold GomokuTree.update at hu
  rw [hcur] at hu
  simp only [] at hu
  cases hg : cur.get_child cfg p with
  | none => rw [hg] at hu; simp at hu
  | some r =>
    rw [hg] at hu
    simp only [Option.some.injEq] at hu
    rw [← hu]

/-- The three tree calls of `get_pos`, after the optional `update(last)`:
`decide`, then `update` with the position decided. -/
theorem decide_update_ok (cfg : Config) (ms : List Position) (t : GomokuTree)
    (hr : Reachable_tot cfg ms t) :
    (∀ (pos : Position) (t2 t3 : GomokuTree), t.decide_tot cfg = some (pos, t2) →
      t2.update cfg pos = some t3 →
      Reachable_tot cfg (ms ++ [pos]) t3 ∧ t3._broad.get pos = stone ms.length) ∧
    ((∃ p, in_range cfg p ∧ t._broad.get p = Chess.empty) →
      ∃ pos t2 t3, t.decide_tot cfg = some (pos, t2) ∧ t2.update cfg pos = some t3) := by
  have hinv := reachable_inv cfg ms t hr
  constructor
  · intro pos t2 t3 hd hu
    have hr2 : Reachable_tot cfg ms t2 := Reachable_tot.decide hr hd
    obtain ⟨_, hb, _, hmem⟩ := decide_ok cfg ms t t2 pos hinv hd
    have hleg : t2.legal cfg pos := by
      rw [← hb] at hmem
      exact (mem_empty_cells _ _ _).1 hmem
    refine ⟨Reachable_tot.update hr2 hleg hu, ?_⟩
    obtain ⟨cur, hcur, hdep, _, _⟩ := reachable_inv cfg ms t2 hr2
    rw [update_board cfg t2 t3 pos cur hcur hu]
    show (t2._broad.emplace pos cur.get_chess) pos = stone ms.length
    rw [emplace_same, get_chess_eq_stone, hdep]
  · intro hempty
    obtain ⟨cur, hcur, _, _, _⟩ := hinv
    obtain ⟨pos, n1, broad1, _, _, hf, _⟩ := find_best_step_spec cfg cur t._broad 2 hempty
    have hd : t.decide_tot cfg = some (pos, ⟨t._root.setAt t._current n1, t._current, broad1⟩) := by
      unfold GomokuTree.decide_tot
      rw [hcur]
      simp only [hf]
    have hr2 : Reachable_tot cfg ms _ := Reachable_tot.decide hr hd
    obtain ⟨_, hb, _, hmem⟩ := decide_ok cfg ms t _ pos (reachable_inv cfg ms t hr) hd
    have hleg : GomokuTree.legal cfg ⟨t._root.setAt t._current n1, t._current, broad1⟩ pos := by
      rw [← hb] at hmem
      exact (mem_empty_cells _ _ _).1 hmem
    obtain ⟨t3, hu, _⟩ := update_ok cfg ms _ pos (reachable_inv cfg ms _ hr2) hleg
    exact ⟨pos, _, t3, hd, hu⟩

theorem get_pos_eq (cfg : Config) (pl : ComputerPlayer) (current : ChessBroad) (last : Position) :
    pl.get_pos_tot cfg current last =
      ((if pl._is_first then some pl._tree else pl._tree.update cfg last).bind fun t1 =>
        (t1.decide_tot cfg).bind fun r =>
          (r.2.update cfg r.1).map fun t3 => (r.1, (⟨false, t3⟩ : ComputerPlayer))) := by
  unfold ComputerPlayer.get_pos_tot
  cases hf : pl._is_first
  · simp only [Bool.not_false, if_true, Bool.false_eq_true, if_false]
    cases hu : pl._tree.update cfg last with
    | none => rfl
    | some t1 =>
      simp only [Option.some_bind]
      cases hd : t1.decide_tot cfg with
      | none => rfl
      | some r =>
        obtain ⟨pos, t2⟩ := r
        simp only [Option.some_bind]
        cases hu2 : t2.update cfg pos <;> rfl
  · simp only [Bool.not_true, Bool.false_eq_true, if_false, if_true, Option.some_bind]
    cases hd : pl._tree.decide_tot cfg with
    | none => rfl
    | some r =>
      obtain ⟨pos, t2⟩ := r
      simp only [Option.some_bind]
      cases hu2 : t2.update cfg pos <;> rfl

theorem player_reach_inv (cfg : Config) (f : Bool) (k : Nat) (pl : ComputerPlayer)
    (h : PlayerReach_tot cfg f k pl) :
    ∃ ms, Reachable_tot cfg ms pl._tree ∧ ms.length = moves_after f k ∧
      (pl._is_first = true ↔ (f = true ∧ k = 0)) := by
  induction h with
  | new => exact ⟨[], Reachable_tot.new, rfl, by simp [ComputerPlayer.new]⟩
  | @get_pos k pl pl1 current last pos _ hleg hg ih =>
    obtain ⟨ms, hr, hlen, hfirst⟩ := ih
    rw [get_pos_eq] at hg
    cases hf : pl._is_first
    · rw [hf] at hg
      simp only [Bool.false_eq_true, if_false] at hg
      cases hu : pl._tree.update cfg last with
      | none => rw [hu] at hg; simp at hg
      | some t1 =>
        rw [hu] at hg
        simp only [Option.some_bind] at hg
        have hr1 : Reachable_tot cfg (ms ++ [last]) t1 := Reachable_tot.update hr (hleg hf) hu
        cases hd : t1.decide_tot cfg with
        | none => rw [hd] at hg; simp at hg
        | some r =>
          obtain ⟨p, t2⟩ := r
          rw [hd] at hg
          simp only [Option.some_bind, Option.map_eq_some'] at hg
          obtain ⟨t3, hu3, heq⟩ := hg
          simp only [Prod.mk.injEq] at heq
          obtain ⟨rfl, rfl⟩ := heq
          obtain ⟨hr3, _⟩ := (decide_update_ok cfg _ t1 hr1).1 p t2 t3 hd hu3
          refine ⟨_, hr3, ?_, by simp⟩
          have hnot : ¬ (f = true ∧ k = 0) := by
            intro hc; rw [hfirst.2 hc] at hf; exact Bool.noConfusion hf
          simp only [List.length_append, List.length_singleton, hlen, moves_after]
          cases f <;> by_cases hk : k = 0 <;> simp_all <;> omega
    · rw [hf] at hg
      simp only [if_true, Option.some_bind] at hg
      obtain ⟨hft, hk0⟩ := hfirst.1 hf
      cases hd : pl._tree.decide_tot cfg with
      | none => rw [hd] at hg; simp at hg
      | some r =>
        obtain ⟨p, t2⟩ := r
        rw [hd] at hg
        simp only [Option.some_bind, Option.map_eq_some'] at hg
        obtain ⟨t3, hu3, heq⟩ := hg
        simp only [Prod.mk.injEq] at heq
        obtain ⟨rfl, rfl⟩ := heq
        obtain ⟨hr3, _⟩ := (decide_update_ok cfg _ _ hr).1 p t2 t3 hd hu3
        refine ⟨_, hr3, ?_, by simp⟩
        simp [hlen, moves_after, hk0, hft]

theorem stone_after (f : Bool) (k : Nat) (first_call : Bool)
    (hfirst : first_call = true ↔ (f = true ∧ k = 0)) :
    stone (moves_after f k + (if first_call then 0 else 1)) =
      if f then Chess.first_player else Chess.second_player := by
  unfold stone moves_after
  cases f <;> cases first_call <;> by_cases hk : k = 0 <;> simp_all <;> omega

/-- For the total form of the calls: `get_pos` feeds the opponent's move `last` to the tree with
`update(last)` on every call except the first call of a player constructed
with `is_first = true` (the flag `_is_first` is still set exactly then), then
takes `p = decide()`, commits it with `update(p)` and returns `p`.  After
`k >= 1` calls with legal opponent moves the current node of the tree has
depth `2k - 1` for a first mover and `2k` for a second mover; a call returns
when a cell is left empty for the engine, and the cell at the returned position
then holds the engine's own stone. -/
theorem get_pos_protocol_tot (cfg : Config) (f : Bool) (k : Nat) (pl : ComputerPlayer)
    (h : PlayerReach_tot cfg f k pl) :
    (pl._is_first = true ↔ (f = true ∧ k = 0)) ∧
    (1 ≤ k → ∃ cur, pl._tree._root.getAt pl._tree._current = some cur ∧
      cur._depth = if f then 2 * k - 1 else 2 * k) ∧
    (∀ (current : ChessBroad) (last : Position),
      (pl._is_first = false → pl._tree.legal cfg last) →
      pl.get_pos_tot cfg current last =
        ((if pl._is_first then some pl._tree else pl._tree.update cfg last).bind fun t1 =>
          (t1.decide_tot cfg).bind fun r =>
            (r.2.update cfg r.1).map fun t3 => (r.1, (⟨false, t3⟩ : ComputerPlayer))) ∧
      ((∃ q, in_range cfg q ∧ pl._tree._broad.get q = Chess.empty ∧
          (pl._is_first = false → q ≠ last)) →
        ∃ pos pl1, pl.get_pos_tot cfg current last = some (pos, pl1)) ∧
      (∀ (pos : Position) (pl1 : ComputerPlayer),
        pl.get_pos_tot cfg current last = some (pos, pl1) →
        pl1._tree._broad.get pos = if f then Chess.first_player else Chess.second_player)) := by
  obtain ⟨ms, hr, hlen, hfirst⟩ := player_reach_inv cfg f k pl h
  refine ⟨hfirst, ?_, ?_⟩
  · intro hk
    obtain ⟨cur, hcur, hdep, _, _⟩ := reachable_inv cfg ms _ hr
    refine ⟨cur, hcur, ?_⟩
    rw [hdep, hlen]
    unfold moves_after
    rw [if_neg (by omega)]
  · intro current last hleg
    refine ⟨get_pos_eq cfg pl current last, ?_, ?_⟩
    · rintro ⟨q, hq, hqe, hql⟩
      rw [get_pos_eq]
      cases hf : pl._is_first
      · simp only [Bool.false_eq_true, if_false]
        obtain ⟨t1, hu, _⟩ := update_ok cfg ms _ last (reachable_inv cfg ms _ hr) (hleg hf)
        have hr1 : Reachable_tot cfg (ms ++ [last]) t1 := Reachable_tot.update hr (hleg hf) hu
        obtain ⟨cur, hcur, _, _, _⟩ := reachable_inv cfg ms _ hr
        have hb := update_board cfg _ t1 last cur hcur hu
        have hempty : ∃ p, in_range cfg p ∧ t1._broad.get p = Chess.empty := by
          refine ⟨q, hq, ?_⟩
          rw [hb]
          show (pl._tree._broad.emplace last cur.get_chess) q = Chess.empty
          rw [emplace_other _ _ _ _ (hql hf)]
          exact hqe
        obtain ⟨pos, t2, t3, hd, hu3⟩ := (decide_update_ok cfg _ t1 hr1).2 hempty
        exact ⟨pos, ⟨false, t3⟩, by simp [hu, hd, hu3]⟩
      · simp only [if_true]
        obtain ⟨pos, t2, t3, hd, hu3⟩ := (decide_update_ok cfg _ _ hr).2 ⟨q, hq, hqe⟩
        exact ⟨pos, ⟨false, t3⟩, by simp [hd, hu3]⟩
    · intro pos pl1 hg
      rw [get_pos_eq] at hg
      have hstone := stone_after f k pl._is_first hfirst
      cases hf : pl._is_first
      · rw [hf] at hg hstone
        simp only [Bool.false_eq_true, if_false] at hg hstone
        cases hu : pl._tree.update cfg last with
        | none => rw [hu] at hg; simp at hg
        | some t1 =>
          rw [hu] at hg
          simp only [Option.some_bind] at hg
          have hr1 : Reachable_tot cfg (ms ++ [last]) t1 := Reachable_tot.update hr (hleg hf) hu
          cases hd : t1.decide_tot cfg with
          | none => rw [hd] at hg; simp at hg
          | some r =>
            obtain ⟨p, t2⟩ := r
            rw [hd] at hg
            simp only [Option.some_bind, Option.map_eq_some'] at hg
            obtain ⟨t3, hu3, heq⟩ := hg
            simp only [Prod.mk.injEq] at heq
            obtain ⟨rfl, rfl⟩ := heq
            obtain ⟨_, hst⟩ := (decide_update_ok cfg _ t1 hr1).1 p t2 t3 hd hu3
            rw [hst, ← hstone]
            simp [hlen]
      · rw [hf] at hg hstone
        simp only [if_true, Option.some_bind] at hg hstone
        cases hd : pl._tree.decide_tot cfg with
        | none => rw [hd] at hg; simp at hg
        | some r =>
          obtain ⟨p, t2⟩ := r
          rw [hd] at hg
          simp only [Option.some_bind, Option.map_eq_some'] at hg
          obtain ⟨t3, hu3, heq⟩ := hg
          simp only [Prod.mk.injEq] at heq
          obtain ⟨rfl, rfl⟩ := heq
          obtain ⟨_, hst⟩ := (decide_update_ok cfg _ _ hr).1 p t2 t3 hd hu3
          rw [hst, ← hstone]
          simp [hlen]

/-- Whatever `except_pos` is, `cut_subtree(except_pos)` leaves the node with
no edge at all: the loop skips the named edge, and `_edges.clear()` then
destroys every edge, the named one included. -/
theorem cut_subtree_except_edges (n : Node) (except_pos : Position) :
    n.cut_subtree_except except_pos = Node.mk n._depth n._status n._score [] := rfl

set_option maxRecDepth 100000 in
/-- C12 on the code: the expanded node `flat_root` has nine edges, the edge
of index 4 has position (1,1) and its child has 8 edges of its own; after
`cut_subtree((1,1))` the node has no edge, so the named branch is gone with the
others. -/
theorem cut_subtree_except_destroys_spared :
    flat_root._edges.length = 9 ∧
    (flat_root._edges[4]?).map (fun e => (e.1, e.2._edges.length)) = some (⟨1, 1⟩, 8) ∧
    (flat_root.cut_subtree_except ⟨1, 1⟩)._edges.length = 0 ∧
    ((flat_root.cut_subtree_except ⟨1, 1⟩)._edges.map Prod.fst).contains ⟨1, 1⟩ = false := by
  decide

theorem lower_bound_singleton (pos : Position) (m : Node) : lower_bound [(pos, m)] pos = 0 := by
  simp [lower_bound, List.takeWhile_cons, pos_less_irrefl]

theorem get_child_twice (cfg : Config) (n n1 : Node) (pos : Position) (i : Nat)
    (h : n.get_child cfg pos = some (n1, i)) : n1.get_child cfg pos = some (n1, i) := by
  by_cases he : n._edges.isEmpty = true
  · have he0 := List.isEmpty_iff.1 he
    simp only [Node.get_child, if_pos he, he0, List.nil_append, List.length_nil,
      Option.some.injEq, Prod.mk.injEq] at h
    obtain ⟨rfl, rfl⟩ := h
    simp [Node.get_child, lower_bound_singleton]
  · have hne : n._edges ≠ [] := fun h0 => he (List.isEmpty_iff.2 h0)
    have := get_child_expanded cfg n n1 pos i hne h
    subst this
    exact h

theorem get_child_none_iff (cfg : Config) (n : Node) (pos : Position) :
    n.get_child cfg pos = none ↔ (n._edges ≠ [] ∧ ∀ e ∈ n._edges, pos_less e.1 pos = true) := by
  unfold Node.get_child lower_bound
  by_cases he : n._edges.isEmpty = true
  · rw [if_pos he]
    simp [List.isEmpty_iff.1 he]
  · rw [if_neg he]
    have hne : n._edges ≠ [] := fun h => he (List.isEmpty_iff.2 h)
    have hpre : List.takeWhile (fun e : Position × Node => pos_less e.1 pos) n._edges <+:
        n._edges := List.takeWhile_prefix _
    have hle := hpre.length_le
    constructor
    · intro h
      refine ⟨hne, ?_⟩
      by_cases hlt : (List.takeWhile (fun e => pos_less e.1 pos) n._edges).length < n._edges.length
      · simp [hlt] at h
      · have heq := hpre.eq_of_length (by omega)
        exact List.takeWhile_eq_self_iff.1 heq
    · rintro ⟨_, hall⟩
      have heq : List.takeWhile (fun e => pos_less e.1 pos) n._edges = n._edges :=
        List.takeWhile_eq_self_iff.2 hall
      simp [heq]

/-- C13, as the code has it: two consecutive `get_child(pos)` calls return the
same child (the same edge index of the same node) and the second call leaves
the node, hence its edge collection, unchanged, whenever the first call
returns; the first call returns on an unexpanded node, and on a node expanded
on a board where `pos` is an empty in-range cell, where it returns the child
bound to `pos`.  The call has no result (it dereferences `end()`) exactly on a
node that has edges, all of them with a position smaller than `pos`. -/
theorem get_child_idempotent (cfg : Config) (n : Node) (pos : Position) :
    (∀ (n1 : Node) (i : Nat), n.get_child cfg pos = some (n1, i) →
      n1.get_child cfg pos = some (n1, i)) ∧
    (n._edges = [] → ∃ n1, n.get_child cfg pos = some (n1, 0) ∧
      n1._edges = [(pos, Node.new cfg n._depth)] ∧ n1.get_child cfg pos = some (n1, 0)) ∧
    (∀ (b : ChessBroad), n._edges ≠ [] → n._edges.map Prod.fst = empty_cells cfg.size b →
      in_range cfg pos → b.get pos = Chess.empty →
      ∃ i e, n.get_child cfg pos = some (n, i) ∧ n._edges[i]? = some e ∧ e.1 = pos) ∧
    (n.get_child cfg pos = none ↔
      (n._edges ≠ [] ∧ ∀ e ∈ n._edges, pos_less e.1 pos = true)) := by
  refine ⟨fun n1 i h => get_child_twice cfg n n1 pos i h, ?_, ?_, get_child_none_iff cfg n pos⟩
  · intro he
    have h1 : n.get_child cfg pos =
        some (Node.mk n._depth n._status n._score [(pos, Node.new cfg n._depth)], 0) := by
      simp [Node.get_child, he]
    exact ⟨_, h1, rfl, get_child_twice cfg n _ pos 0 h1⟩
  · intro b hne hmap hr hpe
    have hne1 : ¬ (n._edges.isEmpty = true) := fun h => hne (List.isEmpty_iff.1 h)
    have hp : pos ∈ n._edges.map Prod.fst := by
      rw [hmap]; exact (mem_empty_cells _ _ _).2 ⟨hr, hpe⟩
    have hs : (n._edges.map Prod.fst).Pairwise (fun p q => pos_less p q = true) := by
      rw [hmap]; exact empty_cells_sorted _ _
    obtain ⟨e, hget, hep⟩ := lower_bound_finds n._edges pos hs hp
    have hlt : lower_bound n._edges pos < n._edges.length := (List.getElem?_eq_some_iff.1 hget).1
    have h1 : n.get_child cfg pos = some (n, lower_bound n._edges pos) := by
      simp [Node.get_child, hne1, hlt]
    exact ⟨_, e, h1, hget, hep⟩

/-- Instance of C13: the unexpanded root on the 3 x 3 grid and the cell (1,1). -/
theorem get_child_idempotent_witness :
    ∃ n1, (Node.root cfg_flat).get_child cfg_flat ⟨1, 1⟩ = some (n1, 0) ∧
      n1._edges = [(⟨1, 1⟩, Node.new cfg_flat (Node.root cfg_flat)._depth)] ∧
      n1.get_child cfg_flat ⟨1, 1⟩ = some (n1, 0) :=
  (get_child_idempotent cfg_flat (Node.root cfg_flat) ⟨1, 1⟩).2.1 rfl

/-- C13 fails on the code: on the 3 x 3 grid, the root after `get_child((0,0))`
holds the single edge for (0,0); (1,1) is an in-range cell, empty on the board
with the one stone at (0,0), and `get_child((1,1))` on that node has no result:
`lower_bound` returns `end()`, which is dereferenced. -/
theorem get_child_end_counterexample :
    ((Node.root cfg_flat).get_child cfg_flat ⟨0, 0⟩).map (fun r => r.1._edges.map Prod.fst) =
      some [⟨0, 0⟩] ∧
    (0 ≤ (1 : Int) ∧ (1 : Int) < cfg_flat.size) ∧
    (ChessBroad.init.emplace ⟨0, 0⟩ Chess.first_player).get ⟨1, 1⟩ = Chess.empty ∧
    (((Node.root cfg_flat).get_child cfg_flat ⟨0, 0⟩).bind fun r =>
      r.1.get_child cfg_flat ⟨1, 1⟩).isSome = false := by
  decide

theorem sorted_of_same_shape (n m : Node) (h : SameShape n m) (hn : n.Sorted) : m.Sorted := by
  unfold Node.Sorted at *
  rw [h.2.2]; exact hn

/-- Overwriting the node at path `c`: a node of the new tree whose path does
not pass through `c` has the shape of the node of the old tree at that path. -/
theorem getAt_setAt_frame_rev (c : List Nat) : ∀ (q : List Nat) (root new L1 : Node),
    ¬ c <+: q → Node.getAt q (Node.setAt c root new) = some L1 →
    ∃ L, Node.getAt q root = some L ∧ SameShape L L1 := by
  induction c with
  | nil => intro q root new L1 h _; exact absurd (List.nil_prefix) h
  | cons i cs ih =>
    intro q root new L1 hpre hL
    rw [setAt_cons] at hL
    cases he : root._edges[i]? with
    | none => rw [he] at hL; exact ⟨L1, hL, SameShape.refl L1⟩
    | some e =>
      rw [he] at hL
      simp only [] at hL
      cases q with
      | nil =>
        simp only [getAt_nil, Option.some.injEq] at hL
        subst hL
        refine ⟨root, rfl, rfl, rfl, ?_⟩
        simp only [Node.edges_mk]
        exact map_fst_set _ _ _ _ he
      | cons j qs =>
        rw [getAt_cons] at hL ⊢
        simp only [Node.edges_mk] at hL
        by_cases hij : i = j
        · subst hij
          rw [List.getElem?_set_self (List.getElem?_eq_some_iff.1 he).1] at hL
          simp only [Option.some_bind] at hL
          rw [he]
          simp only [Option.some_bind]
          have hpre2 : ¬ cs <+: qs := by
            intro h
            apply hpre
            obtain ⟨r, hr⟩ := h
            exact ⟨r, by simp [← hr]⟩
          exact ih qs e.2 new L1 hpre2 hL
        · rw [List.getElem?_set_ne hij] at hL
          exact ⟨L1, hL, SameShape.refl L1⟩

/-- Every node of a subtree under the invariant has its edges in ascending
order. -/
theorem inv_sorted (cfg : Config) (h : Nat) : ∀ (b : ChessBroad) (n : Node),
    Node.Inv cfg h b n → ∀ (r : List Nat) (m : Node), Node.getAt r n = some m → m.Sorted := by
  induction h with
  | zero =>
    intro b n hn r m hm
    obtain ⟨_, rfl⟩ := getAt_unexpanded r n m ((Inv_zero cfg b n).1 hn) hm
    unfold Node.Sorted
    rw [(Inv_zero cfg b m).1 hn]
    exact List.Pairwise.nil
  | succ h ih =>
    intro b n hn r m hm
    rcases (Inv_succ cfg h b n).1 hn with h0 | ⟨hmap, hch⟩
    · obtain ⟨_, rfl⟩ := getAt_unexpanded r n m h0 hm
      unfold Node.Sorted
      rw [h0]
      exact List.Pairwise.nil
    · cases r with
      | nil =>
        simp only [getAt_nil, Option.some.injEq] at hm
        subst hm
        unfold Node.Sorted
        rw [hmap]
        exact empty_cells_sorted _ _
      | cons j rs =>
        rw [getAt_cons] at hm
        cases he : n._edges[j]? with
        | none => rw [he] at hm; simp at hm
        | some e =>
          rw [he] at hm
          simp only [Option.some_bind] at hm
          exact ih _ e.2 (hch e (List.getElem?_mem he)).2.2 rs m hm

/-- In every reachable state every node of the tree has its edges in
ascending order of position. -/
theorem reachable_sorted (cfg : Config) (ms : List Position) (t : GomokuTree)
    (hr : Reachable_tot cfg ms t) :
    ∀ (q : List Nat) (m : Node), t._root.getAt q = some m → m.Sorted := by
  induction hr with
  | new =>
    intro q m hm
    obtain ⟨_, rfl⟩ := getAt_unexpanded q (Node.root cfg) m rfl hm
    exact List.Pairwise.nil
  | @update ms t t1 p hr0 hleg hu ih =>
    intro q m hm
    obtain ⟨cur, cur1, i, hcur, hg, hroot⟩ := update_root cfg t t1 p hu
    rw [hroot] at hm
    by_cases hpre : t._current <+: q
    · obtain ⟨r, rfl⟩ := hpre
      rw [(getAt_below t._current r t._root cur cur1 hcur).2] at hm
      by_cases he : cur._edges = []
      · have hc1 : cur1 = Node.mk cur._depth cur._status cur._score
            [(p, Node.new cfg cur._depth)] := by
          simp only [Node.get_child, he, List.isEmpty_nil, if_true, List.nil_append,
            List.length_nil, Option.some.injEq, Prod.mk.injEq] at hg
          exact hg.1.symm
        subst hc1
        cases r with
        | nil =>
          simp only [getAt_nil, Option.some.injEq] at hm
          subst hm
          simp [Node.Sorted]
        | cons j rs =>
          rw [getAt_cons] at hm
          simp only [Node.edges_mk] at hm
          cases j with
          | zero =>
            simp only [List.getElem?_cons_zero, Option.some_bind] at hm
            obtain ⟨_, rfl⟩ := getAt_unexpanded rs (Node.new cfg cur._depth) m rfl hm
            exact List.Pairwise.nil
          | succ j => simp at hm
      · have := get_child_expanded cfg cur cur1 p i he hg
        subst this
        rw [← (getAt_below t._current r t._root cur1 cur1 hcur).1] at hm
        exact ih _ m hm
    · obtain ⟨L, hL, hs⟩ := getAt_setAt_frame_rev t._current q t._root cur1 m hpre hm
      exact sorted_of_same_shape L m hs (ih q L hL)
  | @decide ms t t1 p hr0 hd ih =>
    intro q m hm
    obtain ⟨cur, cur1, b1, hcur, hf, hroot⟩ := decide_root cfg t t1 p hd
    rw [hroot] at hm
    by_cases hpre : t._current <+: q
    · obtain ⟨r, rfl⟩ := hpre
      rw [(getAt_below t._current r t._root cur cur1 hcur).2] at hm
      obtain ⟨cur0, hcur0, _, _, hI⟩ := reachable_inv cfg ms t hr0
      rw [hcur] at hcur0
      simp only [Option.some.injEq] at hcur0
      subst hcur0
      obtain ⟨_, hI1, _, _⟩ := find_best_step_ok cfg 1 cur t._broad hI p cur1 b1 hf
      exact inv_sorted cfg 2 _ cur1 hI1 r m hm
    · obtain ⟨L, hL, hs⟩ := getAt_setAt_frame_rev t._current q t._root cur1 m hpre hm
      exact sorted_of_same_shape L m hs (ih q L hL)

theorem pos_less_iff (p q : Position) :
    pos_less p q = true ↔ (p.row < q.row ∨ (p.row = q.row ∧ p.column < q.column)) := by
  simp [pos_less]

/-- For the total form of the calls: on an unexpanded node of depth `d`, `find_childs` leaves status
`normal` (depth and score as they were) and an edge list whose positions are
exactly the empty in-range cells of the board, each once, in strictly
ascending (row, then column) order; every new child is a new node of depth
`d + 1` with no edges, owned by this node's edge (the owner is the parent the
constructor is given; the board is an input only).  Consequently, in every
reachable state every node of the tree has its edge list strictly ascending by
position. -/
theorem find_childs_post_tot (cfg : Config) :
    (∀ (n : Node) (b : ChessBroad), n._edges = [] →
      (n.find_childs_tot cfg b)._status = Status.normal ∧
      (n.find_childs_tot cfg b)._depth = n._depth ∧
      (n.find_childs_tot cfg b)._score = n._score ∧
      (∀ p, p ∈ (n.find_childs_tot cfg b)._edges.map Prod.fst ↔
        (in_range cfg p ∧ b.get p = Chess.empty)) ∧
      ((n.find_childs_tot cfg b)._edges.map Prod.fst).Nodup ∧
      ((n.find_childs_tot cfg b)._edges.map Prod.fst).Pairwise
        (fun p q => p.row < q.row ∨ (p.row = q.row ∧ p.column < q.column)) ∧
      (∀ e ∈ (n.find_childs_tot cfg b)._edges,
        e.2 = Node.new cfg n._depth ∧ e.2._depth = n._depth + 1 ∧ e.2._edges = [])) ∧
    (∀ (ms : List Position) (t : GomokuTree), Reachable_tot cfg ms t →
      ∀ (q : List Nat) (m : Node), t._root.getAt q = some m →
        (m._edges.map Prod.fst).Pairwise
          (fun p q => p.row < q.row ∨ (p.row = q.row ∧ p.column < q.column))) := by
  constructor
  · intro n b he
    have hmap : (n.find_childs_tot cfg b)._edges.map Prod.fst = empty_cells cfg.size b := by
      simp [Node.find_childs_tot, he, Function.comp_def]
    have hsorted := empty_cells_sorted cfg.size b
    refine ⟨rfl, rfl, rfl, ?_, ?_, ?_, ?_⟩
    · intro p
      rw [hmap]
      exact mem_empty_cells _ _ _
    · rw [hmap]
      refine hsorted.imp ?_
      intro p q hpq heq
      rw [heq, pos_less_irrefl] at hpq
      exact Bool.false_ne_true hpq
    · rw [hmap]
      exact hsorted.imp fun h => (pos_less_iff _ _).1 h
    · intro e hmem
      simp only [Node.find_childs_tot, he, Node.edges_mk, List.nil_append, List.mem_map] at hmem
      obtain ⟨p, _, rfl⟩ := hmem
      exact ⟨rfl, rfl, rfl⟩
  · intro ms t hr q m hm
    exact (reachable_sorted cfg ms t hr q m hm).imp fun h => (pos_less_iff _ _).1 h

/-- C18, as the code has it: `get_child(pos)`, reached through
`update(pos)`, does not expand an unexpanded node: it appends the single edge
for `pos` with a new child and makes that child the current node; after the
call the edge collection of the node holds that one edge only. -/
theorem update_unexpanded_single_edge (cfg : Config) (t : GomokuTree) (cur : Node)
    (pos : Position) (hcur : t._root.getAt t._current = some cur) (he : cur._edges = []) :
    ∃ t1, t.update cfg pos = some t1 ∧ t1._current = t._current ++ [0] ∧
      t1._root.getAt t._current =
        some (Node.mk cur._depth cur._status cur._score [(pos, Node.new cfg cur._depth)]) ∧
      t1._root.getAt t1._current = some (Node.new cfg cur._depth) := by
  have hu : t.update cfg pos = some ⟨t._root.setAt t._current
      (Node.mk cur._depth cur._status cur._score [(pos, Node.new cfg cur._depth)]),
      t._current ++ [0], t._broad.emplace pos cur.get_chess⟩ := by
    unfold GomokuTree.update
    rw [hcur]
    simp [Node.get_child, he]
  refine ⟨_, hu, rfl, getAt_setAt _ _ _ _ hcur, ?_⟩
  show Node.getAt (t._current ++ [0]) _ = _
  rw [getAt_append, getAt_setAt _ _ _ _ hcur]
  simp [getAt_cons, getAt_nil]

/-- Instance of C18's amended statement: `update((1,1))` on a new tree of the
3 x 3 grid. -/
theorem update_unexpanded_single_edge_witness :
    ∃ t1, (GomokuTree.new cfg_flat).update cfg_flat ⟨1, 1⟩ = some t1 ∧
      t1._current = (GomokuTree.new cfg_flat)._current ++ [0] ∧
      t1._root.getAt (GomokuTree.new cfg_flat)._current =
        some (Node.mk (Node.root cfg_flat)._depth (Node.root cfg_flat)._status
          (Node.root cfg_flat)._score [(⟨1, 1⟩, Node.new cfg_flat (Node.root cfg_flat)._depth)]) ∧
      t1._root.getAt t1._current = some (Node.new cfg_flat (Node.root cfg_flat)._depth) :=
  update_unexpanded_single_edge cfg_flat (GomokuTree.new cfg_flat) (Node.root cfg_flat) ⟨1, 1⟩
    rfl rfl

/-- C18 fails on the code: on the empty 3 x 3 board (nine empty cells),
`update((1,1))` on a new tree leaves the root, which was unexpanded, with the
single edge for (1,1). -/
theorem lazy_expansion_counterexample :
    (empty_cells cfg_flat.size ChessBroad.init).length = 9 ∧
    (((GomokuTree.new cfg_flat).update cfg_flat ⟨1, 1⟩).map
      fun t => t._root._edges.map Prod.fst) = some [⟨1, 1⟩] := by
  decide

/-! ### The recorded search computes what the search computes -/

theorem visit_child_tr_fst (cfg : Config) (depth_limit : Nat)
    (rec_tr : List Nat → Int → Node → ChessBroad → (Node × ChessBroad) × List Event)
    (recurse : Int → Node → ChessBroad → Node × ChessBroad)
    (h : ∀ path s c b, (rec_tr path s c b).1 = recurse s c b)
    (path : List Nat) (s : Int) (c : Node) (b : ChessBroad) :
    (visit_child_tr_tot cfg depth_limit rec_tr path s c b).1 = visit_child_tot cfg depth_limit recurse s c b := by
  unfold visit_child_tr_tot visit_child_tot
  split
  · rfl
  · split
    · exact h path s c b
    · rfl

theorem search_loop_tr_fst
    (v_tr : List Nat → Int → Node → ChessBroad → (Node × ChessBroad) × List Event)
    (v : Int → Node → ChessBroad → Node × ChessBroad)
    (h : ∀ path s c b, (v_tr path s c b).1 = v s c b)
    (first : Bool) (chess : Chess) (p : Int) (path : List Nat) (es : List (Position × Node)) :
    ∀ (i : Nat) (s : Int) (b : ChessBroad),
      (search_loop_tr_tot v_tr first chess p path i es s b).1 = search_loop_tot v first chess p es s b := by
  induction es with
  | nil => intro i s b; rfl
  | cons e es ih =>
    intro i s b
    simp only [search_loop_tr_tot, search_loop_tot, h]
    split
    · rfl
    · simp only [ih]

theorem find_best_step_loop_tr_fst
    (v_tr : List Nat → Int → Node → ChessBroad → (Node × ChessBroad) × List Event)
    (v : Int → Node → ChessBroad → Node × ChessBroad)
    (h : ∀ path s c b, (v_tr path s c b).1 = v s c b)
    (chess : Chess) (s : Int) (path : List Nat) (es : List (Position × Node)) :
    ∀ (i : Nat) (b : ChessBroad),
      (find_best_step_loop_tr_tot v_tr chess s path i es b).1 = find_best_step_loop_tot v chess s es b := by
  induction es with
  | nil => intro i b; rfl
  | cons e es ih =>
    intro i b
    simp only [find_best_step_loop_tr_tot, find_best_step_loop_tot, h, ih]

theorem search_tr_fst (cfg : Config) (k : Nat) :
    ∀ (path : List Nat) (p : Int) (n : Node) (b : ChessBroad),
      (Node.search_tr_tot cfg k path p n b).1 = Node.search_tot cfg k p n b := by
  induction k with
  | zero => intro path p n b; rfl
  | succ k ih =>
    intro path p n b
    dsimp only [Node.search_tr_tot, Node.search_tot]
    rw [search_loop_tr_fst _ (visit_child_tot cfg (k + 1) (Node.search_tot cfg k))
      (visit_child_tr_fst cfg (k + 1) _ _ ih)]

theorem find_best_step_tr_fst (cfg : Config) (n : Node) (b : ChessBroad) (depth_limit : Nat) :
    (n.find_best_step_tr_tot cfg b depth_limit).1 = n.find_best_step_tot cfg b depth_limit := by
  dsimp only [Node.find_best_step_tr_tot, Node.find_best_step_tot]
  rw [find_best_step_loop_tr_fst _ (visit_child_tot cfg depth_limit (Node.search_tot cfg (depth_limit - 1)))
    (visit_child_tr_fst cfg depth_limit _ _ (search_tr_fst cfg (depth_limit - 1)))]

/-! ### Where the events of a recorded call happen -/

theorem ParentInit_nil (pre : List Event) : ParentInit pre [] := by
  intro i path p h
  simp at h

theorem ParentInit_append (pre T1 T2 : List Event) (h1 : ParentInit pre T1)
    (h2 : ParentInit (pre ++ T1) T2) : ParentInit pre (T1 ++ T2) := by
  intro i path p h
  by_cases hi : i < T1.length
  · rw [List.getElem?_append_left hi] at h
    obtain ⟨hp, s, hs⟩ := h1 i path p h
    refine ⟨hp, s, ?_⟩
    rw [List.take_append_of_le_length (Nat.le_of_lt hi)]
    exact hs
  · have hi1 : T1.length ≤ i := Nat.le_of_not_lt hi
    rw [List.getElem?_append_right hi1] at h
    obtain ⟨hp, s, hs⟩ := h2 (i - T1.length) path p h
    refine ⟨hp, s, ?_⟩
    rw [List.take_append_eq_append_take, List.take_of_length_le hi1, ← List.append_assoc]
    exact hs

theorem ParentInit_single_init (pre : List Event) (q : List Nat) (s : Int) :
    ParentInit pre [Event.init q s] := by
  intro i path p h
  cases i with
  | zero => simp at h
  | succ i => simp at h

theorem ParentInit_single_evaluate (pre : List Event) (q : List Nat) (b : ChessBroad) :
    ParentInit pre [Event.evaluate q b] := by
  intro i path p h
  cases i with
  | zero => simp at h
  | succ i => simp at h

theorem ParentInit_single_search (pre : List Event) (q : List Nat) (j : Nat) (p0 s : Int)
    (hs : Event.init q s ∈ pre) : ParentInit pre [Event.search (q ++ [j]) p0] := by
  intro i path p h
  cases i with
  | zero =>
    simp only [List.getElem?_cons_zero, Option.some.injEq, Event.search.injEq] at h
    obtain ⟨rfl, _⟩ := h
    refine ⟨by simp, s, ?_⟩
    simpa using hs
  | succ i => simp at h

theorem visit_child_tr_pi (cfg : Config) (depth_limit : Nat)
    (recurse : List Nat → Int → Node → ChessBroad → (Node × ChessBroad) × List Event)
    (hrec : ∀ q p c b pre, ParentInit pre (recurse q p c b).2)
    (path : List Nat) (i : Nat) (p : Int) (child : Node) (b : ChessBroad) (pre : List Event)
    (s : Int) (hs : Event.init path s ∈ pre) :
    ParentInit pre (visit_child_tr_tot cfg depth_limit recurse (path ++ [i]) p child b).2 := by
  unfold visit_child_tr_tot
  split
  · exact ParentInit_single_evaluate _ _ _
  · split
    · exact ParentInit_append pre [Event.search (path ++ [i]) p] _
        (ParentInit_single_search pre path i p s hs) (hrec _ _ _ _ _)
    · exact ParentInit_nil _

theorem search_loop_tr_pi
    (visit : List Nat → Int → Node → ChessBroad → (Node × ChessBroad) × List Event)
    (first : Bool) (chess : Chess) (parent_score : Int) (path : List Nat)
    (hv : ∀ i p c b pre s, Event.init path s ∈ pre → ParentInit pre (visit (path ++ [i]) p c b).2)
    (es : List (Position × Node)) :
    ∀ (i : Nat) (score : Int) (broad : ChessBroad) (pre : List Event) (s : Int),
      Event.init path s ∈ pre →
      ParentInit pre (search_loop_tr_tot visit first chess parent_score path i es score broad).2 := by
  induction es with
  | nil =>
    intro i score broad pre s _
    exact ParentInit_nil _
  | cons e es ih =>
    intro i score broad pre s hs
    unfold search_loop_tr_tot
    simp only []
    split
    · exact hv _ _ _ _ _ s hs
    · exact ParentInit_append _ _ _ (hv _ _ _ _ _ s hs)
        (ih _ _ _ _ s (List.mem_append_left _ hs))

theorem search_tr_pi (cfg : Config) (k : Nat) :
    ∀ (path : List Nat) (p : Int) (n : Node) (b : ChessBroad) (pre : List Event),
      ParentInit pre (Node.search_tr_tot cfg k path p n b).2 := by
  induction k with
  | zero =>
    intro path p n b pre
    exact ParentInit_nil _
  | succ k ih =>
    intro path p n b pre
    unfold Node.search_tr_tot
    simp only []
    exact ParentInit_append pre [Event.init path _] _ (ParentInit_single_init _ _ _)
      (search_loop_tr_pi _ _ _ _ path
        (fun i p c b pre s hs => visit_child_tr_pi cfg (k + 1) _ ih path i p c b pre s hs)
        _ _ _ _ _ _ (List.mem_append_right _ (List.mem_singleton.2 rfl)))

theorem find_best_step_loop_tr_pi
    (visit : List Nat → Int → Node → ChessBroad → (Node × ChessBroad) × List Event)
    (chess : Chess) (score : Int) (path : List Nat)
    (hv : ∀ i p c b pre s, Event.init path s ∈ pre → ParentInit pre (visit (path ++ [i]) p c b).2)
    (es : List (Position × Node)) :
    ∀ (i : Nat) (broad : ChessBroad) (pre : List Event) (s : Int),
      Event.init path s ∈ pre →
      ParentInit pre (find_best_step_loop_tr_tot visit chess score path i es broad).2 := by
  induction es with
  | nil =>
    intro i broad pre s _
    exact ParentInit_nil _
  | cons e es ih =>
    intro i broad pre s hs
    unfold find_best_step_loop_tr_tot
    simp only []
    exact ParentInit_append _ _ _ (hv _ _ _ _ _ s hs)
      (ih _ _ _ s (List.mem_append_left _ hs))

theorem find_best_step_tr_pi (cfg : Config) (n : Node) (b : ChessBroad) (depth_limit : Nat) :
    ParentInit [] (n.find_best_step_tr_tot cfg b depth_limit).2 := by
  unfold Node.find_best_step_tr_tot
  simp only []
  exact ParentInit_append [] [Event.init [] _] _ (ParentInit_single_init _ _ _)
    (find_best_step_loop_tr_pi _ _ _ []
      (fun i p c b pre s hs => visit_child_tr_pi cfg depth_limit _
        (search_tr_pi cfg (depth_limit - 1)) [] i p c b pre s hs)
      _ _ _ _ _ (List.mem_append_right _ (List.mem_singleton.2 rfl)))

theorem mem_take_getElem? (T : List Event) (i : Nat) (ev : Event) (h : ev ∈ T.take i) :
    ∃ j, j < i ∧ T[j]? = some ev := by
  obtain ⟨j, hj⟩ := List.mem_iff_getElem?.1 h
  rw [List.getElem?_take] at hj
  by_cases hji : j < i
  · rw [if_pos hji] at hj
    exact ⟨j, hji, hj⟩
  · rw [if_neg hji] at hj
    cases hj

/-- For the total form of the calls: in the record of a call of `find_best_step` (the call `decide` makes
on the current node, with depth limit 2), for every node, board, and depth
limit of at least 1, every call of `search` is on a node other than the node
of `find_best_step`, so a node with a parent, the node of the path without
its last index; and the assignment that initialises the parent's score stands
earlier in the record of the same call. -/
theorem search_has_initialised_parent_tot (cfg : Config) (n : Node) (b : ChessBroad)
    (depth_limit : Nat) (hd : 1 ≤ depth_limit) :
    (n.find_best_step_tr_tot cfg b depth_limit).1 = n.find_best_step_tot cfg b depth_limit ∧
    ∀ (i : Nat) (path : List Nat) (p : Int),
      (n.find_best_step_tr_tot cfg b depth_limit).2[i]? = some (Event.search path p) →
      path ≠ [] ∧ ∃ (j : Nat) (s : Int), j < i ∧
        (n.find_best_step_tr_tot cfg b depth_limit).2[j]? = some (Event.init path.dropLast s) := by
  have _ := hd
  refine ⟨find_best_step_tr_fst cfg n b depth_limit, ?_⟩
  intro i path p h
  obtain ⟨hp, s, hs⟩ := find_best_step_tr_pi cfg n b depth_limit i path p h
  rw [List.nil_append] at hs
  obtain ⟨j, hj, hj2⟩ := mem_take_getElem? _ _ _ hs
  exact ⟨hp, j, s, hj, hj2⟩

theorem static_evaluate_idem (cfg : Config) (n : Node) (b : ChessBroad) :
    (n.static_evaluate cfg b).static_evaluate cfg b = n.static_evaluate cfg b := by
  unfold Node.static_evaluate
  simp only [Node.depth_mk, Node.status_mk, Node.edges_mk]
  by_cases h : cfg.evaluate b = cfg.first_win ∨ cfg.evaluate b = cfg.second_win
  · simp only [if_pos h]
  · simp only [if_neg h]

theorem static_evaluate_score (cfg : Config) (n : Node) (b : ChessBroad) :
    (n.static_evaluate cfg b)._score = cfg.evaluate b := rfl

/-- One turn of the loop of `search` at the horizon, on an empty cell. -/
theorem search_loop_one_cons (cfg : Config) (recurse : Int → Node → ChessBroad → Node × ChessBroad)
    (first : Bool) (chess : Chess) (p : Int) (e : Position × Node) (es : List (Position × Node))
    (s : Int) (b : ChessBroad) (he : b e.1 = Chess.empty) :
    search_loop_tot (visit_child_tot cfg 1 recurse) first chess p (e :: es) s b =
      if better_score first (better_score first s (cfg.evaluate (b.emplace e.1 chess))) p =
          better_score first s (cfg.evaluate (b.emplace e.1 chess)) then
        ⟨(e.1, e.2.static_evaluate cfg (b.emplace e.1 chess)) :: es,
          better_score first s (cfg.evaluate (b.emplace e.1 chess)), true, b⟩
      else
        ⟨(e.1, e.2.static_evaluate cfg (b.emplace e.1 chess)) ::
            (search_loop_tot (visit_child_tot cfg 1 recurse) first chess p es
              (better_score first s (cfg.evaluate (b.emplace e.1 chess))) b).edges,
          (search_loop_tot (visit_child_tot cfg 1 recurse) first chess p es
              (better_score first s (cfg.evaluate (b.emplace e.1 chess))) b).score,
          (search_loop_tot (visit_child_tot cfg 1 recurse) first chess p es
              (better_score first s (cfg.evaluate (b.emplace e.1 chess))) b).cut,
          (search_loop_tot (visit_child_tot cfg 1 recurse) first chess p es
              (better_score first s (cfg.evaluate (b.emplace e.1 chess))) b).broad⟩ := by
  have hvis : visit_child_tot cfg 1 recurse s e.2 (b.emplace e.1 chess) =
      (e.2.static_evaluate cfg (b.emplace e.1 chess), b.emplace e.1 chess) := by
    simp [visit_child_tot]
  rw [search_loop_tot]
  simp only [hvis, static_evaluate_score, emplace_restore b e.1 chess he]

/-- The loop of `search` at the horizon, run again on the edges it left
without a cutoff, leaves the same. -/
theorem search_loop_one_idem (cfg : Config) (recurse : Int → Node → ChessBroad → Node × ChessBroad)
    (first : Bool) (chess : Chess) (p : Int) (es : List (Position × Node)) :
    ∀ (s : Int) (b : ChessBroad), (∀ e ∈ es, b e.1 = Chess.empty) →
      (search_loop_tot (visit_child_tot cfg 1 recurse) first chess p es s b).cut = false →
      search_loop_tot (visit_child_tot cfg 1 recurse) first chess p
        (search_loop_tot (visit_child_tot cfg 1 recurse) first chess p es s b).edges s b =
        search_loop_tot (visit_child_tot cfg 1 recurse) first chess p es s b := by
  induction es with
  | nil => intro s b _ _; rfl
  | cons e es ih =>
    intro s b hes hcut
    have he := hes e (List.mem_cons_self _ _)
    rw [search_loop_one_cons cfg recurse first chess p e es s b he] at hcut ⊢
    by_cases ht : better_score first (better_score first s (cfg.evaluate (b.emplace e.1 chess))) p =
        better_score first s (cfg.evaluate (b.emplace e.1 chess))
    · rw [if_pos ht] at hcut
      cases hcut
    · rw [if_neg ht] at hcut ⊢
      simp only [] at hcut ⊢
      rw [search_loop_one_cons cfg recurse first chess p
        (e.1, e.2.static_evaluate cfg (b.emplace e.1 chess)) _ s b he]
      simp only [static_evaluate_idem]
      rw [if_neg ht, ih _ b (fun x hx => hes x (List.mem_cons_of_mem _ hx)) hcut]

theorem search_loop_edges_nil (visit : Int → Node → ChessBroad → Node × ChessBroad)
    (first : Bool) (chess : Chess) (p : Int) (es : List (Position × Node)) (s : Int)
    (b : ChessBroad) (h : (search_loop_tot visit first chess p es s b).edges = []) : es = [] := by
  cases es with
  | nil => rfl
  | cons e es =>
    rw [search_loop_tot] at h
    simp only [] at h
    split at h <;> simp at h

/-- The node and the board `search` leaves, in terms of its loop. -/
theorem search_succ (cfg : Config) (k : Nat) (p : Int) (n : Node) (b : ChessBroad) :
    Node.search_tot cfg (k + 1) p n b =
      (Node.mk n._depth
        (if (search_loop_tot (visit_child_tot cfg (k + 1) (Node.search_tot cfg k)) n.next_first
            n.get_chess p (n.loop_edges cfg b) (lower_bound_score cfg n.next_first) b).cut
          then Status.cut else (if n._edges.isEmpty then Status.normal else n._status))
        (search_loop_tot (visit_child_tot cfg (k + 1) (Node.search_tot cfg k)) n.next_first
            n.get_chess p (n.loop_edges cfg b) (lower_bound_score cfg n.next_first) b).score
        (search_loop_tot (visit_child_tot cfg (k + 1) (Node.search_tot cfg k)) n.next_first
            n.get_chess p (n.loop_edges cfg b) (lower_bound_score cfg n.next_first) b).edges,
        (search_loop_tot (visit_child_tot cfg (k + 1) (Node.search_tot cfg k)) n.next_first
            n.get_chess p (n.loop_edges cfg b) (lower_bound_score cfg n.next_first) b).broad) := by
  dsimp only [Node.search_tot, Node.loop_edges]
  by_cases he : n._edges.isEmpty = true
  · simp only [List.isEmpty_iff.1 he, List.isEmpty_nil, if_true, Node.find_childs_tot, Node.edges_mk,
      Node.depth_mk, Node.status_mk, List.nil_append]
  · simp only [if_neg he, Node.edges_mk, Node.depth_mk, Node.status_mk]

/-- The result of `find_best_step`, in terms of its loop. -/
theorem find_best_step_eq (cfg : Config) (n : Node) (b : ChessBroad) (depth_limit : Nat) :
    n.find_best_step_tot cfg b depth_limit =
      match max_element (best_step_comp n.next_first)
          (find_best_step_loop_tot (visit_child_tot cfg depth_limit (Node.search_tot cfg (depth_limit - 1)))
            n.get_chess (lower_bound_score cfg n.next_first) (n.loop_edges cfg b) b).1 with
        | none => none
        | some (_, e) => some (e.1, Node.mk n._depth
            (if n._edges.isEmpty then Status.normal else n._status)
            (lower_bound_score cfg n.next_first)
            (find_best_step_loop_tot (visit_child_tot cfg depth_limit (Node.search_tot cfg (depth_limit - 1)))
              n.get_chess (lower_bound_score cfg n.next_first) (n.loop_edges cfg b) b).1,
            (find_best_step_loop_tot (visit_child_tot cfg depth_limit (Node.search_tot cfg (depth_limit - 1)))
              n.get_chess (lower_bound_score cfg n.next_first) (n.loop_edges cfg b) b).2) := by
  dsimp only [Node.find_best_step_tot, Node.loop_edges]
  by_cases he : n._edges.isEmpty = true
  · simp only [List.isEmpty_iff.1 he, List.isEmpty_nil, if_true, Node.find_childs_tot, Node.edges_mk,
      Node.depth_mk, Node.status_mk, Node.score_mk, List.nil_append]
  · simp only [if_neg he, Node.edges_mk, Node.depth_mk, Node.status_mk, Node.score_mk]

theorem loop_edges_empty (cfg : Config) (n : Node) (b : ChessBroad)
    (h : n.loop_edges cfg b = []) : n._edges = [] ∧ empty_cells cfg.size b = [] := by
  unfold Node.loop_edges at h
  by_cases he : n._edges.isEmpty = true
  · rw [if_pos he] at h
    exact ⟨List.isEmpty_iff.1 he, List.map_eq_nil_iff.1 h⟩
  · rw [if_neg he] at h
    exact absurd (List.isEmpty_iff.2 h) he

theorem loop_edges_of_ne (cfg : Config) (n : Node) (b : ChessBroad) (h : n._edges ≠ []) :
    n.loop_edges cfg b = n._edges := by
  unfold Node.loop_edges
  rw [if_neg (fun he => h (List.isEmpty_iff.1 he))]

theorem loop_edges_cells (cfg : Config) (h : Nat) (n : Node) (b : ChessBroad)
    (hn : Node.Inv cfg (h + 1) b n) : ∀ e ∈ n.loop_edges cfg b, b e.1 = Chess.empty := by
  intro e he
  have hm : e.1 ∈ empty_cells cfg.size b := by
    unfold Node.loop_edges at he
    by_cases hemp : n._edges.isEmpty = true
    · rw [if_pos hemp] at he
      obtain ⟨q, hq, rfl⟩ := List.mem_map.1 he
      exact hq
    · rw [if_neg hemp] at he
      rcases (Inv_succ cfg h b n).1 hn with h0 | ⟨h1, _⟩
      · exact absurd (List.isEmpty_iff.2 h0) hemp
      · rw [← h1]; exact List.mem_map_of_mem _ he
  exact ((mem_empty_cells _ _ _).1 hm).2

/-- A `search` at the horizon that did not cut the node, run again on the
node it left, leaves the same node. -/
theorem search_one_idem (cfg : Config) (p : Int) (c : Node) (b : ChessBroad)
    (hI : Node.Inv cfg 1 b c)
    (hcut : (Node.search_tot cfg 1 p c b).1._status ≠ Status.cut) :
    (Node.search_tot cfg 1 p (Node.search_tot cfg 1 p c b).1 b).1 = (Node.search_tot cfg 1 p c b).1 := by
  have hcells := loop_edges_cells cfg 0 c b hI
  have hidem := search_loop_one_idem cfg (Node.search_tot cfg 0) c.next_first c.get_chess p
    (c.loop_edges cfg b) (lower_bound_score cfg c.next_first) b hcells
  have hnil := search_loop_edges_nil (visit_child_tot cfg 1 (Node.search_tot cfg 0)) c.next_first
    c.get_chess p (c.loop_edges cfg b) (lower_bound_score cfg c.next_first) b
  have hle := loop_edges_empty cfg c b
  rw [search_succ cfg 0 p c b] at hcut ⊢
  simp only [Nat.zero_add] at hcut hidem hnil ⊢
  generalize search_loop_tot (visit_child_tot cfg 1 (Node.search_tot cfg 0)) c.next_first c.get_chess p
    (c.loop_edges cfg b) (lower_bound_score cfg c.next_first) b = R at hcut hidem hnil ⊢
  simp only [Node.status_mk] at hcut
  have hRc : R.cut = false := by
    cases hc : R.cut with
    | false => rfl
    | true => rw [hc] at hcut; simp at hcut
  rw [hRc]
  simp only [Bool.false_eq_true, if_false]
  have hidem := hidem hRc
  rw [search_succ cfg 0 p _ b]
  simp only [Nat.zero_add, Node.depth_mk, Node.status_mk, Node.edges_mk]
  have hnf : (Node.mk c._depth (if c._edges.isEmpty then Status.normal else c._status)
      R.score R.edges).next_first = c.next_first := by
    simp [Node.next_first]
  have hgc : (Node.mk c._depth (if c._edges.isEmpty then Status.normal else c._status)
      R.score R.edges).get_chess = c.get_chess := get_chess_of_depth _ _ (by simp)
  rw [hnf, hgc]
  by_cases hR : R.edges = []
  · have h0 := hnil hR
    obtain ⟨h1, h2⟩ := hle h0
    have hl : (Node.mk c._depth (if c._edges.isEmpty then Status.normal else c._status)
        R.score R.edges).loop_edges cfg b = [] := by
      unfold Node.loop_edges
      simp [hR, h2]
    rw [hl]
    rw [hR] at hidem
    rw [hidem]
    simp only [hRc, hR, h1, List.isEmpty_nil, if_true, Bool.false_eq_true, if_false]
  · have hl : (Node.mk c._depth (if c._edges.isEmpty then Status.normal else c._status)
        R.score R.edges).loop_edges cfg b = R.edges := loop_edges_of_ne cfg _ b (by simpa using hR)
    rw [hl, hidem]
    have hne : ¬ (R.edges.isEmpty = true) := fun h => hR (List.isEmpty_iff.1 h)
    simp only [hRc, hne, Bool.false_eq_true, if_false]

theorem expanded_edges (cfg : Config) (n : Node) (b : ChessBroad) (s : Int) :
    (if n._edges.isEmpty then (Node.mk n._depth n._status s n._edges).find_childs_tot cfg b
      else Node.mk n._depth n._status s n._edges)._edges = n.loop_edges cfg b := by
  unfold Node.loop_edges
  by_cases he : n._edges.isEmpty = true
  · simp only [List.isEmpty_iff.1 he, List.isEmpty_nil, if_true, Node.find_childs_tot, Node.edges_mk,
      Node.depth_mk, List.nil_append]
  · simp only [if_neg he, Node.edges_mk]

theorem loop_edges_ok (cfg : Config) (h : Nat) (n : Node) (b : ChessBroad)
    (hn : Node.Inv cfg (h + 1) b n) :
    ∀ e ∈ n.loop_edges cfg b, b e.1 = Chess.empty ∧ ChildOK cfg h b n.get_chess n._depth e := by
  intro e he
  refine ⟨loop_edges_cells cfg h n b hn e he, ?_⟩
  have h2 := (expanded_ok cfg h b n 0 hn).2
  rw [expanded_edges] at h2
  exact h2 e he

/-- The visit of a child by `find_best_step` with depth limit 2, made again on
the child it left, leaves the same child. -/
theorem visit_two_idem (cfg : Config) (s : Int) (c : Node) (b : ChessBroad)
    (hI : Node.Inv cfg 1 b c) :
    (visit_child_tot cfg 2 (Node.search_tot cfg 1) s (visit_child_tot cfg 2 (Node.search_tot cfg 1) s c b).1 b).1 =
      (visit_child_tot cfg 2 (Node.search_tot cfg 1) s c b).1 := by
  have hne : ¬ (2 = 1) := by decide
  by_cases hst : c._status ≠ Status.cut ∧ c._status ≠ Status.leaf
  · have h1 : visit_child_tot cfg 2 (Node.search_tot cfg 1) s c b = Node.search_tot cfg 1 s c b := by
      simp only [visit_child_tot, if_neg hne, if_pos hst]
    rw [h1]
    by_cases hc : (Node.search_tot cfg 1 s c b).1._status = Status.cut
    · simp only [visit_child_tot, if_neg hne]
      rw [if_neg (fun h => h.1 hc)]
    · have hl := (search_ok cfg 1 s c b hI).2.2.2 hst.2
      simp only [visit_child_tot, if_neg hne]
      rw [if_pos ⟨hc, hl⟩]
      exact search_one_idem cfg s c b hI hc
  · have h1 : visit_child_tot cfg 2 (Node.search_tot cfg 1) s c b = (c, b) := by
      simp only [visit_child_tot, if_neg hne, if_neg hst]
    rw [h1]
    simp only [h1]

/-- A second `find_best_step` with depth limit 2 on the node the first left
returns the same position and leaves the same node and board. -/
theorem find_best_step_idem (cfg : Config) (n : Node) (b : ChessBroad)
    (hI : Node.Inv cfg 2 b n) (pos : Position) (n1 : Node) (b1 : ChessBroad)
    (hf : n.find_best_step_tot cfg b 2 = some (pos, n1, b1)) :
    n1.find_best_step_tot cfg b 2 = some (pos, n1, b1) := by
  have hv := visit_ok_of_search_ok cfg 1 (search_ok cfg 1)
  have hes := loop_edges_ok cfg 1 n b hI
  obtain ⟨hb, hch⟩ := find_best_step_loop_ok cfg 1 _ hv n.get_chess n._depth
    (lower_bound_score cfg n.next_first) (n.loop_edges cfg b) b hes
  have hmap := find_best_step_loop_map_fst (visit_child_tot cfg 2 (Node.search_tot cfg 1)) n.get_chess
    (lower_bound_score cfg n.next_first) (n.loop_edges cfg b) b
  have heq := find_best_step_loop_eq cfg 1 _ hv n.get_chess n._depth
    (lower_bound_score cfg n.next_first) (n.loop_edges cfg b) b hes
  have hes2 : ∀ e ∈ (find_best_step_loop_tot (visit_child_tot cfg 2 (Node.search_tot cfg 1)) n.get_chess
      (lower_bound_score cfg n.next_first) (n.loop_edges cfg b) b).1,
      b e.1 = Chess.empty ∧ ChildOK cfg 1 b n.get_chess n._depth e := by
    intro e he
    refine ⟨?_, hch e he⟩
    have h1 : e.1 ∈ (n.loop_edges cfg b).map Prod.fst := by
      rw [← hmap]; exact List.mem_map_of_mem _ he
    obtain ⟨e0, he0, h0⟩ := List.mem_map.1 h1
    rw [← h0]
    exact (hes e0 he0).1
  have hfix : ∀ e ∈ (find_best_step_loop_tot (visit_child_tot cfg 2 (Node.search_tot cfg 1)) n.get_chess
      (lower_bound_score cfg n.next_first) (n.loop_edges cfg b) b).1,
      (e.1, (visit_child_tot cfg 2 (Node.search_tot cfg 1) (lower_bound_score cfg n.next_first) e.2
        (b.emplace e.1 n.get_chess)).1) = e := by
    intro e he
    rw [heq] at he
    obtain ⟨e0, he0, rfl⟩ := List.mem_map.1 he
    simp only []
    rw [visit_two_idem cfg _ e0.2 _ (hes e0 he0).2.2.2]
  have heq2 := find_best_step_loop_eq cfg 1 _ hv n.get_chess n._depth
    (lower_bound_score cfg n.next_first) _ b hes2
  have hb2 := (find_best_step_loop_ok cfg 1 _ hv n.get_chess n._depth
    (lower_bound_score cfg n.next_first) _ b hes2).1
  rw [find_best_step_eq] at hf
  rw [show (2 : Nat) - 1 = 1 from rfl] at hf
  generalize find_best_step_loop_tot (visit_child_tot cfg 2 (Node.search_tot cfg 1)) n.get_chess
    (lower_bound_score cfg n.next_first) (n.loop_edges cfg b) b = L at hb hfix heq2 hb2 hf
  have hL2 : find_best_step_loop_tot (visit_child_tot cfg 2 (Node.search_tot cfg 1)) n.get_chess
      (lower_bound_score cfg n.next_first) L.1 b = (L.1, b) := by
    refine Prod.ext ?_ hb2
    rw [heq2]
    simp only []
    conv_rhs => rw [← List.map_id L.1]
    exact List.map_congr_left hfix
  cases hmax : max_element (best_step_comp n.next_first) L.1 with
  | none => rw [hmax] at hf; simp at hf
  | some ie =>
    obtain ⟨i, e⟩ := ie
    have hne := max_element_some _ _ _ _ hmax
    rw [hmax] at hf
    simp only [Option.some.injEq, Prod.mk.injEq] at hf
    obtain ⟨rfl, rfl, rfl⟩ := hf
    rw [find_best_step_eq]
    rw [show (2 : Nat) - 1 = 1 from rfl]
    have hnf : (Node.mk n._depth (if n._edges.isEmpty then Status.normal else n._status)
        (lower_bound_score cfg n.next_first) L.1).next_first = n.next_first := by
      simp [Node.next_first]
    have hgc : (Node.mk n._depth (if n._edges.isEmpty then Status.normal else n._status)
        (lower_bound_score cfg n.next_first) L.1).get_chess = n.get_chess :=
      get_chess_of_depth _ _ (by simp)
    have hl : (Node.mk n._depth (if n._edges.isEmpty then Status.normal else n._status)
        (lower_bound_score cfg n.next_first) L.1).loop_edges cfg b = L.1 :=
      loop_edges_of_ne cfg _ b (by simpa using hne)
    have hemp : ¬ (L.1.isEmpty = true) := fun h => hne (List.isEmpty_iff.1 h)
    rw [hnf, hgc, hl, hL2]
    simp only [hmax, Node.depth_mk, Node.status_mk, Node.edges_mk, hemp, if_false, hb,
      Bool.false_eq_true]

/-- For the total form of the calls: in every state reached from a new tree by `update` calls with legal
moves and `decide` calls, with an empty cell on the board, `decide` returns a
position, and a second `decide` right after it returns the same position; the
second call leaves the state the first call left. -/
theorem decide_idempotent_tot (cfg : Config) (ms : List Position) (t : GomokuTree)
    (h : Reachable_tot cfg ms t)
    (hempty : ∃ p, in_range cfg p ∧ t._broad.get p = Chess.empty) :
    ∃ (pos : Position) (t1 : GomokuTree),
      t.decide_tot cfg = some (pos, t1) ∧ t1.decide_tot cfg = some (pos, t1) := by
  obtain ⟨cur, hcur, _, _, hI⟩ := reachable_inv cfg ms t h
  obtain ⟨pos, n1, b1, _, _, hf, _⟩ := find_best_step_spec cfg cur t._broad 2 hempty
  have hidem := find_best_step_idem cfg cur t._broad hI pos n1 b1 hf
  have hb1 := (find_best_step_ok cfg 1 cur t._broad hI pos n1 b1 hf).1
  refine ⟨pos, ⟨t._root.setAt t._current n1, t._current, b1⟩, ?_, ?_⟩
  · unfold GomokuTree.decide_tot
    rw [hcur]
    simp only [hf]
  · have hg := getAt_setAt t._current t._root cur n1 hcur
    unfold GomokuTree.decide_tot
    simp only []
    rw [hg]
    simp only []
    rw [hb1, hidem]
    simp only []
    rw [setAt_self t._current _ n1 hg, hb1]

theorem find_childs_le (cfg : Config) (n : Node) (b : ChessBroad) :
    n.find_childs cfg b = none ∨ n.find_childs cfg b = some (n.find_childs_tot cfg b, b) := by
  unfold Node.find_childs Node.find_childs_tot
  by_cases h : cfg.size * cfg.size < n._depth
  · left; rw [if_pos h]
  · right; rw [if_neg h]

theorem find_childs_some (cfg : Config) (n : Node) (b : ChessBroad)
    (h : n._depth ≤ cfg.size * cfg.size) :
    n.find_childs cfg b = some (n.find_childs_tot cfg b, b) := by
  unfold Node.find_childs Node.find_childs_tot
  rw [if_neg (Nat.not_lt.2 h)]

theorem find_childs_none (cfg : Config) (n : Node) (b : ChessBroad)
    (h : cfg.size * cfg.size < n._depth) : n.find_childs cfg b = none := by
  unfold Node.find_childs
  rw [if_pos h]

/-- The expansion step `if (_edges.empty()) find_childs(broad);` either throws
or leaves the node the total form leaves. -/
theorem expand_le (cfg : Config) (n : Node) (b : ChessBroad) (s : Int) :
    (if n._edges.isEmpty then (Node.mk n._depth n._status s n._edges).find_childs cfg b
      else some (Node.mk n._depth n._status s n._edges, b)) = none ∨
    (if n._edges.isEmpty then (Node.mk n._depth n._status s n._edges).find_childs cfg b
      else some (Node.mk n._depth n._status s n._edges, b)) =
      some ((if n._edges.isEmpty then (Node.mk n._depth n._status s n._edges).find_childs_tot cfg b
        else Node.mk n._depth n._status s n._edges), b) := by
  by_cases he : n._edges.isEmpty = true
  · simp only [if_pos he]
    exact find_childs_le cfg _ b
  · simp only [if_neg he]
    exact Or.inr trivial

theorem expand_some (cfg : Config) (n : Node) (b : ChessBroad) (s : Int)
    (h : n._depth ≤ cfg.size * cfg.size) :
    (if n._edges.isEmpty then (Node.mk n._depth n._status s n._edges).find_childs cfg b
      else some (Node.mk n._depth n._status s n._edges, b)) =
      some ((if n._edges.isEmpty then (Node.mk n._depth n._status s n._edges).find_childs_tot cfg b
        else Node.mk n._depth n._status s n._edges), b) := by
  by_cases he : n._edges.isEmpty = true
  · simp only [if_pos he]
    exact find_childs_some cfg _ b (by simpa using h)
  · simp only [if_neg he]

theorem visit_child_le (cfg : Config) (depth_limit : Nat)
    (recurse : Int → Node → ChessBroad → Option (Node × ChessBroad))
    (recurse_tot : Int → Node → ChessBroad → Node × ChessBroad)
    (hrec : ∀ p c b, recurse p c b = none ∨ recurse p c b = some (recurse_tot p c b))
    (p : Int) (c : Node) (b : ChessBroad) :
    visit_child cfg depth_limit recurse p c b = none ∨
      visit_child cfg depth_limit recurse p c b =
        some (visit_child_tot cfg depth_limit recurse_tot p c b) := by
  unfold visit_child visit_child_tot
  by_cases h1 : depth_limit = 1
  · right; simp only [if_pos h1]
  · simp only [if_neg h1]
    by_cases h2 : c._status ≠ Status.cut ∧ c._status ≠ Status.leaf
    · simp only [if_pos h2]
      exact hrec p c b
    · right; simp only [if_neg h2]

theorem search_loop_le (visit : Int → Node → ChessBroad → Option (Node × ChessBroad))
    (visit_tot : Int → Node → ChessBroad → Node × ChessBroad)
    (hv : ∀ s c b, visit s c b = none ∨ visit s c b = some (visit_tot s c b))
    (first : Bool) (chess : Chess) (p : Int) (es : List (Position × Node)) :
    ∀ (s : Int) (b : ChessBroad),
      search_loop visit first chess p es s b = none ∨
      search_loop visit first chess p es s b =
        some (search_loop_tot visit_tot first chess p es s b) := by
  induction es with
  | nil => intro s b; right; rfl
  | cons e es ih =>
    intro s b
    rw [search_loop, search_loop_tot]
    rcases hv s e.2 (b.emplace e.1 chess) with h | h
    · left; rw [h]
    · rw [h]
      simp only []
      split
      · right; rfl
      · rcases ih (better_score first s (visit_tot s e.2 (b.emplace e.1 chess)).1._score)
          ((visit_tot s e.2 (b.emplace e.1 chess)).2.emplace e.1 Chess.empty) with h2 | h2
        · left; rw [h2]
        · right; rw [h2]

theorem search_le (cfg : Config) (k : Nat) :
    ∀ (p : Int) (n : Node) (b : ChessBroad),
      Node.search cfg k p n b = none ∨
      Node.search cfg k p n b = some (Node.search_tot cfg k p n b) := by
  induction k with
  | zero => intro p n b; right; rfl
  | succ k ih =>
    intro p n b
    rw [Node.search, Node.search_tot]
    rcases expand_le cfg n b (lower_bound_score cfg n.next_first) with h | h
    · left; rw [h]
    · rw [h]
      simp only []
      rcases search_loop_le _ _ (visit_child_le cfg (k + 1) _ _ ih) n.next_first n.get_chess p
        (if n._edges.isEmpty then
          (Node.mk n._depth n._status (lower_bound_score cfg n.next_first) n._edges).find_childs_tot
            cfg b
          else Node.mk n._depth n._status (lower_bound_score cfg n.next_first) n._edges)._edges
        (lower_bound_score cfg n.next_first) b with h2 | h2
      · left; rw [h2]
      · right; rw [h2]

theorem find_best_step_loop_le (visit : Int → Node → ChessBroad → Option (Node × ChessBroad))
    (visit_tot : Int → Node → ChessBroad → Node × ChessBroad)
    (hv : ∀ s c b, visit s c b = none ∨ visit s c b = some (visit_tot s c b))
    (chess : Chess) (s : Int) (es : List (Position × Node)) :
    ∀ (b : ChessBroad),
      find_best_step_loop visit chess s es b = none ∨
      find_best_step_loop visit chess s es b =
        some (find_best_step_loop_tot visit_tot chess s es b) := by
  induction es with
  | nil => intro b; right; rfl
  | cons e es ih =>
    intro b
    rw [find_best_step_loop, find_best_step_loop_tot]
    rcases hv s e.2 (b.emplace e.1 chess) with h | h
    · left; rw [h]
    · rw [h]
      simp only []
      rcases ih ((visit_tot s e.2 (b.emplace e.1 chess)).2.emplace e.1 Chess.empty) with h2 | h2
      · left; rw [h2]
      · right; rw [h2]

theorem find_best_step_le (cfg : Config) (n : Node) (b : ChessBroad) (depth_limit : Nat) :
    n.find_best_step cfg b depth_limit = none ∨
      n.find_best_step cfg b depth_limit = n.find_best_step_tot cfg b depth_limit := by
  unfold Node.find_best_step Node.find_best_step_tot
  rcases expand_le cfg n b (lower_bound_score cfg n.next_first) with h | h
  · left; rw [h]
  · rw [h]
    simp only []
    rcases find_best_step_loop_le _ _
      (visit_child_le cfg depth_limit _ _ (search_le cfg (depth_limit - 1))) n.get_chess
      (lower_bound_score cfg n.next_first)
      (if n._edges.isEmpty then
        (Node.mk n._depth n._status (lower_bound_score cfg n.next_first) n._edges).find_childs_tot
          cfg b
        else Node.mk n._depth n._status (lower_bound_score cfg n.next_first) n._edges)._edges
      b with h2 | h2
    · left; rw [h2]
    · right
      rw [h2]
      simp only []
      split <;> rename_i hm <;> simp only [hm]

theorem find_best_step_of_some (cfg : Config) (n : Node) (b : ChessBroad) (depth_limit : Nat)
    (r : Position × Node × ChessBroad) (h : n.find_best_step cfg b depth_limit = some r) :
    n.find_best_step_tot cfg b depth_limit = some r := by
  rcases find_best_step_le cfg n b depth_limit with h1 | h1
  · rw [h1] at h; cases h
  · rw [← h1]; exact h

theorem decide_le (cfg : Config) (t : GomokuTree) :
    t.decide cfg = none ∨ t.decide cfg = t.decide_tot cfg := by
  unfold GomokuTree.decide GomokuTree.decide_tot
  cases hc : t._root.getAt t._current with
  | none => left; rfl
  | some cur =>
    simp only []
    rcases find_best_step_le cfg cur t._broad 2 with h | h
    · left; rw [h]
    · right
      rw [h]
      cases hf : cur.find_best_step_tot cfg t._broad 2 with
      | none => rfl
      | some r => rfl

theorem decide_of_some (cfg : Config) (t : GomokuTree) (r : Position × GomokuTree)
    (h : t.decide cfg = some r) : t.decide_tot cfg = some r := by
  rcases decide_le cfg t with h1 | h1
  · rw [h1] at h; cases h
  · rw [← h1]; exact h

theorem reachable_tot (cfg : Config) (ms : List Position) (t : GomokuTree)
    (h : Reachable cfg ms t) : Reachable_tot cfg ms t := by
  induction h with
  | new => exact Reachable_tot.new
  | update _ hp hu ih => exact Reachable_tot.update ih hp hu
  | decide _ hd ih => exact Reachable_tot.decide ih (decide_of_some cfg _ _ hd)

theorem empty_cells_nodup (size : Nat) (b : ChessBroad) : (empty_cells size b).Nodup := by
  refine (empty_cells_sorted size b).imp ?_
  intro p q h hpq
  subst hpq
  rw [pos_less_irrefl] at h
  cases h

theorem length_flatMap_le {α : Type} (f : Nat → List α) (m : Nat)
    (hf : ∀ i, (f i).length ≤ m) (l : List Nat) : (l.flatMap f).length ≤ l.length * m := by
  induction l with
  | nil => simp
  | cons a l ih =>
    rw [List.flatMap_cons, List.length_append, List.length_cons, Nat.succ_mul]
    have := hf a
    omega

theorem empty_cells_length_le (size : Nat) (b : ChessBroad) :
    (empty_cells size b).length ≤ size * size := by
  unfold empty_cells
  refine le_trans (length_flatMap_le _ size ?_ (List.range size)) (by rw [List.length_range])
  intro i
  refine le_trans (List.length_filter_le _ _) ?_
  rw [List.length_map, List.length_range]

/-- A stone put on an empty cell of the grid leaves one empty cell less. -/
theorem empty_cells_emplace (size : Nat) (b : ChessBroad) (p : Position) (c : Chess)
    (hp : p ∈ empty_cells size b) (hc : c ≠ Chess.empty) :
    (empty_cells size (b.emplace p c)).length + 1 ≤ (empty_cells size b).length := by
  have hsub : empty_cells size (b.emplace p c) ⊆ (empty_cells size b).erase p := by
    intro q hq
    obtain ⟨hr, he⟩ := (mem_empty_cells _ _ _).1 hq
    have hne : q ≠ p := by
      intro h
      rw [h, emplace_same] at he
      exact hc he
    rw [emplace_other b p q c hne] at he
    exact (List.mem_erase_of_ne hne).2 ((mem_empty_cells _ _ _).2 ⟨hr, he⟩)
  have h1 := (List.subperm_of_subset (empty_cells_nodup size (b.emplace p c)) hsub).length_le
  rw [List.length_erase_of_mem hp] at h1
  have h2 := List.length_pos_of_mem hp
  omega

theorem get_chess_ne_empty (n : Node) : n.get_chess ≠ Chess.empty := by
  unfold Node.get_chess
  split <;> simp

theorem depth_fits_le (cfg : Config) (b : ChessBroad) (n : Node) (h : n.depth_fits cfg b) :
    n._depth ≤ cfg.size * cfg.size := by
  unfold Node.depth_fits at h
  omega

theorem depth_fits_child (cfg : Config) (b : ChessBroad) (d : Nat) (n c : Node) (q : Position)
    (chess : Chess) (hn : d + (empty_cells cfg.size b).length ≤ cfg.size * cfg.size)
    (hq : q ∈ empty_cells cfg.size b) (hchess : chess ≠ Chess.empty)
    (hc : c._depth = d + 1) (_hn : n._depth = d) :
    c.depth_fits cfg (b.emplace q chess) := by
  unfold Node.depth_fits
  have := empty_cells_emplace cfg.size b q chess hq hchess
  omega

theorem search_loop_some (visit : Int → Node → ChessBroad → Option (Node × ChessBroad))
    (visit_tot : Int → Node → ChessBroad → Node × ChessBroad)
    (first : Bool) (chess : Chess) (p : Int) (es : List (Position × Node)) :
    ∀ (s : Int) (b : ChessBroad),
      (∀ e ∈ es, ∀ s1, visit s1 e.2 (b.emplace e.1 chess) =
          some (visit_tot s1 e.2 (b.emplace e.1 chess)) ∧
        (visit_tot s1 e.2 (b.emplace e.1 chess)).2.emplace e.1 Chess.empty = b) →
      search_loop visit first chess p es s b =
        some (search_loop_tot visit_tot first chess p es s b) := by
  induction es with
  | nil => intro s b _; rfl
  | cons e es ih =>
    intro s b h
    obtain ⟨h1, h2⟩ := h e (List.mem_cons_self _ _) s
    rw [search_loop, search_loop_tot, h1]
    simp only [h2]
    split
    · rfl
    · rw [ih _ b (fun x hx => h x (List.mem_cons_of_mem _ hx))]

theorem find_best_step_loop_some
    (visit : Int → Node → ChessBroad → Option (Node × ChessBroad))
    (visit_tot : Int → Node → ChessBroad → Node × ChessBroad)
    (chess : Chess) (s : Int) (es : List (Position × Node)) :
    ∀ (b : ChessBroad),
      (∀ e ∈ es, visit s e.2 (b.emplace e.1 chess) =
          some (visit_tot s e.2 (b.emplace e.1 chess)) ∧
        (visit_tot s e.2 (b.emplace e.1 chess)).2.emplace e.1 Chess.empty = b) →
      find_best_step_loop visit chess s es b =
        some (find_best_step_loop_tot visit_tot chess s es b) := by
  induction es with
  | nil => intro b _; rfl
  | cons e es ih =>
    intro b h
    obtain ⟨h1, h2⟩ := h e (List.mem_cons_self _ _)
    rw [find_best_step_loop, find_best_step_loop_tot, h1]
    simp only [h2]
    rw [ih b (fun x hx => h x (List.mem_cons_of_mem _ hx))]

theorem search_loop_nocut_some
    (visit : Int → Node → ChessBroad → Option (Node × ChessBroad))
    (visit_tot : Int → Node → ChessBroad → Node × ChessBroad)
    (first : Bool) (chess : Chess) (es : List (Position × Node)) :
    ∀ (s : Int) (b : ChessBroad),
      (∀ e ∈ es, ∀ s1, visit s1 e.2 (b.emplace e.1 chess) =
          some (visit_tot s1 e.2 (b.emplace e.1 chess)) ∧
        (visit_tot s1 e.2 (b.emplace e.1 chess)).2.emplace e.1 Chess.empty = b) →
      search_loop_nocut visit first chess es s b =
        some (search_loop_nocut_tot visit_tot first chess es s b) := by
  induction es with
  | nil => intro s b _; rfl
  | cons e es ih =>
    intro s b h
    obtain ⟨h1, h2⟩ := h e (List.mem_cons_self _ _) s
    rw [search_loop_nocut, search_loop_nocut_tot, h1]
    simp only [h2]
    rw [ih _ b (fun x hx => h x (List.mem_cons_of_mem _ hx))]

theorem visit_child_some (cfg : Config) (depth_limit : Nat)
    (recurse : Int → Node → ChessBroad → Option (Node × ChessBroad))
    (recurse_tot : Int → Node → ChessBroad → Node × ChessBroad)
    (p : Int) (c : Node) (b : ChessBroad)
    (hrec : recurse p c b = some (recurse_tot p c b)) :
    visit_child cfg depth_limit recurse p c b =
      some (visit_child_tot cfg depth_limit recurse_tot p c b) := by
  unfold visit_child visit_child_tot
  by_cases h1 : depth_limit = 1
  · simp only [if_pos h1]
  · simp only [if_neg h1]
    by_cases h2 : c._status ≠ Status.cut ∧ c._status ≠ Status.leaf
    · simp only [if_pos h2]
      exact hrec
    · simp only [if_neg h2]

/-- The edges the loops run over, under the invariant and the depth bound:
every visit of a child returns what the total form returns, when the search
one level down does. -/
theorem children_some (cfg : Config) (k : Nat)
    (recurse : Int → Node → ChessBroad → Option (Node × ChessBroad))
    (hrec : ∀ (p : Int) (c : Node) (b : ChessBroad), Node.Inv cfg k b c → c.depth_fits cfg b →
      recurse p c b = some (Node.search_tot cfg k p c b))
    (n : Node) (b : ChessBroad) (hI : Node.Inv cfg (k + 1) b n) (hD : n.depth_fits cfg b)
    (s : Int) :
    ∀ e ∈ (if n._edges.isEmpty then (Node.mk n._depth n._status s n._edges).find_childs_tot cfg b
        else Node.mk n._depth n._status s n._edges)._edges,
      ∀ s1, visit_child cfg (k + 1) recurse s1 e.2 (b.emplace e.1 n.get_chess) =
          some (visit_child_tot cfg (k + 1) (Node.search_tot cfg k) s1 e.2
            (b.emplace e.1 n.get_chess)) ∧
        (visit_child_tot cfg (k + 1) (Node.search_tot cfg k) s1 e.2
          (b.emplace e.1 n.get_chess)).2.emplace e.1 Chess.empty = b := by
  obtain ⟨hmap, hch⟩ := expanded_ok cfg k b n s hI
  have hv := visit_ok_of_search_ok cfg k (search_ok cfg k)
  intro e he s1
  have hmem : e.1 ∈ empty_cells cfg.size b := by
    rw [← hmap]; exact List.mem_map_of_mem _ he
  obtain ⟨hdep, hleaf, hinv⟩ := hch e he
  have hfit : e.2.depth_fits cfg (b.emplace e.1 n.get_chess) :=
    depth_fits_child cfg b n._depth n e.2 e.1 n.get_chess hD hmem (get_chess_ne_empty n) hdep rfl
  refine ⟨visit_child_some cfg (k + 1) _ _ s1 e.2 _ (hrec s1 e.2 _ hinv hfit), ?_⟩
  rw [(hv s1 e.2 _ hinv hleaf).1]
  exact emplace_restore b e.1 n.get_chess ((mem_empty_cells _ _ _).1 hmem).2

/-- Under the invariant of the cached subtree and the depth bound no
`reserve` throws: `search` returns what its total form computes. -/
theorem search_some (cfg : Config) (k : Nat) :
    ∀ (p : Int) (n : Node) (b : ChessBroad), Node.Inv cfg k b n → n.depth_fits cfg b →
      Node.search cfg k p n b = some (Node.search_tot cfg k p n b) := by
  induction k with
  | zero => intro p n b _ _; rfl
  | succ k ih =>
    intro p n b hI hD
    have hch := children_some cfg k (Node.search cfg k) ih n b hI hD
      (lower_bound_score cfg n.next_first)
    rw [Node.search, Node.search_tot,
      expand_some cfg n b (lower_bound_score cfg n.next_first) (depth_fits_le cfg b n hD)]
    simp only []
    rw [search_loop_some _ (visit_child_tot cfg (k + 1) (Node.search_tot cfg k)) n.next_first
      n.get_chess p _ (lower_bound_score cfg n.next_first) b hch]

theorem find_best_step_some (cfg : Config) (k : Nat) (n : Node) (b : ChessBroad)
    (hI : Node.Inv cfg (k + 1) b n) (hD : n.depth_fits cfg b) :
    n.find_best_step cfg b (k + 1) = n.find_best_step_tot cfg b (k + 1) := by
  have hch := children_some cfg k (Node.search cfg k) (search_some cfg k) n b hI hD
    (lower_bound_score cfg n.next_first)
  unfold Node.find_best_step Node.find_best_step_tot
  rw [expand_some cfg n b (lower_bound_score cfg n.next_first) (depth_fits_le cfg b n hD)]
  simp only [Nat.add_sub_cancel]
  rw [find_best_step_loop_some _ (visit_child_tot cfg (k + 1) (Node.search_tot cfg k))
    n.get_chess (lower_bound_score cfg n.next_first) _ b
    (fun e he => hch e he (lower_bound_score cfg n.next_first))]
  simp only []
  split <;> rename_i hm <;> simp only [hm]

/-- In a state reached by legal moves the stones on the grid are as many as
the moves. -/
theorem reachable_len (cfg : Config) (ms : List Position) (t : GomokuTree)
    (h : Reachable_tot cfg ms t) :
    ms.length + (empty_cells cfg.size t._broad).length ≤ cfg.size * cfg.size := by
  induction h with
  | new =>
    have := empty_cells_length_le cfg.size ChessBroad.init
    simpa [GomokuTree.new] using this
  | @update ms t t1 p hr hp hu ih =>
    obtain ⟨cur, hcur, _, _, _⟩ := reachable_inv cfg ms t hr
    rw [update_board cfg t t1 p cur hcur hu, List.length_append, List.length_singleton]
    have := empty_cells_emplace cfg.size t._broad p cur.get_chess
      ((mem_empty_cells _ _ _).2 hp) (get_chess_ne_empty cur)
    omega
  | @decide ms t t1 p hr hd ih =>
    rw [(decide_ok cfg ms t t1 p (reachable_inv cfg ms t hr) hd).2.1]
    exact ih

/-- In a state reached by legal moves `decide` meets no exception. -/
theorem decide_some (cfg : Config) (ms : List Position) (t : GomokuTree)
    (h : Reachable cfg ms t) : t.decide cfg = t.decide_tot cfg := by
  have ht := reachable_tot cfg ms t h
  obtain ⟨cur, hcur, hdep, _, hI⟩ := reachable_inv cfg ms t ht
  have hD : cur.depth_fits cfg t._broad := by
    unfold Node.depth_fits
    rw [hdep]
    exact reachable_len cfg ms t ht
  unfold GomokuTree.decide GomokuTree.decide_tot
  rw [hcur]
  simp only []
  rw [find_best_step_some cfg 1 cur t._broad hI hD]
  cases hf : cur.find_best_step_tot cfg t._broad (1 + 1) with
  | none => rfl
  | some r => rfl

/-- A state of the total form reached by legal moves is reached by the code. -/
theorem reachable_of_tot (cfg : Config) (ms : List Position) (t : GomokuTree)
    (h : Reachable_tot cfg ms t) : Reachable cfg ms t := by
  induction h with
  | new => exact Reachable.new
  | update _ hp hu ih => exact Reachable.update ih hp hu
  | @decide ms t t1 p _ hd ih =>
    have h1 : t.decide cfg = some (p, t1) := by
      rw [decide_some cfg _ _ ih]
      exact hd
    exact Reachable.decide ih h1

theorem search_loop_nocut_le (visit : Int → Node → ChessBroad → Option (Node × ChessBroad))
    (visit_tot : Int → Node → ChessBroad → Node × ChessBroad)
    (hv : ∀ s c b, visit s c b = none ∨ visit s c b = some (visit_tot s c b))
    (first : Bool) (chess : Chess) (es : List (Position × Node)) :
    ∀ (s : Int) (b : ChessBroad),
      search_loop_nocut visit first chess es s b = none ∨
      search_loop_nocut visit first chess es s b =
        some (search_loop_nocut_tot visit_tot first chess es s b) := by
  induction es with
  | nil => intro s b; right; rfl
  | cons e es ih =>
    intro s b
    rw [search_loop_nocut, search_loop_nocut_tot]
    rcases hv s e.2 (b.emplace e.1 chess) with h | h
    · left; rw [h]
    · rw [h]
      simp only []
      rcases ih (better_score first s (visit_tot s e.2 (b.emplace e.1 chess)).1._score)
        ((visit_tot s e.2 (b.emplace e.1 chess)).2.emplace e.1 Chess.empty) with h2 | h2
      · left; rw [h2]
      · right; rw [h2]

theorem search_nocut_le (cfg : Config) (k : Nat) :
    ∀ (p : Int) (n : Node) (b : ChessBroad),
      Node.search_nocut cfg k p n b = none ∨
      Node.search_nocut cfg k p n b = some (Node.search_nocut_tot cfg k p n b) := by
  induction k with
  | zero => intro p n b; right; rfl
  | succ k ih =>
    intro p n b
    rw [Node.search_nocut, Node.search_nocut_tot]
    rcases expand_le cfg n b (lower_bound_score cfg n.next_first) with h | h
    · left; rw [h]
    · rw [h]
      simp only []
      rcases search_loop_nocut_le _ _ (visit_child_le cfg (k + 1) _ _ ih) n.next_first
        n.get_chess
        (if n._edges.isEmpty then
          (Node.mk n._depth n._status (lower_bound_score cfg n.next_first) n._edges).find_childs_tot
            cfg b
          else Node.mk n._depth n._status (lower_bound_score cfg n.next_first) n._edges)._edges
        (lower_bound_score cfg n.next_first) b with h2 | h2
      · left; rw [h2]
      · right; rw [h2]

theorem find_best_step_nocut_le (cfg : Config) (n : Node) (b : ChessBroad) (depth_limit : Nat) :
    n.find_best_step_nocut cfg b depth_limit = none ∨
      n.find_best_step_nocut cfg b depth_limit =
        n.find_best_step_nocut_tot cfg b depth_limit := by
  unfold Node.find_best_step_nocut Node.find_best_step_nocut_tot
  rcases expand_le cfg n b (lower_bound_score cfg n.next_first) with h | h
  · left; rw [h]
  · rw [h]
    simp only []
    rcases find_best_step_loop_le _ _
      (visit_child_le cfg depth_limit _ _ (search_nocut_le cfg (depth_limit - 1))) n.get_chess
      (lower_bound_score cfg n.next_first)
      (if n._edges.isEmpty then
        (Node.mk n._depth n._status (lower_bound_score cfg n.next_first) n._edges).find_childs_tot
          cfg b
        else Node.mk n._depth n._status (lower_bound_score cfg n.next_first) n._edges)._edges
      b with h2 | h2
    · left; rw [h2]
    · right
      rw [h2]
      simp only []
      split <;> rename_i hm <;> simp only [hm]

/-- The children `find_childs` makes on an unexpanded node. -/
theorem unexpanded_edges (cfg : Config) (n : Node) (b : ChessBroad) (s : Int)
    (hn : n._edges = []) :
    (if n._edges.isEmpty then (Node.mk n._depth n._status s n._edges).find_childs_tot cfg b
      else Node.mk n._depth n._status s n._edges)._edges =
      (empty_cells cfg.size b).map fun q => (q, Node.new cfg n._depth) := by
  simp only [hn, List.isEmpty_nil, if_true, Node.find_childs_tot, Node.edges_mk, Node.depth_mk,
    List.nil_append]

/-- The visits of the new children of an unexpanded node by the search
without cutoff, under the depth bound. -/
theorem new_children_nocut_some (cfg : Config)
    (hev : ∀ b, cfg.second_win ≤ cfg.evaluate b ∧ cfg.evaluate b ≤ cfg.first_win) (k : Nat)
    (recurse : Int → Node → ChessBroad → Option (Node × ChessBroad))
    (hrec : ∀ (p : Int) (d : Nat) (b : ChessBroad),
      (d + 1) + (empty_cells cfg.size b).length ≤ cfg.size * cfg.size →
      recurse p (Node.new cfg d) b = some (Node.search_nocut_tot cfg k p (Node.new cfg d) b))
    (n : Node) (b : ChessBroad) (hD : n.depth_fits cfg b) :
    ∀ e ∈ (empty_cells cfg.size b).map fun q => (q, Node.new cfg n._depth),
      ∀ s1, visit_child cfg (k + 1) recurse s1 e.2 (b.emplace e.1 n.get_chess) =
          some (visit_child_tot cfg (k + 1) (Node.search_nocut_tot cfg k) s1 e.2
            (b.emplace e.1 n.get_chess)) ∧
        (visit_child_tot cfg (k + 1) (Node.search_nocut_tot cfg k) s1 e.2
          (b.emplace e.1 n.get_chess)).2.emplace e.1 Chess.empty = b := by
  intro e he s1
  obtain ⟨q, hq, rfl⟩ := List.mem_map.1 he
  have hfit := empty_cells_emplace cfg.size b q n.get_chess hq (get_chess_ne_empty n)
  unfold Node.depth_fits at hD
  have hfit2 : (n._depth + 1) + (empty_cells cfg.size (b.emplace q n.get_chess)).length ≤
      cfg.size * cfg.size := by omega
  refine ⟨visit_child_some cfg (k + 1) _ _ s1 _ _ (hrec s1 n._depth _ hfit2), ?_⟩
  simp only []
  rw [(visit_pair_any cfg hev n._depth k s1 s1 (b.emplace q n.get_chess)).2.1]
  exact emplace_restore b q n.get_chess ((mem_empty_cells _ _ _).1 hq).2

theorem search_nocut_some (cfg : Config)
    (hev : ∀ b, cfg.second_win ≤ cfg.evaluate b ∧ cfg.evaluate b ≤ cfg.first_win) (k : Nat) :
    ∀ (p : Int) (d : Nat) (b : ChessBroad),
      (d + 1) + (empty_cells cfg.size b).length ≤ cfg.size * cfg.size →
      Node.search_nocut cfg k p (Node.new cfg d) b =
        some (Node.search_nocut_tot cfg k p (Node.new cfg d) b) := by
  induction k with
  | zero => intro p d b _; rfl
  | succ k ih =>
    intro p d b hD
    have hfit : (Node.new cfg d).depth_fits cfg b := hD
    have hch := new_children_nocut_some cfg hev k (Node.search_nocut cfg k) ih (Node.new cfg d) b
      hfit
    rw [← unexpanded_edges cfg (Node.new cfg d) b
      (lower_bound_score cfg (Node.new cfg d).next_first) rfl] at hch
    rw [Node.search_nocut, Node.search_nocut_tot,
      expand_some cfg (Node.new cfg d) b _ (depth_fits_le cfg b _ hfit)]
    simp only []
    rw [search_loop_nocut_some _ (visit_child_tot cfg (k + 1) (Node.search_nocut_tot cfg k))
      (Node.new cfg d).next_first (Node.new cfg d).get_chess _
      (lower_bound_score cfg (Node.new cfg d).next_first) b hch]

theorem find_best_step_nocut_some (cfg : Config)
    (hev : ∀ b, cfg.second_win ≤ cfg.evaluate b ∧ cfg.evaluate b ≤ cfg.first_win) (k : Nat)
    (n : Node) (b : ChessBroad) (hn : n._edges = []) (hD : n.depth_fits cfg b) :
    n.find_best_step_nocut cfg b (k + 1) = n.find_best_step_nocut_tot cfg b (k + 1) := by
  have hch := new_children_nocut_some cfg hev k (Node.search_nocut cfg k)
    (search_nocut_some cfg hev k) n b hD
  rw [← unexpanded_edges cfg n b (lower_bound_score cfg n.next_first) hn] at hch
  unfold Node.find_best_step_nocut Node.find_best_step_nocut_tot
  rw [expand_some cfg n b (lower_bound_score cfg n.next_first) (depth_fits_le cfg b n hD)]
  simp only [Nat.add_sub_cancel]
  rw [find_best_step_loop_some _ (visit_child_tot cfg (k + 1) (Node.search_nocut_tot cfg k))
    n.get_chess (lower_bound_score cfg n.next_first) _ b
    (fun e he => hch e he (lower_bound_score cfg n.next_first))]
  simp only []
  split <;> rename_i hm <;> simp only [hm]

theorem visit_child_tr_erase (cfg : Config) (depth_limit : Nat)
    (recurse_tr : List Nat → Int → Node → ChessBroad → Option (Node × ChessBroad) × List Event)
    (recurse : Int → Node → ChessBroad → Option (Node × ChessBroad))
    (hrec : ∀ q p c b, (recurse_tr q p c b).1 = recurse p c b)
    (q : List Nat) (p : Int) (c : Node) (b : ChessBroad) :
    (visit_child_tr cfg depth_limit recurse_tr q p c b).1 =
      visit_child cfg depth_limit recurse p c b := by
  unfold visit_child_tr visit_child
  split
  · rfl
  · split
    · exact hrec q p c b
    · rfl

theorem search_loop_tr_erase
    (visit_tr : List Nat → Int → Node → ChessBroad → Option (Node × ChessBroad) × List Event)
    (visit : Int → Node → ChessBroad → Option (Node × ChessBroad))
    (hv : ∀ q s c b, (visit_tr q s c b).1 = visit s c b)
    (first : Bool) (chess : Chess) (p : Int) (path : List Nat) (es : List (Position × Node)) :
    ∀ (i : Nat) (s : Int) (b : ChessBroad),
      (search_loop_tr visit_tr first chess p path i es s b).1 =
        search_loop visit first chess p es s b := by
  induction es with
  | nil => intro i s b; rfl
  | cons e es ih =>
    intro i s b
    rw [search_loop_tr, search_loop, hv]
    cases hvis : visit s e.2 (b.emplace e.1 chess) with
    | none => rfl
    | some r =>
      simp only []
      split
      · rfl
      · simp only [ih]
        cases search_loop visit first chess p es (better_score first s r.1._score)
          (r.2.emplace e.1 Chess.empty) <;> rfl

theorem search_tr_erase (cfg : Config) (k : Nat) :
    ∀ (path : List Nat) (p : Int) (n : Node) (b : ChessBroad),
      (Node.search_tr cfg k path p n b).1 = Node.search cfg k p n b := by
  induction k with
  | zero => intro path p n b; rfl
  | succ k ih =>
    intro path p n b
    rw [Node.search_tr, Node.search]
    cases (if n._edges.isEmpty then
        (Node.mk n._depth n._status (lower_bound_score cfg n.next_first) n._edges).find_childs
          cfg b
      else some (Node.mk n._depth n._status (lower_bound_score cfg n.next_first) n._edges, b)) with
    | none => rfl
    | some n1 =>
      simp only []
      rw [search_loop_tr_erase _ (visit_child cfg (k + 1) (Node.search cfg k))
        (visit_child_tr_erase cfg (k + 1) _ _ ih)]
      cases search_loop (visit_child cfg (k + 1) (Node.search cfg k)) n.next_first n.get_chess p
        n1.1._edges (lower_bound_score cfg n.next_first) n1.2 <;> rfl

theorem find_best_step_loop_tr_erase
    (visit_tr : List Nat → Int → Node → ChessBroad → Option (Node × ChessBroad) × List Event)
    (visit : Int → Node → ChessBroad → Option (Node × ChessBroad))
    (hv : ∀ q s c b, (visit_tr q s c b).1 = visit s c b)
    (chess : Chess) (s : Int) (path : List Nat) (es : List (Position × Node)) :
    ∀ (i : Nat) (b : ChessBroad),
      (find_best_step_loop_tr visit_tr chess s path i es b).1 =
        find_best_step_loop visit chess s es b := by
  induction es with
  | nil => intro i b; rfl
  | cons e es ih =>
    intro i b
    rw [find_best_step_loop_tr, find_best_step_loop, hv]
    cases hvis : visit s e.2 (b.emplace e.1 chess) with
    | none => rfl
    | some r =>
      simp only [ih]
      cases find_best_step_loop visit chess s es (r.2.emplace e.1 Chess.empty) <;> rfl

theorem find_best_step_tr_erase (cfg : Config) (n : Node) (b : ChessBroad) (depth_limit : Nat) :
    (n.find_best_step_tr cfg b depth_limit).1 = n.find_best_step cfg b depth_limit := by
  unfold Node.find_best_step_tr Node.find_best_step
  cases (if n._edges.isEmpty then
      (Node.mk n._depth n._status (lower_bound_score cfg n.next_first) n._edges).find_childs
        cfg b
    else some (Node.mk n._depth n._status (lower_bound_score cfg n.next_first) n._edges, b)) with
  | none => rfl
  | some n1 =>
    simp only []
    rw [find_best_step_loop_tr_erase _
      (visit_child cfg depth_limit (Node.search cfg (depth_limit - 1)))
      (visit_child_tr_erase cfg depth_limit _ _ (search_tr_erase cfg (depth_limit - 1)))]
    cases find_best_step_loop (visit_child cfg depth_limit (Node.search cfg (depth_limit - 1)))
      n.get_chess (lower_bound_score cfg n.next_first) n1.1._edges n1.2 <;> rfl

theorem visit_child_tr_le (cfg : Config) (depth_limit : Nat)
    (recurse : List Nat → Int → Node → ChessBroad → Option (Node × ChessBroad) × List Event)
    (recurse_tot : List Nat → Int → Node → ChessBroad → (Node × ChessBroad) × List Event)
    (hrec : ∀ q p c b, TrLe (recurse q p c b) (recurse_tot q p c b))
    (q : List Nat) (p : Int) (c : Node) (b : ChessBroad) :
    TrLe (visit_child_tr cfg depth_limit recurse q p c b)
      (visit_child_tr_tot cfg depth_limit recurse_tot q p c b) := by
  unfold visit_child_tr visit_child_tr_tot
  by_cases h1 : depth_limit = 1
  · simp only [if_pos h1]
    exact Or.inl ⟨rfl, rfl⟩
  · simp only [if_neg h1]
    by_cases h2 : c._status ≠ Status.cut ∧ c._status ≠ Status.leaf
    · simp only [if_pos h2]
      rcases hrec q p c b with ⟨h3, h4⟩ | ⟨h3, h4⟩
      · exact Or.inl ⟨h3, by simp only [h4]⟩
      · exact Or.inr ⟨h3, (List.prefix_cons_inj _).2 h4⟩
    · simp only [if_neg h2]
      exact Or.inl ⟨rfl, rfl⟩

theorem search_loop_tr_le
    (visit : List Nat → Int → Node → ChessBroad → Option (Node × ChessBroad) × List Event)
    (visit_tot : List Nat → Int → Node → ChessBroad → (Node × ChessBroad) × List Event)
    (hv : ∀ q s c b, TrLe (visit q s c b) (visit_tot q s c b))
    (first : Bool) (chess : Chess) (p : Int) (path : List Nat) (es : List (Position × Node)) :
    ∀ (i : Nat) (s : Int) (b : ChessBroad),
      TrLe (search_loop_tr visit first chess p path i es s b)
        (search_loop_tr_tot visit_tot first chess p path i es s b) := by
  induction es with
  | nil => intro i s b; exact Or.inl ⟨rfl, rfl⟩
  | cons e es ih =>
    intro i s b
    rw [search_loop_tr, search_loop_tr_tot]
    rcases hv (path ++ [i]) s e.2 (b.emplace e.1 chess) with ⟨h1, h2⟩ | ⟨h1, h2⟩
    · rw [h1]
      simp only [h2]
      split
      · exact Or.inl ⟨rfl, rfl⟩
      · rcases ih (i + 1)
          (better_score first s (visit_tot (path ++ [i]) s e.2 (b.emplace e.1 chess)).1.1._score)
          ((visit_tot (path ++ [i]) s e.2 (b.emplace e.1 chess)).1.2.emplace e.1 Chess.empty)
          with ⟨h3, h4⟩ | ⟨h3, h4⟩
        · refine Or.inl ⟨?_, ?_⟩
          · simp only [h3, Option.map_some']
          · simp only [h4]
        · refine Or.inr ⟨?_, ?_⟩
          · simp only [h3, Option.map_none']
          · exact (List.prefix_append_right_inj _).2 h4
    · rw [h1]
      simp only []
      refine Or.inr ⟨rfl, ?_⟩
      split
      · exact h2
      · exact h2.trans (List.prefix_append _ _)

theorem search_tr_le (cfg : Config) (k : Nat) :
    ∀ (path : List Nat) (p : Int) (n : Node) (b : ChessBroad),
      TrLe (Node.search_tr cfg k path p n b) (Node.search_tr_tot cfg k path p n b) := by
  induction k with
  | zero => intro path p n b; exact Or.inl ⟨rfl, rfl⟩
  | succ k ih =>
    intro path p n b
    rw [Node.search_tr, Node.search_tr_tot]
    rcases expand_le cfg n b (lower_bound_score cfg n.next_first) with h | h
    · rw [h]
      simp only []
      exact Or.inr ⟨rfl, (List.prefix_cons_inj _).2 List.nil_prefix⟩
    · rw [h]
      simp only []
      rcases search_loop_tr_le _ _ (visit_child_tr_le cfg (k + 1) _ _ ih) n.next_first
        n.get_chess p path
        (if n._edges.isEmpty then
          (Node.mk n._depth n._status (lower_bound_score cfg n.next_first) n._edges).find_childs_tot
            cfg b
          else Node.mk n._depth n._status (lower_bound_score cfg n.next_first) n._edges)._edges
        0 (lower_bound_score cfg n.next_first) b with ⟨h3, h4⟩ | ⟨h3, h4⟩
      · refine Or.inl ⟨?_, ?_⟩
        · simp only [h3, Option.map_some']
        · simp only [h4]
      · refine Or.inr ⟨?_, ?_⟩
        · simp only [h3, Option.map_none']
        · exact (List.prefix_cons_inj _).2 h4

theorem find_best_step_loop_tr_le
    (visit : List Nat → Int → Node → ChessBroad → Option (Node × ChessBroad) × List Event)
    (visit_tot : List Nat → Int → Node → ChessBroad → (Node × ChessBroad) × List Event)
    (hv : ∀ q s c b, TrLe (visit q s c b) (visit_tot q s c b))
    (chess : Chess) (s : Int) (path : List Nat) (es : List (Position × Node)) :
    ∀ (i : Nat) (b : ChessBroad),
      TrLe (find_best_step_loop_tr visit chess s path i es b)
        (find_best_step_loop_tr_tot visit_tot chess s path i es b) := by
  induction es with
  | nil => intro i b; exact Or.inl ⟨rfl, rfl⟩
  | cons e es ih =>
    intro i b
    rw [find_best_step_loop_tr, find_best_step_loop_tr_tot]
    rcases hv (path ++ [i]) s e.2 (b.emplace e.1 chess) with ⟨h1, h2⟩ | ⟨h1, h2⟩
    · rw [h1]
      simp only [h2]
      rcases ih (i + 1)
        ((visit_tot (path ++ [i]) s e.2 (b.emplace e.1 chess)).1.2.emplace e.1 Chess.empty)
        with ⟨h3, h4⟩ | ⟨h3, h4⟩
      · refine Or.inl ⟨?_, ?_⟩
        · simp only [h3, Option.map_some']
        · simp only [h4]
      · refine Or.inr ⟨?_, ?_⟩
        · simp only [h3, Option.map_none']
        · exact (List.prefix_append_right_inj _).2 h4
    · rw [h1]
      simp only []
      exact Or.inr ⟨rfl, h2.trans (List.prefix_append _ _)⟩

/-- The recorded `find_best_step` against its total form. -/
theorem find_best_step_tr_le (cfg : Config) (n : Node) (b : ChessBroad) (depth_limit : Nat) :
    n.find_best_step_tr cfg b depth_limit = n.find_best_step_tr_tot cfg b depth_limit ∨
    ((n.find_best_step_tr cfg b depth_limit).1 = none ∧
      (n.find_best_step_tr cfg b depth_limit).2 <+:
        (n.find_best_step_tr_tot cfg b depth_limit).2) := by
  unfold Node.find_best_step_tr Node.find_best_step_tr_tot
  rcases expand_le cfg n b (lower_bound_score cfg n.next_first) with h | h
  · rw [h]
    exact Or.inr ⟨rfl, (List.prefix_cons_inj _).2 List.nil_prefix⟩
  · rw [h]
    simp only []
    rcases find_best_step_loop_tr_le _ _
      (visit_child_tr_le cfg depth_limit _ _ (search_tr_le cfg (depth_limit - 1))) n.get_chess
      (lower_bound_score cfg n.next_first) []
      (if n._edges.isEmpty then
        (Node.mk n._depth n._status (lower_bound_score cfg n.next_first) n._edges).find_childs_tot
          cfg b
        else Node.mk n._depth n._status (lower_bound_score cfg n.next_first) n._edges)._edges
      0 b with ⟨h3, h4⟩ | ⟨h3, h4⟩
    · left
      simp only [h3, h4, Option.some_bind]
      congr 1
      split <;> rename_i hm <;> simp only [hm]
    · right
      refine ⟨?_, ?_⟩
      · simp only [h3, Option.none_bind]
      · exact (List.prefix_cons_inj _).2 h4

/-- C2, as the code has it: among children that end the call with the same
best score `find_best_step` returns the last one in stored order (every later
edge has a different, worse score), the largest (row, column) when the edges
ascend; the call returns when the cached subtree below the node agrees with
the board and the node is not deeper than the number of stones on the grid;
in particular, on an empty board with an evaluator that returns 0 for every
board and sentinels `second_win < 0 < first_win`, `decide` on a new tree
returns the last cell `(size - 1, size - 1)`. -/
theorem find_best_step_last_best (cfg : Config) :
    (∀ (n : Node) (broad : ChessBroad) (depth_limit : Nat), 1 ≤ depth_limit →
      (∃ p, in_range cfg p ∧ broad.get p = Chess.empty) →
      (∀ (pos : Position) (n1 : Node) (broad1 : ChessBroad),
        n.find_best_step cfg broad depth_limit = some (pos, n1, broad1) →
        ∃ (i : Nat) (child : Node), n1._edges[i]? = some (pos, child) ∧
          (∀ e ∈ n1._edges, (n._depth % 2 = 0 → e.2._score ≤ child._score) ∧
            (n._depth % 2 ≠ 0 → child._score ≤ e.2._score)) ∧
          (∀ (j : Nat) (e : Position × Node), i < j → n1._edges[j]? = some e →
            e.2._score ≠ child._score)) ∧
      (Node.Inv cfg depth_limit broad n → n.depth_fits cfg broad →
        ∃ (pos : Position) (n1 : Node) (broad1 : ChessBroad),
          n.find_best_step cfg broad depth_limit = some (pos, n1, broad1))) ∧
    ((∀ b, cfg.evaluate b = 0) → cfg.second_win < 0 → 0 < cfg.first_win → 1 ≤ cfg.size →
      ((GomokuTree.new cfg).decide cfg).map Prod.fst =
        some ⟨(cfg.size : Int) - 1, (cfg.size : Int) - 1⟩) := by
  obtain ⟨hA, hB⟩ := find_best_step_last_best_tot cfg
  constructor
  · intro n broad depth_limit hd hempty
    obtain ⟨pos0, m, b0, i, child, h1, h2, h3, h4⟩ := hA n broad depth_limit hd hempty
    constructor
    · intro pos n1 broad1 hf
      have h := find_best_step_of_some cfg n broad depth_limit _ hf
      rw [h1] at h
      simp only [Option.some.injEq, Prod.mk.injEq] at h
      obtain ⟨rfl, rfl, rfl⟩ := h
      exact ⟨i, child, h2, h3, h4⟩
    · intro hI hD
      obtain ⟨k, rfl⟩ : ∃ k, depth_limit = k + 1 := ⟨depth_limit - 1, by omega⟩
      rw [find_best_step_some cfg k n broad hI hD]
      exact ⟨pos0, m, b0, h1⟩
  · intro h1 h2 h3 h4
    rw [decide_some cfg [] _ Reachable.new]
    exact hB h1 h2 h3 h4

/-- Instance of C2's amended statement: the 5 x 5 grid, evaluator 0:
`decide` on a new tree returns (4,4). -/
theorem find_best_step_last_best_witness :
    ((GomokuTree.new cfg_flat5).decide cfg_flat5).map Prod.fst =
      some ⟨(cfg_flat5.size : Int) - 1, (cfg_flat5.size : Int) - 1⟩ :=
  (find_best_step_last_best cfg_flat5).2 (fun _ => rfl) (by decide) (by decide) (by decide)

set_option maxRecDepth 100000 in
/-- C2 fails on the code: on the empty 5 x 5 board with the evaluator that
returns 0 for every board all 25 children of the root end with score 0, and
`decide` on a new tree returns (4,4), not (0,0). -/
theorem tie_break_counterexample :
    ((GomokuTree.new cfg_flat5).decide cfg_flat5).map
        (fun r => r.2._root._edges.map fun e => e.2._score) = some (List.replicate 25 0) ∧
    ((GomokuTree.new cfg_flat5).decide cfg_flat5).map Prod.fst = some ⟨4, 4⟩ ∧
    ((GomokuTree.new cfg_flat5).decide cfg_flat5).map Prod.fst ≠ some ⟨0, 0⟩ := by
  decide

/-- C3: in every state reached from a new tree by `update` calls with legal
moves and `decide` calls, if the board mirror has an empty in-range cell then
`decide` returns a position that is an empty in-range cell of the board mirror
(before the call and after it). -/
theorem decide_returns_empty_cell (cfg : Config) (ms : List Position) (t : GomokuTree)
    (hreach : Reachable cfg ms t)
    (hempty : ∃ p, in_range cfg p ∧ t._broad.get p = Chess.empty) :
    ∃ pos t1, t.decide cfg = some (pos, t1) ∧ in_range cfg pos ∧
      t._broad.get pos = Chess.empty ∧ t1._broad.get pos = Chess.empty := by
  rw [decide_some cfg ms t hreach]
  exact decide_returns_empty_cell_tot cfg ms t (reachable_tot cfg ms t hreach) hempty

theorem flat_new_legal : (GomokuTree.new cfg_flat).legal cfg_flat ⟨1, 1⟩ :=
  ⟨by unfold in_range; decide, rfl⟩

theorem flat_moved_eq : (GomokuTree.new cfg_flat).update cfg_flat ⟨1, 1⟩ = some flat_moved := rfl

theorem flat_moved_reachable : Reachable cfg_flat ([] ++ [⟨1, 1⟩]) flat_moved :=
  Reachable.update Reachable.new flat_new_legal flat_moved_eq

set_option maxRecDepth 100000 in
theorem flat_decided_eq : flat_moved.decide cfg_flat = some (⟨2, 2⟩, flat_decided) := by
  have h : (flat_moved.decide cfg_flat).map Prod.fst = some ⟨2, 2⟩ := by decide
  unfold flat_decided
  cases hg : flat_moved.decide cfg_flat with
  | none => rw [hg] at h; simp at h
  | some r =>
    rw [hg] at h
    simp only [Option.map_some', Option.some.injEq] at h
    simp only [← h]

theorem flat_decided_reachable : Reachable cfg_flat ([] ++ [⟨1, 1⟩]) flat_decided :=
  Reachable.decide flat_moved_reachable flat_decided_eq

set_option maxRecDepth 100000 in
theorem flat_decided_legal : flat_decided.legal cfg_flat ⟨2, 2⟩ := by
  have h := (decide_returns_empty_cell_tot cfg_flat _ flat_moved
    (reachable_tot _ _ _ flat_moved_reachable) ⟨⟨0, 0⟩, by unfold in_range; decide, rfl⟩)
  obtain ⟨pos, t1, h1, h2, _, h4⟩ := h
  rw [← decide_some cfg_flat _ _ flat_moved_reachable, flat_decided_eq] at h1
  simp only [Option.some.injEq, Prod.mk.injEq] at h1
  obtain ⟨rfl, rfl⟩ := h1
  exact ⟨h2, h4⟩

set_option maxRecDepth 100000 in
theorem flat_replied_eq : flat_decided.update cfg_flat ⟨2, 2⟩ = some flat_replied := by
  have h : (flat_decided.update cfg_flat ⟨2, 2⟩).isSome = true := by decide
  unfold flat_replied
  cases hg : flat_decided.update cfg_flat ⟨2, 2⟩ with
  | none => rw [hg] at h; simp at h
  | some r => rfl

theorem flat_replied_reachable :
    Reachable cfg_flat (([] ++ [⟨1, 1⟩]) ++ [⟨2, 2⟩]) flat_replied :=
  Reachable.update flat_decided_reachable flat_decided_legal flat_replied_eq

set_option maxRecDepth 100000 in
/-- Instance of C3: the state after `update((1,1))` on a new tree of the 3 x 3
grid: (1,1) holds a stone, and `decide` returns an empty cell. -/
theorem decide_returns_empty_cell_witness :
    flat_moved._broad.get ⟨1, 1⟩ = Chess.first_player ∧
    ∃ pos t1, flat_moved.decide cfg_flat = some (pos, t1) ∧ in_range cfg_flat pos ∧
      flat_moved._broad.get pos = Chess.empty ∧ t1._broad.get pos = Chess.empty :=
  ⟨by decide, decide_returns_empty_cell cfg_flat ([] ++ [⟨1, 1⟩]) flat_moved flat_moved_reachable
    ⟨⟨0, 0⟩, by unfold in_range; decide, by decide⟩⟩

theorem cfg_corner_in_range (b : ChessBroad) :
    cfg_corner.second_win ≤ cfg_corner.evaluate b ∧
      cfg_corner.evaluate b ≤ cfg_corner.first_win := by
  show (-1000 : Int) ≤ (if b ⟨0, 0⟩ = Chess.second_player then -1000 else 0) ∧
    (if b ⟨0, 0⟩ = Chess.second_player then (-1000 : Int) else 0) ≤ 1000
  split <;> decide

/-- C4: for every board, every depth limit >= 1 and every evaluator whose
values all lie between `second_win` and `first_win`, whenever `find_best_step`
on an unexpanded node and the variant of the same code whose `search` has no
cutoff test both return, they return the same position; when the node is not
deeper than the number of stones on the grid neither meets an exception, the
two calls return the same position (both return nothing when the board has no
empty cell), and they do return a position when the board has an empty
in-range cell. -/
theorem pruning_sound (cfg : Config) (n : Node) (broad : ChessBroad) (depth_limit : Nat)
    (hd : 1 ≤ depth_limit) (hn : n._edges = [])
    (hev : ∀ b, cfg.second_win ≤ cfg.evaluate b ∧ cfg.evaluate b ≤ cfg.first_win) :
    (∀ (r r1 : Position × Node × ChessBroad),
      n.find_best_step cfg broad depth_limit = some r →
      n.find_best_step_nocut cfg broad depth_limit = some r1 → r.1 = r1.1) ∧
    (n.depth_fits cfg broad →
      (n.find_best_step cfg broad depth_limit).map Prod.fst =
        (n.find_best_step_nocut cfg broad depth_limit).map Prod.fst ∧
      ((∃ p, in_range cfg p ∧ broad.get p = Chess.empty) →
        (n.find_best_step cfg broad depth_limit).isSome = true ∧
        (n.find_best_step_nocut cfg broad depth_limit).isSome = true)) := by
  obtain ⟨h1, h2⟩ := pruning_sound_tot cfg n broad depth_limit hd hn hev
  constructor
  · intro r r1 hr hr1
    have ha := find_best_step_of_some cfg n broad depth_limit r hr
    have hb : n.find_best_step_nocut_tot cfg broad depth_limit = some r1 := by
      rcases find_best_step_nocut_le cfg n broad depth_limit with h | h
      · rw [h] at hr1; cases hr1
      · rw [← h]; exact hr1
    rw [ha, hb] at h1
    simpa using h1
  · intro hD
    obtain ⟨k, rfl⟩ : ∃ k, depth_limit = k + 1 := ⟨depth_limit - 1, by omega⟩
    rw [find_best_step_some cfg k n broad (Inv_of_unexpanded cfg (k + 1) broad n hn) hD,
      find_best_step_nocut_some cfg hev k n broad hn hD]
    refine ⟨h1, fun hempty => ⟨h2 hempty, ?_⟩⟩
    have h3 := h2 hempty
    cases hf : n.find_best_step_tot cfg broad (k + 1) with
    | none => rw [hf] at h3; simp at h3
    | some r =>
      rw [hf] at h1
      cases hg : n.find_best_step_nocut_tot cfg broad (k + 1) with
      | none => rw [hg] at h1; simp at h1
      | some r1 => rfl

set_option maxRecDepth 100000 in
/-- Instance of C4: the root of a new tree on the empty 3 x 3 board with the
evaluator `cfg_corner`, depth limit 2.  The search of every first move but
(0,0) ends by the cutoff (status `cut`); the call returns (0,0), as does the
variant without the cutoff test. -/
theorem pruning_sound_witness :
    ((Node.root cfg_corner).find_best_step cfg_corner ChessBroad.init 2).map
        (fun r => (r.1, r.2.1._edges.map fun e => e.2._status)) =
      some (⟨0, 0⟩, [Status.normal, Status.cut, Status.cut, Status.cut, Status.cut, Status.cut,
        Status.cut, Status.cut, Status.cut]) ∧
    ((Node.root cfg_corner).find_best_step cfg_corner ChessBroad.init 2).map Prod.fst =
      ((Node.root cfg_corner).find_best_step_nocut cfg_corner ChessBroad.init 2).map Prod.fst ∧
    ((∃ p, in_range cfg_corner p ∧ ChessBroad.init.get p = Chess.empty) →
      ((Node.root cfg_corner).find_best_step cfg_corner ChessBroad.init 2).isSome = true ∧
      ((Node.root cfg_corner).find_best_step_nocut cfg_corner ChessBroad.init 2).isSome = true) :=
  ⟨by decide, (pruning_sound cfg_corner (Node.root cfg_corner) ChessBroad.init 2 (by decide) rfl
    cfg_corner_in_range).2 (show 0 + (empty_cells 3 ChessBroad.init).length ≤ 3 * 3 by decide)⟩

/-- C5, as the code has it: for every board, every depth limit >= 1 and every
unexpanded node, whatever `find_best_step` returns it leaves the board equal to
the board it was given, and it does return when the node is not deeper than
the number of stones on the grid and the board has an empty in-range cell; and
in every reachable state of the tree `decide` leaves the board mirror unchanged
(and returns when the mirror has an empty in-range cell).  (On a deeper node
the `reserve` of `find_childs` throws while a stone of the search is on the
board.) -/
theorem find_best_step_restores_board (cfg : Config) :
    (∀ (n : Node) (broad : ChessBroad) (depth_limit : Nat), 1 ≤ depth_limit → n._edges = [] →
      (∀ pos n1 broad1, n.find_best_step cfg broad depth_limit = some (pos, n1, broad1) →
        broad1 = broad) ∧
      (n.depth_fits cfg broad → (∃ p, in_range cfg p ∧ broad.get p = Chess.empty) →
        ∃ pos n1, n.find_best_step cfg broad depth_limit = some (pos, n1, broad))) ∧
    (∀ (ms : List Position) (t : GomokuTree), Reachable cfg ms t →
      (∀ pos t1, t.decide cfg = some (pos, t1) → t1._broad = t._broad) ∧
      ((∃ p, in_range cfg p ∧ t._broad.get p = Chess.empty) →
        ∃ pos t1, t.decide cfg = some (pos, t1) ∧ t1._broad = t._broad)) := by
  obtain ⟨hA, hB⟩ := find_best_step_restores_board_tot cfg
  constructor
  · intro n broad depth_limit hd hn
    obtain ⟨h1, h2⟩ := hA n broad depth_limit hd hn
    constructor
    · intro pos n1 broad1 hf
      exact h1 pos n1 broad1 (find_best_step_of_some cfg n broad depth_limit _ hf)
    · intro hD hempty
      obtain ⟨k, rfl⟩ : ∃ k, depth_limit = k + 1 := ⟨depth_limit - 1, by omega⟩
      rw [find_best_step_some cfg k n broad (Inv_of_unexpanded cfg (k + 1) broad n hn) hD]
      exact h2 hempty
  · intro ms t hr
    obtain ⟨h1, h2⟩ := hB ms t (reachable_tot cfg ms t hr)
    rw [decide_some cfg ms t hr]
    exact ⟨h1, h2⟩

set_option maxRecDepth 100000 in
/-- Instance of C5's amended statement: the root of a new tree on the empty
3 x 3 board with the evaluator `cfg_corner`, depth limit 2: eight of the nine
searches below the root end early by the cutoff, and the call returns with the
board it was given. -/
theorem find_best_step_restores_board_witness :
    ((Node.root cfg_corner).find_best_step cfg_corner ChessBroad.init 2).map
        (fun r => (r.2.1._edges.filter fun e => e.2._status = Status.cut).length) = some 8 ∧
    ∃ pos n1, (Node.root cfg_corner).find_best_step cfg_corner ChessBroad.init 2 =
      some (pos, n1, ChessBroad.init) :=
  ⟨by decide, ((find_best_step_restores_board cfg_corner).1 (Node.root cfg_corner)
    ChessBroad.init 2 (by decide) rfl).2
    (show 0 + (empty_cells 3 ChessBroad.init).length ≤ 3 * 3 by decide)
    ⟨⟨0, 0⟩, by unfold in_range; decide, rfl⟩⟩

set_option maxRecDepth 100000 in
/-- C5 fails on the code: after nine calls `update((0,0))` on a new tree of the
3 x 3 grid the current node is unexpanded and has depth 9, and the board has
eight empty cells; `find_best_step` on that node and board with depth limit 2
does not return (the `reserve` in the `find_childs` of a child of depth 10
throws), so it neither returns a position nor hands the board back. -/
theorem board_not_restored_counterexample :
    (flat_deep.bind fun t => (t._root.getAt t._current).map fun cur =>
      (cur._depth, cur._edges.length)) = some (9, 0) ∧
    (flat_deep.map fun t => (empty_cells cfg_flat.size t._broad).length) = some 8 ∧
    (flat_deep.bind fun t => (t._root.getAt t._current).map fun cur =>
      (cur.find_best_step cfg_flat t._broad 2).isSome) = some false := by
  decide

/-- C7: in every state reached from a new tree by `k` `update` calls with
legal moves, `decide` calls interleaved anywhere, the current node has depth
`k` and is the node reached from the root along the edges whose positions are
the `k` moves, in order; in particular after `update(A)`, `B = decide()`,
`update(B)` the current node is the child for `B` of the root's child for `A`,
at depth 2. -/
theorem current_tracks_moves (cfg : Config) :
    (∀ (ms : List Position) (t : GomokuTree), Reachable cfg ms t →
      ∃ cur, t._root.getAt t._current = some cur ∧ cur._depth = ms.length ∧
        t._root.pathMoves t._current = some ms) ∧
    (∀ (A : Position), (GomokuTree.new cfg).legal cfg A →
      ∃ t1, (GomokuTree.new cfg).update cfg A = some t1 ∧
        ∀ (B : Position) (t2 : GomokuTree), t1.decide cfg = some (B, t2) →
          ∃ t3 iA iB eA eB, t2.update cfg B = some t3 ∧ t3._current = [iA, iB] ∧
            t3._root._edges[iA]? = some eA ∧ eA.1 = A ∧
            eA.2._edges[iB]? = some eB ∧ eB.1 = B ∧
            t3._root.getAt t3._current = some eB.2 ∧ eB.2._depth = 2) := by
  obtain ⟨hA, hB⟩ := current_tracks_moves_tot cfg
  constructor
  · intro ms t hr
    exact hA ms t (reachable_tot cfg ms t hr)
  · intro A hleg
    obtain ⟨t1, hu, h⟩ := hB A hleg
    exact ⟨t1, hu, fun B t2 hd => h B t2 (decide_of_some cfg t1 _ hd)⟩

/-- Instance of C7: on the 3 x 3 grid, `update((1,1))`, `decide()`, which
returns (2,2), and `update((2,2))`: the current node has depth 2 and lies on
the path of the moves (1,1), (2,2); it is the child for (2,2) of the root's
child for (1,1). -/
theorem current_tracks_moves_witness :
    (∃ cur, flat_replied._root.getAt flat_replied._current = some cur ∧
      cur._depth = (([] ++ [(⟨1, 1⟩ : Position)]) ++ [(⟨2, 2⟩ : Position)]).length ∧
      flat_replied._root.pathMoves flat_replied._current =
        some (([] ++ [(⟨1, 1⟩ : Position)]) ++ [(⟨2, 2⟩ : Position)])) ∧
    (∃ (t3 : GomokuTree) (iA iB : Nat) (eA eB : Position × Node),
      flat_decided.update cfg_flat ⟨2, 2⟩ = some t3 ∧ t3._current = [iA, iB] ∧
      t3._root._edges[iA]? = some eA ∧ eA.1 = ⟨1, 1⟩ ∧
      eA.2._edges[iB]? = some eB ∧ eB.1 = ⟨2, 2⟩ ∧
      t3._root.getAt t3._current = some eB.2 ∧ eB.2._depth = 2) := by
  refine ⟨(current_tracks_moves cfg_flat).1 _ flat_replied flat_replied_reachable, ?_⟩
  obtain ⟨t1, hu, h⟩ := (current_tracks_moves cfg_flat).2 (⟨1, 1⟩ : Position) flat_new_legal
  rw [flat_moved_eq] at hu
  simp only [Option.some.injEq] at hu
  subst hu
  exact h (⟨2, 2⟩ : Position) flat_decided flat_decided_eq

/-- C9, as the code has it: on a new tree (grid side at least 3, sentinels
`second_win < 0 < first_win`) with an evaluator that returns the first-win
sentinel for every board holding a first-player stone at (2,2) and 0 for every
other board, `decide` returns (2,2); after the call the root's child for (2,2)
has status `normal` and score `first_win`, and it is the children of that child
(the replies, evaluated at the horizon of depth limit 2) that have status
`leaf`. -/
theorem decide_immediate_win (cfg : Config)
    (hev : ∀ b, cfg.evaluate b =
      if b ⟨2, 2⟩ = Chess.first_player then cfg.first_win else 0)
    (hsw : cfg.second_win < 0) (hfw : 0 < cfg.first_win) (hsize : 3 ≤ cfg.size) :
    ∃ (t1 : GomokuTree) (i : Nat) (child : Node),
      (GomokuTree.new cfg).decide cfg = some (⟨2, 2⟩, t1) ∧
      t1._root._edges[i]? = some (⟨2, 2⟩, child) ∧
      child._status = Status.normal ∧ child._score = cfg.first_win ∧
      child._edges ≠ [] ∧ ∀ g ∈ child._edges, g.2._status = Status.leaf := by
  rw [decide_some cfg [] _ Reachable.new]
  exact decide_immediate_win_tot cfg hev hsw hfw hsize

/-- Instance of C9's amended statement: the 5 x 5 grid with sentinels 1000 and -1000. -/
theorem decide_immediate_win_witness :
    ∃ (t1 : GomokuTree) (i : Nat) (child : Node),
      (GomokuTree.new cfg_win5).decide cfg_win5 = some (⟨2, 2⟩, t1) ∧
      t1._root._edges[i]? = some (⟨2, 2⟩, child) ∧
      child._status = Status.normal ∧ child._score = cfg_win5.first_win ∧
      child._edges ≠ [] ∧ ∀ g ∈ child._edges, g.2._status = Status.leaf :=
  decide_immediate_win cfg_win5 (fun _ => rfl) (by decide) (by decide) (by decide)

set_option maxRecDepth 100000 in
/-- C9 fails on the code: on the 5 x 5 grid with the evaluator of the
scenario `decide` returns (2,2), but after the call the root's child for (2,2)
has status `normal`, not `leaf`. -/
theorem immediate_win_counterexample :
    ((GomokuTree.new cfg_win5).decide cfg_win5).map
      (fun r => (r.1, (r.2._root._edges.filter fun e => e.1 = ⟨2, 2⟩).map fun e => e.2._status))
      = some (⟨2, 2⟩, [Status.normal]) := by
  decide

set_option maxRecDepth 100000 in
theorem win3_reachable : Reachable cfg_win3 [] win3_state := by
  have h : ((GomokuTree.new cfg_win3).decide cfg_win3).isSome = true := by decide
  cases hg : (GomokuTree.new cfg_win3).decide cfg_win3 with
  | none => rw [hg] at h; simp at h
  | some r =>
    have hs : win3_state = r.2 := by
      unfold win3_state
      rw [hg]
    rw [hs]
    exact Reachable.decide Reachable.new hg

set_option maxRecDepth 100000 in
theorem win3_leaf_at : win3_state._root.getAt [8, 0] = some win3_leaf := by
  have h : (win3_state._root.getAt [8, 0]).isSome = true := by decide
  unfold win3_leaf
  cases hg : win3_state._root.getAt [8, 0] with
  | none => rw [hg] at h; simp at h
  | some n => rfl

/-- C10, as the code has it: in every reachable state, a node with status
`leaf` that is not the current node keeps its status, its score and the
positions of its edges through a `decide` call and through an `update` call
with a legal move; and as long as the node lies strictly below the current
node its score is a win sentinel and its edge collection is empty.  (A call
issued while the terminal node is the current node is not covered.) -/
theorem terminal_closed_unless_current (cfg : Config) (ms : List Position) (t : GomokuTree)
    (hreach : Reachable cfg ms t) (q : List Nat) (L : Node)
    (hL : t._root.getAt q = some L) (hleaf : L._status = Status.leaf)
    (hq : q ≠ t._current) :
    (∀ (pos : Position) (t1 : GomokuTree), t.decide cfg = some (pos, t1) →
      ∃ L1, t1._root.getAt q = some L1 ∧ L1._status = Status.leaf ∧ L1._score = L._score ∧
        L1._edges.map Prod.fst = L._edges.map Prod.fst) ∧
    (∀ (p : Position) (t1 : GomokuTree), t.legal cfg p → t.update cfg p = some t1 →
      ∃ L1, t1._root.getAt q = some L1 ∧ L1._status = Status.leaf ∧ L1._score = L._score ∧
        L1._edges.map Prod.fst = L._edges.map Prod.fst) ∧
    (∀ (r : List Nat), r ≠ [] → q = t._current ++ r →
      (L._score = cfg.first_win ∨ L._score = cfg.second_win) ∧ L._edges = []) := by
  obtain ⟨h1, h2, h3⟩ := terminal_closed_unless_current_tot cfg ms t
    (reachable_tot cfg ms t hreach) q L hL hleaf hq
  exact ⟨fun pos t1 hd => h1 pos t1 (decide_of_some cfg t _ hd), h2, h3⟩

set_option maxRecDepth 100000 in
/-- Instance of C10's amended statement: after `decide` on a new tree of
`cfg_win3`, the first reply below the root's child for (2,2) is terminal and
not current. -/
theorem terminal_closed_unless_current_witness :
    (∀ (pos : Position) (t1 : GomokuTree), win3_state.decide cfg_win3 = some (pos, t1) →
      ∃ L1, t1._root.getAt [8, 0] = some L1 ∧ L1._status = Status.leaf ∧
        L1._score = win3_leaf._score ∧
        L1._edges.map Prod.fst = win3_leaf._edges.map Prod.fst) ∧
    (∀ (p : Position) (t1 : GomokuTree), win3_state.legal cfg_win3 p →
      win3_state.update cfg_win3 p = some t1 →
      ∃ L1, t1._root.getAt [8, 0] = some L1 ∧ L1._status = Status.leaf ∧
        L1._score = win3_leaf._score ∧
        L1._edges.map Prod.fst = win3_leaf._edges.map Prod.fst) ∧
    (∀ (r : List Nat), r ≠ [] → [8, 0] = win3_state._current ++ r →
      (win3_leaf._score = cfg_win3.first_win ∨ win3_leaf._score = cfg_win3.second_win) ∧
        win3_leaf._edges = []) :=
  terminal_closed_unless_current cfg_win3 [] win3_state win3_reachable [8, 0] win3_leaf
    win3_leaf_at (by decide) (by decide)

set_option maxRecDepth 100000 in
/-- C10 fails on the code.  With the evaluator of the immediate-win scenario
on the 3 x 3 grid, after `decide`, `update(2,2)`, `update(0,0)` (both moves
legal) the current node is terminal: status `leaf`, score `first_win`, no
edges.  A further `decide` leaves that node with status `normal`, score
`second_win` and 7 edges; a further `update(1,1)` instead leaves it with one
edge. -/
theorem terminal_reopened_counterexample :
    (win3_at_leaf.bind fun t => (t._root.getAt t._current).map fun n =>
      (n._status, n._score, n._edges.length)) = some (Status.leaf, 1000, 0) ∧
    (win3_at_leaf.bind fun t => (t.decide cfg_win3).bind fun r =>
      (r.2._root.getAt t._current).map fun n => (n._status, n._score, n._edges.length))
      = some (Status.normal, -1000, 7) ∧
    (win3_at_leaf.bind fun t => (t.update cfg_win3 ⟨1, 1⟩).bind fun t1 =>
      (t1._root.getAt t._current).map fun n => (n._status, n._score, n._edges.length))
      = some (Status.leaf, 1000, 1) := by
  decide

theorem get_pos_unfold (cfg : Config) (pl : ComputerPlayer) (current : ChessBroad)
    (last : Position) :
    pl.get_pos cfg current last =
      ((if pl._is_first then some pl._tree else pl._tree.update cfg last).bind fun t1 =>
        (t1.decide cfg).bind fun r =>
          (r.2.update cfg r.1).map fun t3 => (r.1, (⟨false, t3⟩ : ComputerPlayer))) := by
  unfold ComputerPlayer.get_pos
  cases hf : pl._is_first
  · simp only [Bool.not_false, if_true, Bool.false_eq_true, if_false]
    cases hu : pl._tree.update cfg last with
    | none => rfl
    | some t1 =>
      simp only [Option.some_bind]
      cases hd : t1.decide cfg with
      | none => rfl
      | some r =>
        obtain ⟨pos, t2⟩ := r
        simp only [Option.some_bind]
        cases hu2 : t2.update cfg pos <;> rfl
  · simp only [Bool.not_true, Bool.false_eq_true, if_false, if_true, Option.some_bind]
    cases hd : pl._tree.decide cfg with
    | none => rfl
    | some r =>
      obtain ⟨pos, t2⟩ := r
      simp only [Option.some_bind]
      cases hu2 : t2.update cfg pos <;> rfl

/-- A call of `get_pos` that returns is a call of the total form with the
same result. -/
theorem get_pos_of_some (cfg : Config) (pl : ComputerPlayer) (current : ChessBroad)
    (last : Position) (r : Position × ComputerPlayer)
    (h : pl.get_pos cfg current last = some r) : pl.get_pos_tot cfg current last = some r := by
  rw [get_pos_unfold] at h
  rw [get_pos_eq]
  cases ht : (if pl._is_first then some pl._tree else pl._tree.update cfg last) with
  | none => rw [ht] at h; simp at h
  | some t1 =>
    rw [ht] at h
    simp only [Option.some_bind] at h ⊢
    cases hd : t1.decide cfg with
    | none => rw [hd] at h; simp at h
    | some r1 =>
      rw [hd] at h
      rw [decide_of_some cfg t1 r1 hd]
      exact h

theorem player_reach_tot (cfg : Config) (f : Bool) (k : Nat) (pl : ComputerPlayer)
    (h : PlayerReach cfg f k pl) : PlayerReach_tot cfg f k pl := by
  induction h with
  | new => exact PlayerReach_tot.new
  | get_pos _ hleg hg ih => exact PlayerReach_tot.get_pos ih hleg (get_pos_of_some cfg _ _ _ _ hg)

/-- In the players reached by legal opponent moves `get_pos` meets no
exception. -/
theorem get_pos_some (cfg : Config) (f : Bool) (k : Nat) (pl : ComputerPlayer)
    (h : PlayerReach cfg f k pl) (current : ChessBroad) (last : Position)
    (hleg : pl._is_first = false → pl._tree.legal cfg last) :
    pl.get_pos cfg current last = pl.get_pos_tot cfg current last := by
  obtain ⟨ms, hr, _, _⟩ := player_reach_inv cfg f k pl (player_reach_tot cfg f k pl h)
  have hr1 := reachable_of_tot cfg ms _ hr
  rw [get_pos_unfold, get_pos_eq]
  cases hf : pl._is_first
  · simp only [Bool.false_eq_true, if_false]
    cases hu : pl._tree.update cfg last with
    | none => rfl
    | some t1 =>
      simp only [Option.some_bind]
      rw [decide_some cfg _ t1 (Reachable.update hr1 (hleg hf) hu)]
  · simp only [if_true, Option.some_bind]
    rw [decide_some cfg ms _ hr1]

/-- C11: `get_pos` feeds the opponent's move `last` to the tree with
`update(last)` on every call except the first call of a player constructed
with `is_first = true` (the flag `_is_first` is still set exactly then), then
takes `p = decide()`, commits it with `update(p)` and returns `p`.  After
`k >= 1` calls with legal opponent moves the current node of the tree has
depth `2k - 1` for a first mover and `2k` for a second mover; a call returns
when a cell is left empty for the engine, and the cell at the returned position
then holds the engine's own stone. -/
theorem get_pos_protocol (cfg : Config) (f : Bool) (k : Nat) (pl : ComputerPlayer)
    (h : PlayerReach cfg f k pl) :
    (pl._is_first = true ↔ (f = true ∧ k = 0)) ∧
    (1 ≤ k → ∃ cur, pl._tree._root.getAt pl._tree._current = some cur ∧
      cur._depth = if f then 2 * k - 1 else 2 * k) ∧
    (∀ (current : ChessBroad) (last : Position),
      (pl._is_first = false → pl._tree.legal cfg last) →
      pl.get_pos cfg current last =
        ((if pl._is_first then some pl._tree else pl._tree.update cfg last).bind fun t1 =>
          (t1.decide cfg).bind fun r =>
            (r.2.update cfg r.1).map fun t3 => (r.1, (⟨false, t3⟩ : ComputerPlayer))) ∧
      ((∃ q, in_range cfg q ∧ pl._tree._broad.get q = Chess.empty ∧
          (pl._is_first = false → q ≠ last)) →
        ∃ pos pl1, pl.get_pos cfg current last = some (pos, pl1)) ∧
      (∀ (pos : Position) (pl1 : ComputerPlayer),
        pl.get_pos cfg current last = some (pos, pl1) →
        pl1._tree._broad.get pos = if f then Chess.first_player else Chess.second_player)) := by
  obtain ⟨h1, h2, h3⟩ := get_pos_protocol_tot cfg f k pl (player_reach_tot cfg f k pl h)
  refine ⟨h1, h2, ?_⟩
  intro current last hleg
  obtain ⟨_, h4, h5⟩ := h3 current last hleg
  refine ⟨get_pos_unfold cfg pl current last, ?_, ?_⟩
  · rw [get_pos_some cfg f k pl h current last hleg]
    exact h4
  · rw [get_pos_some cfg f k pl h current last hleg]
    exact h5

set_option maxRecDepth 100000 in
theorem flat_player1_reach : PlayerReach cfg_flat true 1 flat_player1 := by
  have h : ((ComputerPlayer.new cfg_flat true).get_pos cfg_flat ChessBroad.init ⟨0, 0⟩).isSome
      = true := by decide
  cases hg : (ComputerPlayer.new cfg_flat true).get_pos cfg_flat ChessBroad.init ⟨0, 0⟩ with
  | none => rw [hg] at h; simp at h
  | some r =>
    have hs : flat_player1 = r.2 := by
      unfold flat_player1
      rw [hg]
    rw [hs]
    exact PlayerReach.get_pos PlayerReach.new (fun hf => absurd hf (by decide)) hg

/-- Instance of C11: the first mover on the 3 x 3 grid after its first call. -/
theorem get_pos_protocol_witness :
    (flat_player1._is_first = true ↔ (true = true ∧ 1 = 0)) ∧
    (1 ≤ 1 → ∃ cur, flat_player1._tree._root.getAt flat_player1._tree._current = some cur ∧
      cur._depth = if true = true then 2 * 1 - 1 else 2 * 1) ∧
    (∀ (current : ChessBroad) (last : Position),
      (flat_player1._is_first = false → flat_player1._tree.legal cfg_flat last) →
      flat_player1.get_pos cfg_flat current last =
        ((if flat_player1._is_first then some flat_player1._tree
          else flat_player1._tree.update cfg_flat last).bind fun t1 =>
          (t1.decide cfg_flat).bind fun r =>
            (r.2.update cfg_flat r.1).map fun t3 => (r.1, (⟨false, t3⟩ : ComputerPlayer))) ∧
      ((∃ q, in_range cfg_flat q ∧ flat_player1._tree._broad.get q = Chess.empty ∧
          (flat_player1._is_first = false → q ≠ last)) →
        ∃ pos pl1, flat_player1.get_pos cfg_flat current last = some (pos, pl1)) ∧
      (∀ (pos : Position) (pl1 : ComputerPlayer),
        flat_player1.get_pos cfg_flat current last = some (pos, pl1) →
        pl1._tree._broad.get pos =
          if true = true then Chess.first_player else Chess.second_player)) :=
  get_pos_protocol cfg_flat true 1 flat_player1 flat_player1_reach

theorem prefix_getElem? {α : Type} (l1 l2 : List α) (h : l1 <+: l2) (i : Nat) (x : α)
    (hx : l1[i]? = some x) : l2[i]? = some x := by
  obtain ⟨t, rfl⟩ := h
  have hi : i < l1.length := by
    by_contra hc
    rw [List.getElem?_eq_none (Nat.le_of_not_lt hc)] at hx
    cases hx
  rw [List.getElem?_append_left hi]
  exact hx

theorem prefix_getElem?_rev {α : Type} (l1 l2 : List α) (h : l1 <+: l2) (i j : Nat) (x y : α)
    (hx : l1[i]? = some x) (hj : j < i) (hy : l2[j]? = some y) : l1[j]? = some y := by
  obtain ⟨t, rfl⟩ := h
  have hi : i < l1.length := by
    by_contra hc
    rw [List.getElem?_eq_none (Nat.le_of_not_lt hc)] at hx
    cases hx
  rw [List.getElem?_append_left (by omega)] at hy
  exact hy

theorem find_best_step_tr_begins (cfg : Config) (n : Node) (b : ChessBroad) (depth_limit : Nat) :
    (n.find_best_step_tr cfg b depth_limit).2 <+:
      (n.find_best_step_tr_tot cfg b depth_limit).2 := by
  rcases find_best_step_tr_le cfg n b depth_limit with h | ⟨_, h⟩
  · rw [h]
  · exact h

/-- C17: in the record of a call of `find_best_step` (the call `decide` makes
on the current node, with depth limit 2), for every node, board, and depth
limit of at least 1, every call of `search` is on a node other than the node
of `find_best_step`, so a node with a parent, the node of the path without
its last index; and the assignment that initialises the parent's score stands
earlier in the record of the same call. -/
theorem search_has_initialised_parent (cfg : Config) (n : Node) (b : ChessBroad)
    (depth_limit : Nat) (hd : 1 ≤ depth_limit) :
    (n.find_best_step_tr cfg b depth_limit).1 = n.find_best_step cfg b depth_limit ∧
    ∀ (i : Nat) (path : List Nat) (p : Int),
      (n.find_best_step_tr cfg b depth_limit).2[i]? = some (Event.search path p) →
      path ≠ [] ∧ ∃ (j : Nat) (s : Int), j < i ∧
        (n.find_best_step_tr cfg b depth_limit).2[j]? = some (Event.init path.dropLast s) := by
  refine ⟨find_best_step_tr_erase cfg n b depth_limit, ?_⟩
  intro i path p h
  have hpre := find_best_step_tr_begins cfg n b depth_limit
  obtain ⟨hp, j, s, hj, hj2⟩ := (search_has_initialised_parent_tot cfg n b depth_limit hd).2 i
    path p (prefix_getElem? _ _ hpre i _ h)
  exact ⟨hp, j, s, hj, prefix_getElem?_rev _ _ hpre i j _ _ h hj hj2⟩

set_option maxRecDepth 100000 in
/-- Instance of C17: in the call `decide` makes on the root of a new tree on
the 3×3 grid, the second event is the search of the first child, and the
first is the assignment that initialises the root's score. -/
theorem search_has_initialised_parent_witness :
    ((Node.root cfg_flat).find_best_step_tr cfg_flat ChessBroad.init 2).2[1]? =
      some (Event.search [0] (lower_bound_score cfg_flat true)) ∧
    ([0] ≠ [] ∧ ∃ (j : Nat) (s : Int), j < 1 ∧
      ((Node.root cfg_flat).find_best_step_tr cfg_flat ChessBroad.init 2).2[j]? =
        some (Event.init ([0] : List Nat).dropLast s)) :=
  ⟨rfl, (search_has_initialised_parent cfg_flat (Node.root cfg_flat) ChessBroad.init 2
    (by decide)).2 1 [0] (lower_bound_score cfg_flat true) rfl⟩

/-- C19: in every state reached from a new tree by `update` calls with legal
moves and `decide` calls, with an empty cell on the board, `decide` returns a
position, and a second `decide` right after it returns the same position; the
second call leaves the state the first call left. -/
theorem decide_idempotent (cfg : Config) (ms : List Position) (t : GomokuTree)
    (h : Reachable cfg ms t)
    (hempty : ∃ p, in_range cfg p ∧ t._broad.get p = Chess.empty) :
    ∃ (pos : Position) (t1 : GomokuTree),
      t.decide cfg = some (pos, t1) ∧ t1.decide cfg = some (pos, t1) := by
  obtain ⟨pos, t1, h1, h2⟩ := decide_idempotent_tot cfg ms t (reachable_tot cfg ms t h) hempty
  have h3 : t.decide cfg = some (pos, t1) := by
    rw [decide_some cfg ms t h]; exact h1
  refine ⟨pos, t1, h3, ?_⟩
  rw [decide_some cfg ms t1 (Reachable.decide h h3)]
  exact h2

/-- Instance of C19: a new tree on the 3×3 grid with the evaluator that scores
every board as the second player's win; the first `decide` marks every child
of the root `cut`, the second skips them. -/
theorem decide_idempotent_witness :
    ∃ (pos : Position) (t1 : GomokuTree),
      (GomokuTree.new cfg_lose).decide cfg_lose = some (pos, t1) ∧
      t1.decide cfg_lose = some (pos, t1) :=
  decide_idempotent cfg_lose [] (GomokuTree.new cfg_lose) Reachable.new
    ⟨⟨0, 0⟩, ⟨by decide, by decide, by decide, by decide⟩, rfl⟩

/-- C15, as the code has it: on an unexpanded node of depth `d` not greater
than the number of cells, `find_childs` returns with the board as it was and
leaves status `normal` (depth and score as they were) and an edge list whose
positions are exactly the empty in-range cells of the board, each once, in
strictly ascending (row, then column) order; every new child is a new node of
depth `d + 1` with no edges, made with this node as parent: it is held by an
edge of this node, which is the node its parent pointer names.  On a node
deeper than the number of cells the call does not return (`reserve` throws).
In every reachable state every node of the tree has its edge list strictly
ascending by position. -/
theorem find_childs_post (cfg : Config) :
    (∀ (n : Node) (b : ChessBroad), n._edges = [] → n._depth ≤ cfg.size * cfg.size →
      ∃ m, n.find_childs cfg b = some (m, b) ∧
        m._status = Status.normal ∧ m._depth = n._depth ∧ m._score = n._score ∧
        (∀ p, p ∈ m._edges.map Prod.fst ↔ (in_range cfg p ∧ b.get p = Chess.empty)) ∧
        (m._edges.map Prod.fst).Nodup ∧
        (m._edges.map Prod.fst).Pairwise
          (fun p q => p.row < q.row ∨ (p.row = q.row ∧ p.column < q.column)) ∧
        (∀ e ∈ m._edges,
          e.2 = Node.new cfg n._depth ∧ e.2._depth = n._depth + 1 ∧ e.2._edges = []) ∧
        (∀ (i : Nat) (e : Position × Node), m._edges[i]? = some e →
          m.getAt [i] = some e.2 ∧ m.parent_at [i] = some m)) ∧
    (∀ (n : Node) (b : ChessBroad), cfg.size * cfg.size < n._depth →
      n.find_childs cfg b = none) ∧
    (∀ (ms : List Position) (t : GomokuTree), Reachable cfg ms t →
      ∀ (q : List Nat) (m : Node), t._root.getAt q = some m →
        (m._edges.map Prod.fst).Pairwise
          (fun p q => p.row < q.row ∨ (p.row = q.row ∧ p.column < q.column))) := by
  obtain ⟨hA, hB⟩ := find_childs_post_tot cfg
  refine ⟨?_, fun n b h => find_childs_none cfg n b h, ?_⟩
  · intro n b he hd
    obtain ⟨h1, h2, h3, h4, h5, h6, h7⟩ := hA n b he
    refine ⟨n.find_childs_tot cfg b, find_childs_some cfg n b hd, h1, h2, h3, h4, h5, h6, h7, ?_⟩
    intro i e hie
    constructor
    · rw [getAt_cons, hie]
      rfl
    · rfl
  · intro ms t hr q m hm
    exact hB ms t (reachable_tot cfg ms t hr) q m hm

/-- Instance of C15's amended statement: a new node of depth 1 on the 3 x 3
board with a stone at (1,1). -/
theorem find_childs_post_witness :
    ∃ m, (Node.new cfg_flat 0).find_childs cfg_flat
        (ChessBroad.init.emplace ⟨1, 1⟩ Chess.first_player) =
        some (m, ChessBroad.init.emplace ⟨1, 1⟩ Chess.first_player) ∧
      m._status = Status.normal ∧ m._depth = (Node.new cfg_flat 0)._depth ∧
      m._score = (Node.new cfg_flat 0)._score ∧
      (∀ p, p ∈ m._edges.map Prod.fst ↔ (in_range cfg_flat p ∧
        (ChessBroad.init.emplace ⟨1, 1⟩ Chess.first_player).get p = Chess.empty)) ∧
      (m._edges.map Prod.fst).Nodup ∧
      (m._edges.map Prod.fst).Pairwise
        (fun p q => p.row < q.row ∨ (p.row = q.row ∧ p.column < q.column)) ∧
      (∀ e ∈ m._edges, e.2 = Node.new cfg_flat (Node.new cfg_flat 0)._depth ∧
        e.2._depth = (Node.new cfg_flat 0)._depth + 1 ∧ e.2._edges = []) ∧
      (∀ (i : Nat) (e : Position × Node), m._edges[i]? = some e →
        m.getAt [i] = some e.2 ∧ m.parent_at [i] = some m) :=
  (find_childs_post cfg_flat).1 (Node.new cfg_flat 0)
    (ChessBroad.init.emplace ⟨1, 1⟩ Chess.first_player) rfl (by decide)

set_option maxRecDepth 100000 in
/-- C15 fails on the code: after ten calls `update((0,0))` on a new tree of
the 3 x 3 grid the current node is unexpanded and has depth 10, one more than
the number of cells; `find_childs` on it does not return, the argument of
`reserve` being negative. -/
theorem find_childs_throws_counterexample :
    (((GomokuTree.new cfg_flat).updates cfg_flat (List.replicate 10 ⟨0, 0⟩)).bind fun t =>
      (t._root.getAt t._current).map fun cur =>
        (cur._depth, cur._edges.length, (cur.find_childs cfg_flat t._broad).isSome)) =
      some (10, 0, false) := by
  decide

end Gomoku
